import Mathlib

/-!
Verification of a Pearl belief-propagation Bayesian-network library.

The development shallowly embeds the Rust source (`bayesian_network.rs`):
* `f64` probabilities become exact rationals (`ℚ`);
* `HashMap` becomes an association list where insertion conses in front and
  lookup returns the first match (so insertion overwrites observationally);
* every `map[key]` / `vec[i]` indexing that can panic, and the `panic!` calls,
  become `Option`/failure results.
-/

namespace BN

abbrev Probability := ℚ

abbrev NodeId := Nat

abbrev Name := String

/-- `NodeType<T>` from the source: a root carries a prior, leaves and
intermediates carry nothing here (their CPT lives on the node). -/
inductive NodeType (T : Type) where
  | Root (prob : List (T × Probability))
  | Leaf
  | Intermediate
deriving DecidableEq

/-- `Node<T>` from the source. -/
structure Node (T : Type) where
  id : NodeId
  parents : List NodeId
  children : List NodeId
  probability : List (List T × List (T × Probability))
  node_type : NodeType T
deriving DecidableEq

/-- `BayesianNetwork<T>` from the source. -/
structure BayesianNetwork (T : Type) where
  nodes : List (Node T)
  node_map : List (Name × NodeId)
  value_space : List T
deriving DecidableEq

/-- Association-list lookup: first match wins (newest insertion is consed in
front, which models `HashMap::insert` overwriting). -/
def lookupKV {K V : Type} [DecidableEq K] (k : K) : List (K × V) → Option V
  | [] => none
  | kv :: rest => if kv.1 = k then some kv.2 else lookupKV k rest

/-- `HashMap::contains_key`. -/
def containsKV {K V : Type} [DecidableEq K] (k : K) (m : List (K × V)) : Bool :=
  (lookupKV k m).isSome

/-- `Vec::contains` on the value space. -/
def elemB {T : Type} [DecidableEq T] (x : T) : List T → Bool
  | [] => false
  | y :: rest => if y = x then true else elemB x rest

/-- Monadic product over a list; `none` models a panicking lookup inside a
`*=` loop. -/
def optProd {α : Type} (f : α → Option ℚ) : List α → Option ℚ
  | [] => some 1
  | a :: l => do
      let x ← f a
      let r ← optProd f l
      pure (x * r)

/-- Monadic sum over a list; `none` models a panicking lookup inside a
`+=` loop. -/
def optSum {α : Type} (f : α → Option ℚ) : List α → Option ℚ
  | [] => some 0
  | a :: l => do
      let x ← f a
      let r ← optSum f l
      pure (x + r)

/-- Monadic map (`None` propagates, like a panic inside the loop body). -/
def optMap {α β : Type} (f : α → Option β) : List α → Option (List β)
  | [] => some []
  | a :: l => do
      let b ← f a
      let r ← optMap f l
      pure (b :: r)

/-- A pi/lambda message store: `HashMap<(NodeId, NodeId), HashMap<T, f64>>`. -/
abbrev MsgMap (T : Type) := List ((NodeId × NodeId) × List (T × Probability))

variable {T : Type} [DecidableEq T]

/-- Indices of parents that appear in the evidence map
(`evident_parents` in `pass_pi`/`pass_lambda`/`infer`). -/
def evidentParents (evidence : List (NodeId × T)) (parents : List NodeId) : List Nat :=
  ((parents.enum.filter fun p => containsKV p.2 evidence).map fun p => p.1)

/-- The `skip` test over a CPT key tuple: `true` iff some evident parent's
position in the tuple disagrees with the evidence (with the source's
short-circuiting and its potentially panicking `parent_values[*e]` index). -/
def skipCheck (evidence : List (NodeId × T)) (parents : List NodeId) (tuple : List T) :
    List Nat → Option Bool
  | [] => some false
  | e :: rest => do
      let tv ← tuple[e]?
      let p ← parents[e]?
      let ev ← lookupKV p evidence
      if tv ≠ ev then pure true else skipCheck evidence parents tuple rest

/-- `parent_mul` in `pass_pi` and in the belief-combination part of `infer`:
product over all parents of their incoming pi-message at the tuple's value. -/
def piParentMul (piMap : MsgMap T) (nid : NodeId) (parents : List NodeId)
    (tuple : List T) : Option ℚ :=
  optProd (fun ip => do
      let msg ← lookupKV (ip.2, nid) piMap
      let tv ← tuple[ip.1]?
      lookupKV tv msg) parents.enum

/-- The `sum` computed per value in `pass_pi` (and the `pi` computed per value
in the belief-combination part of `infer`, which is literally the same code):
evidence indicator, root prior, or the CPT sum over evidence-consistent keys. -/
def piSumValue (node : Node T) (evidence : List (NodeId × T)) (piMap : MsgMap T)
    (value : T) : Option ℚ :=
  match lookupKV node.id evidence with
  | some ev => some (if ev = value then 1 else 0)
  | none =>
    match node.node_type with
    | NodeType.Root probMap => lookupKV value probMap
    | _ =>
      optSum (fun entry => do
          let skip ← skipCheck evidence node.parents entry.1
            (evidentParents evidence node.parents)
          if skip then pure 0
          else do
            let pm ← piParentMul piMap node.id node.parents entry.1
            let pv ← lookupKV value entry.2
            pure (pv * pm)) node.probability

/-- Build a per-value message map by iterating the value space
(the `map.insert(value.clone(), ...)` loop). -/
def msgOfFn (vs : List T) (f : T → Option ℚ) : Option (List (T × Probability)) :=
  optMap (fun v => (f v).map fun q => (v, q)) vs

/-- `pass_pi`: compute the pi-message from `node` to `child` and store it. -/
def passPi (vs : List T) (node : Node T) (child : NodeId)
    (evidence : List (NodeId × T)) (lambdaMap piMap : MsgMap T) :
    Option (MsgMap T) := do
  let msg ← msgOfFn vs fun value => do
      let lam ← optProd (fun oc => do
            let m ← lookupKV (oc, node.id) lambdaMap
            lookupKV value m)
          (node.children.filter fun oc => oc ≠ child)
      let s ← piSumValue node evidence piMap value
      pure (lam * s)
  pure (((node.id, child), msg) :: piMap)

/-- The inner `node_sum` term of `pass_lambda` for one domain value `x`:
product of the children's lambda-messages at `x` times the CPT row at `x`. -/
def lamCore (node : Node T) (lambdaMap : MsgMap T) (row : List (T × Probability))
    (x : T) : Option ℚ := do
  let lam ← optProd (fun c => do
        let m ← lookupKV (c, node.id) lambdaMap
        lookupKV x m) node.children
  let pv ← lookupKV x row
  pure (lam * pv)

/-- One CPT entry's contribution to `lambda_{node -> parent}(value)` in
`pass_lambda`. -/
def lamEntry (vs : List T) (evidence : List (NodeId × T)) (node : Node T)
    (parent : NodeId) (parentIndex : Nat) (piMap lambdaMap : MsgMap T) (value : T)
    (entry : List T × List (T × Probability)) : Option ℚ := do
  let tv ← entry.1[parentIndex]?
  if tv ≠ value then pure 0
  else do
    let skip ← skipCheck evidence node.parents entry.1
      (evidentParents evidence node.parents)
    if skip then pure 0
    else do
      let pm ← optProd (fun ip =>
            if ip.2 = parent then pure 1
            else do
              let m ← lookupKV (ip.2, node.id) piMap
              let tv2 ← entry.1[ip.1]?
              lookupKV tv2 m) node.parents.enum
      let ns ← optSum (fun x =>
            match lookupKV node.id evidence with
            | some e => if e ≠ x then pure 0 else lamCore node lambdaMap entry.2 x
            | none => lamCore node lambdaMap entry.2 x) vs
      pure (pm * ns)

/-- `pass_lambda`: compute the lambda-message from `node` to `parent`
(at position `parentIndex` of the parent list) and store it. -/
def passLambda (vs : List T) (node : Node T) (parent : NodeId) (parentIndex : Nat)
    (evidence : List (NodeId × T)) (piMap lambdaMap : MsgMap T) :
    Option (MsgMap T) := do
  let msg ← msgOfFn vs fun value =>
    optSum (lamEntry vs evidence node parent parentIndex piMap lambdaMap value)
      node.probability
  pure (((node.id, parent), msg) :: lambdaMap)

/-- Scheduler state: the two message stores plus the sweep's `update` flag. -/
structure PropState (T : Type) where
  piMap : MsgMap T
  lambdaMap : MsgMap T
  upd : Bool
deriving DecidableEq

/-- Emit the pi-message to `child` unless already present (sets `update`). -/
def processPiChild (vs : List T) (node : Node T) (evidence : List (NodeId × T))
    (st : PropState T) (child : NodeId) : Option (PropState T) :=
  if containsKV (node.id, child) st.piMap then some st
  else do
    let pm ← passPi vs node child evidence st.lambdaMap st.piMap
    pure { st with piMap := pm, upd := true }

/-- Emit the lambda-message to the parent in `ip` unless already present. -/
def processLamParent (vs : List T) (node : Node T) (evidence : List (NodeId × T))
    (st : PropState T) (ip : Nat × NodeId) : Option (PropState T) :=
  if containsKV (node.id, ip.2) st.lambdaMap then some st
  else do
    let lm ← passLambda vs node ip.2 ip.1 evidence st.piMap st.lambdaMap
    pure { st with lambdaMap := lm, upd := true }

/-- State-threading fold with failure (the sequential `for` loops). -/
def foldSt {α : Type} (f : PropState T → α → Option (PropState T)) :
    PropState T → List α → Option (PropState T)
  | st, [] => some st
  | st, a :: l => do
      let st' ← f st a
      foldSt f st' l

/-- The pi half of one node's processing in the sweep of `infer`.  The
returned boolean is `false` exactly when the source's `continue` at
`lambda_count + 2 <= children_num` skips the lambda half of this node. -/
def phasePi (vs : List T) (node : Node T) (evidence : List (NodeId × T))
    (st : PropState T) : Option (PropState T × Bool) :=
  if node.parents.all fun p => containsKV (p, node.id) st.piMap then
    let cnum := node.children.length
    let lcount := (node.children.filter fun c => containsKV (c, node.id) st.lambdaMap).length
    if lcount + 2 ≤ cnum then some (st, false)
    else if lcount + 1 = cnum then
      (foldSt (fun s c =>
          if containsKV (c, node.id) s.lambdaMap then some s
          else processPiChild vs node evidence s c) st node.children).map (·, true)
    else
      (foldSt (processPiChild vs node evidence) st node.children).map (·, true)
  else some (st, true)

/-- The lambda half of one node's processing in the sweep of `infer`. -/
def phaseLam (vs : List T) (node : Node T) (evidence : List (NodeId × T))
    (st : PropState T) : Option (PropState T) :=
  if node.children.all fun c => containsKV (c, node.id) st.lambdaMap then
    let pnum := node.parents.length
    let pcount := (node.parents.filter fun p => containsKV (p, node.id) st.piMap).length
    if pcount + 2 ≤ pnum then some st
    else if pcount + 1 = pnum then
      foldSt (fun s ip =>
          if containsKV (ip.2, node.id) s.piMap then some s
          else processLamParent vs node evidence s ip) st node.parents.enum
    else
      foldSt (processLamParent vs node evidence) st node.parents.enum
  else some st

/-- One node's processing during a sweep: pi phase, then (unless skipped)
lambda phase. -/
def processNode (vs : List T) (evidence : List (NodeId × T)) (st : PropState T)
    (node : Node T) : Option (PropState T) := do
  let sc ← phasePi vs node evidence st
  if sc.2 then phaseLam vs node evidence sc.1 else pure sc.1

/-- One full sweep over all nodes. -/
def sweep (vs : List T) (nodes : List (Node T)) (evidence : List (NodeId × T))
    (st : PropState T) : Option (PropState T) :=
  foldSt (processNode vs evidence) st nodes

/-- The `loop { ... }` of `infer`, fuelled: sweeps until a sweep adds no
message.  The fuel only bounds the number of sweeps; `loopSweeps` below shows
the chosen fuel always suffices. -/
def loop (vs : List T) (nodes : List (Node T)) (evidence : List (NodeId × T)) :
    Nat → PropState T → Option (PropState T)
  | 0, _ => none
  | fuel + 1, st => do
      let st' ← sweep vs nodes evidence st
      if st'.upd then loop vs nodes evidence fuel { st' with upd := false }
      else pure st'

/-- Enough sweeps for any network: one more than the total number of
directed-edge endpoints, since every continuing sweep stores a fresh message. -/
def fuelOf (net : BayesianNetwork T) : Nat :=
  (net.nodes.map fun n => n.children.length + n.parents.length).sum + 1

/-- The evidence-conversion loop at the top of `infer`
(`self.node_map[&name]` panics on an unknown name). -/
def evidenceIds (net : BayesianNetwork T) (ev : List (Name × T)) :
    Option (List (NodeId × T)) :=
  ev.foldl (fun acc p => do
      let a ← acc
      let i ← lookupKV p.1 net.node_map
      pure ((i, p.2) :: a)) (some [])

/-- The unnormalized beliefs (`probs`) of one node in the belief-combination
part of `infer`; the per-value `pi` there is literally `pass_pi`'s sum, so
`piSumValue` is reused. -/
def nodeProbs (vs : List T) (node : Node T) (evidence : List (NodeId × T))
    (piMap lambdaMap : MsgMap T) : Option (List ℚ) :=
  optMap (fun value => do
      let lam ← optProd (fun c => do
            let m ← lookupKV (c, node.id) lambdaMap
            lookupKV value m) node.children
      let pi ← piSumValue node evidence piMap value
      pure (lam * pi)) vs

/-- Normalization: `map.insert(value, probs[i] / sum)`.  In `ℚ`, division by a
zero sum yields `0` (the `f64` source silently yields `NaN` there). -/
def normalizeMap (vs : List T) (probs : List ℚ) : Option (List (T × Probability)) :=
  optMap (fun iv => (probs[iv.1]?).map fun q => (iv.2, q / probs.sum)) vs.enum

/-- `infer`: resolve evidence names, run the message-passing loop to its fixed
point, then combine and normalize beliefs for every node. -/
def infer (net : BayesianNetwork T) (ev : List (Name × T)) :
    Option (List (List (T × Probability))) := do
  let evidence ← evidenceIds net ev
  let st ← loop net.value_space net.nodes evidence (fuelOf net) ⟨[], [], false⟩
  optMap (fun node => do
      let probs ← nodeProbs net.value_space node evidence st.piMap st.lambdaMap
      normalizeMap net.value_space probs) net.nodes

/-! ### Construction API -/

/-- Result of a construction call: the network state as left behind (Rust's
`&mut self` keeps its mutations even when the call panics), whether the call
succeeded (`ok = false` models a `panic!`), and how many sum-to-one warnings
were printed. -/
structure BuildOut (T : Type) where
  net : BayesianNetwork T
  ok : Bool
  warns : Nat
deriving DecidableEq

/-- `BayesianNetwork::new`. -/
def new (vs : List T) : BayesianNetwork T := ⟨[], [], vs⟩

/-- The sum-to-one tolerance `0.0000001`. -/
def tol : ℚ := 1 / 10000000

/-- Push a fresh node and (re)bind its name (`add_node`'s mutation part). -/
def pushNode (net : BayesianNetwork T) (name : Name) (nt : NodeType T) :
    BayesianNetwork T :=
  { net with
    nodes := net.nodes ++ [⟨net.nodes.length, [], [], [], nt⟩]
    node_map := (name, net.nodes.length) :: net.node_map }

/-- `add_node`: validates a root's prior (coverage of the whole value space,
keys inside the value space, sum-to-one warning) and appends the node. -/
def addNode (net : BayesianNetwork T) (name : Name) (node_type : NodeType T) :
    BuildOut T :=
  match node_type with
  | NodeType.Root prob =>
      if net.value_space.all fun v => containsKV v prob then
        if prob.all fun e => elemB e.1 net.value_space then
          let s := (prob.map fun e => e.2).sum
          ⟨pushNode net name node_type, true, if tol < |s - 1| then 1 else 0⟩
        else ⟨net, false, 0⟩
      else ⟨net, false, 0⟩
  | _ => ⟨pushNode net name node_type, true, 0⟩

/-- The CPT validation loop at the top of `add_dependency`: per entry, key
arity, key values inside the domain, row coverage of the domain, then a
sum-to-one warning.  Returns the warnings printed before any panic and
whether the loop survived. -/
def cptValidate (vs : List T) (plen : Nat) :
    List (List T × List (T × Probability)) → Nat × Bool
  | [] => (0, true)
  | entry :: rest =>
      if entry.1.length = plen then
        if entry.1.all fun x => elemB x vs then
          if vs.all fun v => containsKV v entry.2 then
            let s := (entry.2.map fun e => e.2).sum
            let w : Nat := if tol < |s - 1| then 1 else 0
            let r := cptValidate vs plen rest
            (w + r.1, r.2)
          else (0, false)
        else (0, false)
      else (0, false)

/-- In-place update of one node (`self.nodes[i]` mutation). -/
def updateAt (net : BayesianNetwork T) (i : NodeId) (f : Node T → Node T) :
    BayesianNetwork T :=
  { net with
    nodes := match net.nodes[i]? with
      | some nd => net.nodes.set i (f nd)
      | none => net.nodes }

/-- `self.nodes[parent_id].children.push(child_id);
self.nodes[child_id].parents.push(parent_id);` -/
def pushEdge (net : BayesianNetwork T) (pid cid : NodeId) : BayesianNetwork T :=
  updateAt (updateAt net pid fun nd => { nd with children := nd.children ++ [cid] })
    cid fun nd => { nd with parents := nd.parents ++ [pid] }

/-- Is this a leaf / root node type (the two `if let` checks). -/
def isLeafType : NodeType T → Bool
  | NodeType.Leaf => true
  | _ => false

def isRootType : NodeType T → Bool
  | NodeType.Root _ => true
  | _ => false

/-- The parent loop of `add_dependency`.  Edges pushed before a panic remain
in the returned network, exactly as the Rust `&mut self` keeps them. -/
def depMutate (cid : NodeId) : BayesianNetwork T → List Name →
    BayesianNetwork T × Bool
  | net, [] => (net, true)
  | net, pname :: rest =>
      match lookupKV pname net.node_map with
      | none => (net, false)
      | some pid =>
        match net.nodes[pid]? with
        | none => (net, false)
        | some pnode =>
          if isLeafType pnode.node_type then (net, false)
          else
            match net.nodes[cid]? with
            | none => (net, false)
            | some cnode =>
              if isRootType cnode.node_type then (net, false)
              else depMutate cid (pushEdge net pid cid) rest

/-- The tail of `add_dependency` once the child id is resolved: run the parent
loop and, if it survives, overwrite the child's CPT wholesale
(`self.nodes[child_id].probability = prob;`). -/
def addDependencyMutate (net : BayesianNetwork T) (parent_names : List Name)
    (prob : List (List T × List (T × Probability))) (w : Nat) (cid : NodeId) :
    BuildOut T :=
  let dm := depMutate cid net parent_names
  if dm.2 then
    match dm.1.nodes[cid]? with
    | some cnode =>
        ⟨{ dm.1 with nodes := dm.1.nodes.set cid { cnode with probability := prob } },
          true, w⟩
    | none => ⟨dm.1, false, w⟩
  else ⟨dm.1, false, w⟩

/-- `add_dependency`: validate the CPT, resolve the child
(`self.node_map[child_name]` panics on unknown names), then mutate. -/
def addDependency (net : BayesianNetwork T) (parent_names : List Name)
    (child_name : Name) (prob : List (List T × List (T × Probability))) :
    BuildOut T :=
  let vr := cptValidate net.value_space parent_names.length prob
  if vr.2 then
    match lookupKV child_name net.node_map with
    | none => ⟨net, false, vr.1⟩
    | some cid => addDependencyMutate net parent_names prob vr.1 cid
  else ⟨net, false, vr.1⟩

/-- `get_node_index` (`self.node_map[name]`, panics on unknown names). -/
def getNodeIndex (net : BayesianNetwork T) (name : Name) : Option NodeId :=
  lookupKV name net.node_map

/-- `get_inferred_probability`. -/
def getInferredProbability (net : BayesianNetwork T)
    (inferred : List (List (T × Probability))) (name : Name) (value : T) :
    Option Probability :=
  if containsKV name net.node_map then
    if elemB value net.value_space then do
      let idx ← getNodeIndex net name
      let m ← inferred[idx]?
      lookupKV value m
    else none
  else none

/-- The per-node normalization denominators (`let sum: Probability =
probs.iter().sum()` in `infer`), exposed so that theorems can speak about the
degenerate zero-denominator case. -/
def inferDenoms (net : BayesianNetwork T) (ev : List (Name × T)) :
    Option (List ℚ) := do
  let evidence ← evidenceIds net ev
  let st ← loop net.value_space net.nodes evidence (fuelOf net) ⟨[], [], false⟩
  optMap (fun node =>
      (nodeProbs net.value_space node evidence st.piMap st.lambdaMap).map
        fun probs => probs.sum) net.nodes

/-! ### Spec-side formula for the lambda-message (§4.1 of the spec)

`specLambda` renders the spec sentence
`lambda_{X->P}(p) = Σ over CPT key tuples with tuple[idx] = p and otherwise
consistent with evidence ... [ Π_{P'≠P} pi_{P'->X}(tuple[P'_idx]) ] *
Σ_{x consistent with X's evidence} [ Π_C lambda_{C->X}(x) ] * CPT(x | tuple)`
as a pure rational, with the incoming messages given as total functions.
`selfConstrained = false` is the claim's reading (the tuple's value at
position `idx` is *not* constrained by evidence on P itself);
`selfConstrained = true` constrains every evident parent position. -/

/-- Does `tuple` agree with the evidence at every evident parent position
(positions equal to `skipIdx` exempted)? -/
def tupleConsistent (evidence : List (NodeId × T)) (parents : List NodeId)
    (tuple : List T) (skipIdx : Option Nat) : Bool :=
  parents.enum.all fun ip =>
    decide (skipIdx = some ip.1) ||
      match lookupKV ip.2 evidence with
      | none => true
      | some ev => decide (tuple[ip.1]? = some ev)

/-- The spec's lambda-message formula; see the section comment above. -/
def specLambda (vs : List T) (evidence : List (NodeId × T))
    (parents children : List NodeId) (nid : NodeId)
    (cpt : List (List T × List (T × Probability))) (parentId : NodeId)
    (idx : Nat) (piF lamF : NodeId → T → ℚ) (dflt : T)
    (selfConstrained : Bool) (p : T) : ℚ :=
  ((cpt.filter fun e =>
      decide (e.1[idx]? = some p) &&
        tupleConsistent evidence parents e.1
          (if selfConstrained then none else some idx)).map fun e =>
    (((parents.enum.filter fun ip => ip.2 ≠ parentId).map fun ip =>
        piF ip.2 ((e.1[ip.1]?).getD dflt)).prod) *
    (((vs.filter fun x =>
        match lookupKV nid evidence with
        | some ev => decide (x = ev)
        | none => true).map fun x =>
      ((children.map fun c => lamF c x).prod) * ((lookupKV x e.2).getD 0)).sum)).sum

/-! ### Concrete networks used by counterexamples and witnesses -/

/-- Root `A` with prior one half / one half over domain `{0, 1}`. -/
def netA : BayesianNetwork Nat :=
  (addNode (new [0, 1]) "A" (NodeType.Root [(0, 1/2), (1, 1/2)])).net

/-- `A → B` chain whose CPT gives value `1` of `B` probability zero under
every parent value, so evidence `B = 1` has zero joint probability. -/
def netAB0 : BayesianNetwork Nat :=
  (addDependency (addNode netA "B" NodeType.Leaf).net
    ["A"] "B" [([0], [(0, 1), (1, 0)]), ([1], [(0, 1), (1, 0)])]).net

/-- A uniform CPT row over `{0, 1}`. -/
def rowHalf : List (Nat × ℚ) := [(0, 1/2), (1, 1/2)]

/-- Three nodes with no edges: `P1` intermediate, `P2` leaf, `C` leaf. -/
def netPPC : BayesianNetwork Nat :=
  (addNode (addNode (addNode (new [0, 1]) "P1" NodeType.Intermediate).net
    "P2" NodeType.Leaf).net "C" NodeType.Leaf).net

/-- A full-coverage arity-2 CPT over `{0, 1}` with uniform rows. -/
def cpt2 : List (List Nat × List (Nat × ℚ)) :=
  [([0, 0], rowHalf), ([0, 1], rowHalf), ([1, 0], rowHalf), ([1, 1], rowHalf)]

/-- A leaf node (id 1) with the single parent 0 and a uniform full-coverage
CPT, used to compare `pass_lambda` against the spec formula. -/
def cnodeX : Node Nat := ⟨1, [0], [], [([0], rowHalf), ([1], rowHalf)], NodeType.Leaf⟩

/-! ### Well-formedness and the message invariant used for the root-prior
analysis of `infer` under empty evidence -/

/-- Prepend every value of `ws` to every tuple of `vss`. -/
def tuplesCons (vss : List (List T)) : List T → List (List T)
  | [] => []
  | v :: ws => (vss.map fun t => v :: t) ++ tuplesCons vss ws

/-- All length-`n` tuples over the value space: the key set of a complete
CPT. -/
def allTuples (vs : List T) : Nat → List (List T)
  | 0 => [[]]
  | n + 1 => tuplesCons (allTuples vs n) vs

/-- Product over the positions of a tuple of a per-parent factor. -/
def zipProd (F : NodeId → T → ℚ) (ps : List NodeId) (t : List T) : ℚ :=
  ((ps.zip t).map fun pt => F pt.1 pt.2).prod

/-- The value function of the pi-message stored for the edge `p → nid`. -/
def Fpi (piMap : MsgMap T) (nid : NodeId) (p : NodeId) (v : T) : ℚ :=
  ((lookupKV (p, nid) piMap).bind (lookupKV v)).getD 0

/-- A message map identically `1` on the value space. -/
def MsgOne (vs : List T) (m : List (T × Probability)) : Prop :=
  ∀ v ∈ vs, lookupKV v m = some 1

/-- A message map total on the value space whose values sum to `1`. -/
def MsgSumOne (vs : List T) (m : List (T × Probability)) : Prop :=
  (∀ v ∈ vs, (lookupKV v m).isSome = true) ∧
    (vs.map fun v => (lookupKV v m).getD 0).sum = 1

/-- The propagation invariant under empty evidence: every stored pi-message
sums to `1` over the value space and every stored lambda-message is
identically `1`. -/
def StInv (vs : List T) (st : PropState T) : Prop :=
  (∀ k m, lookupKV k st.piMap = some m → MsgSumOne vs m) ∧
    ∀ k m, lookupKV k st.lambdaMap = some m → MsgOne vs m

/-- Per-node well-formedness: a root has no parents and a normalized prior
covering the value space; any other node has duplicate-free parents, a CPT
whose key set is the complete tuple set (up to order), and rows covering the
value space and summing to `1`. -/
def NodeWF (vs : List T) (n : Node T) : Prop :=
  match n.node_type with
  | NodeType.Root pm =>
      n.parents = [] ∧ (∀ x ∈ vs, (lookupKV x pm).isSome = true) ∧
        (vs.map fun x => (lookupKV x pm).getD 0).sum = 1
  | _ =>
      n.parents.Nodup ∧
        (n.probability.map fun e => e.1).Perm (allTuples vs n.parents.length) ∧
        ∀ e ∈ n.probability, (∀ x ∈ vs, (lookupKV x e.2).isSome = true) ∧
          (vs.map fun x => (lookupKV x e.2).getD 0).sum = 1

/-- Network well-formedness: a nonempty duplicate-free value space and
well-formed nodes. -/
def NetWF (net : BayesianNetwork T) : Prop :=
  net.value_space ≠ [] ∧ net.value_space.Nodup ∧
    ∀ n ∈ net.nodes, NodeWF net.value_space n

/-- Root `A` whose configured prior `[(0, 1), (1, 1)]` is unnormalized (each
value carries weight `1`); `add_node` warns but stores the values as given. -/
def netC5 : BayesianNetwork Nat :=
  (addNode (new [0, 1]) "A" (NodeType.Root [(0, 1), (1, 1)])).net

/-! ### Definitions for the polytree propagation analysis of the sweep loop -/

/-- Directed parent→child message slots: one key `(n.id, c)` per child edge. -/
def piEdges (net : BayesianNetwork T) : List (NodeId × NodeId) :=
  net.nodes.foldr (fun n acc => (n.children.map fun c => (n.id, c)) ++ acc) []

/-- Directed child→parent message slots: one key `(n.id, p)` per parent edge. -/
def lamEdges (net : BayesianNetwork T) : List (NodeId × NodeId) :=
  net.nodes.foldr (fun n acc => (n.parents.map fun p => (n.id, p)) ++ acc) []

/-- Total number of stored messages. -/
def muSize (st : PropState T) : Nat := st.piMap.length + st.lambdaMap.length

/-- The undirected skeleton of the network on node indices. -/
def skeleton (net : BayesianNetwork T) : SimpleGraph (Fin net.nodes.length) where
  Adj i j := i ≠ j ∧
    (j.1 ∈ (net.nodes.get i).children ∨ i.1 ∈ (net.nodes.get j).children ∨
      j.1 ∈ (net.nodes.get i).parents ∨ i.1 ∈ (net.nodes.get j).parents)
  symm := by
    intro i j h
    refine ⟨h.1.symm, ?_⟩
    tauto
  loopless := by
    intro i h
    exact h.1 rfl

/-- A directed message slot the store `st` does not hold. -/
def missingMsg (net : BayesianNetwork T) (st : PropState T)
    (i j : Fin net.nodes.length) : Prop :=
  (j.1 ∈ (net.nodes.get i).children ∧ containsKV (i.1, j.1) st.piMap = false) ∨
    (j.1 ∈ (net.nodes.get i).parents ∧ containsKV (i.1, j.1) st.lambdaMap = false)

/-- Does a root node's prior cover the whole value space? (`true` for
non-root nodes.) -/
def rootCovered (vs : List T) (n : Node T) : Bool :=
  match n.node_type with
  | NodeType.Root pm => vs.all fun x => (lookupKV x pm).isSome
  | _ => true

/-- Structural well-formedness for the propagation analysis: positional node
ids; duplicate-free in-range adjacency with parent and child lists symmetric
across nodes and disjoint at each node; no self-loops; priors covering the
value space; CPT keys of full arity over domain values and rows defined on
every domain value. -/
def PropagationWF (net : BayesianNetwork T) : Prop :=
  (∀ ip ∈ net.nodes.enum, ip.2.id = ip.1) ∧
  (∀ n ∈ net.nodes, n.children.Nodup ∧ n.parents.Nodup ∧
    (∀ c ∈ n.children, c < net.nodes.length) ∧
    (∀ p ∈ n.parents, p < net.nodes.length) ∧
    (∀ x ∈ n.children, x ∉ n.parents) ∧
    n.id ∉ n.children ∧ n.id ∉ n.parents) ∧
  (∀ ip ∈ net.nodes.enum, ∀ jq ∈ net.nodes.enum,
    (jq.1 ∈ ip.2.children ↔ ip.1 ∈ jq.2.parents)) ∧
  (∀ n ∈ net.nodes, rootCovered net.value_space n = true ∧
    ∀ e ∈ n.probability, e.1.length = n.parents.length ∧
      (∀ x ∈ e.1, x ∈ net.value_space) ∧
      ∀ x ∈ net.value_space, (lookupKV x e.2).isSome = true)

/-- The invariant carried through the sweep loop for the propagation
analysis: every stored message covers the value space, and the stored keys
are duplicate-free and name genuine directed edges. -/
def C3Inv (net : BayesianNetwork T) (s : PropState T) : Prop :=
  (∀ k m, lookupKV k s.piMap = some m ∨ lookupKV k s.lambdaMap = some m →
    ∀ v ∈ net.value_space, (lookupKV v m).isSome = true) ∧
  (s.piMap.map Prod.fst).Nodup ∧ (s.lambdaMap.map Prod.fst).Nodup ∧
  (∀ k ∈ s.piMap.map Prod.fst, k ∈ piEdges net) ∧
  (∀ k ∈ s.lambdaMap.map Prod.fst, k ∈ lamEdges net)

/-- The per-node facts needed for a sweep step to succeed: duplicate-free
adjacency, a covering prior for roots, and full-arity in-domain CPT keys with
rows covering the value space. -/
def NodeC3WF (net : BayesianNetwork T) (n : Node T) : Prop :=
  n.children.Nodup ∧ n.parents.Nodup ∧ rootCovered net.value_space n = true ∧
    ∀ e ∈ n.probability, e.1.length = n.parents.length ∧
      (∀ x ∈ e.1, x ∈ net.value_space) ∧
      ∀ x ∈ net.value_space, (lookupKV x e.2).isSome = true

/-- One scheduler step either leaves the state unchanged or marks `update`
and stores strictly more messages. -/
def StepRel (s s' : PropState T) : Prop :=
  s' = s ∨ (s'.upd = true ∧ muSize s < muSize s')

/-! ## Theorems -/

/-! ### Generic helper lemmas -/

theorem getElem_some_lt {α : Type} {l : List α} {i : Nat} {a : α}
    (h : l[i]? = some a) : i < l.length :=
  (List.getElem?_eq_some.mp h).1

theorem getb_append_length {α : Type} (l : List α) (a : α) :
    (l ++ [a])[l.length]? = some a := by simp

theorem optMap_length {α β : Type} {f : α → Option β} : ∀ {l : List α} {r : List β},
    optMap f l = some r → r.length = l.length := by
  intro l
  induction l with
  | nil => intro r h; cases h; rfl
  | cons a l ih =>
      intro r h
      simp only [optMap, Option.bind_eq_bind, bind, Option.bind] at h
      cases hf : f a with
      | none => rw [hf] at h; cases h
      | some b =>
          rw [hf] at h
          cases hr : optMap f l with
          | none => rw [hr] at h; cases h
          | some r' => rw [hr] at h; cases h; simp [ih hr]

theorem optMapIdx {α β : Type} {f : α → Option β} : ∀ {l : List α} {r : List β},
    optMap f l = some r → ∀ {i : Nat} {a : α}, l[i]? = some a →
      ∃ b, r[i]? = some b ∧ f a = some b := by
  intro l
  induction l with
  | nil => intro r _ i a ha; cases ha
  | cons x l ih =>
      intro r h i a ha
      simp only [optMap, Option.bind_eq_bind, bind, Option.bind] at h
      cases hf : f x with
      | none => rw [hf] at h; cases h
      | some b =>
          rw [hf] at h
          cases hr : optMap f l with
          | none => rw [hr] at h; cases h
          | some r' =>
              rw [hr] at h; cases h
              cases i with
              | zero =>
                  rw [List.getElem?_cons_zero] at ha
                  cases ha
                  exact ⟨b, by simp, hf⟩
              | succ i =>
                  rw [List.getElem?_cons_succ] at ha
                  obtain ⟨b', hb', hfb'⟩ := ih hr ha
                  refine ⟨b', ?_, hfb'⟩
                  rw [List.getElem?_cons_succ]
                  exact hb'

theorem optMap_mem {α β : Type} {f : α → Option β} {l : List α} {r : List β}
    (h : optMap f l = some r) {a : α} (ha : a ∈ l) : ∃ b, f a = some b := by
  obtain ⟨i, hlt, he⟩ := List.mem_iff_getElem.mp ha
  have hgi : l[i]? = some a := by
    rw [List.getElem?_eq_getElem hlt]
    exact congrArg some he
  obtain ⟨b, _, hb⟩ := optMapIdx h hgi
  exact ⟨b, hb⟩

theorem optSum_congr {α : Type} {g : α → Option ℚ} {f : α → ℚ} : ∀ {l : List α},
    (∀ a ∈ l, g a = some (f a)) → optSum g l = some ((l.map f).sum) := by
  intro l
  induction l with
  | nil => intro _; rfl
  | cons a l ih =>
      intro h
      simp only [optSum, Option.bind_eq_bind, bind, Option.bind, Option.pure_def,
        h a (List.mem_cons_self a l), ih fun b hb => h b (List.mem_cons_of_mem a hb),
        List.map_cons, List.sum_cons]

theorem optProd_congr {α : Type} {g : α → Option ℚ} {f : α → ℚ} : ∀ {l : List α},
    (∀ a ∈ l, g a = some (f a)) → optProd g l = some ((l.map f).prod) := by
  intro l
  induction l with
  | nil => intro _; rfl
  | cons a l ih =>
      intro h
      simp only [optProd, Option.bind_eq_bind, bind, Option.bind, Option.pure_def,
        h a (List.mem_cons_self a l), ih fun b hb => h b (List.mem_cons_of_mem a hb),
        List.map_cons, List.prod_cons]

theorem msgOfFn_lookup {vs : List T} {f : T → Option ℚ} {m : List (T × Probability)}
    (hm : msgOfFn vs f = some m) : ∀ {v : T}, v ∈ vs →
      ∃ q, f v = some q ∧ lookupKV v m = some q := by
  induction vs generalizing m with
  | nil => intro v hv; cases hv
  | cons w vs ih =>
      intro v hv
      simp only [msgOfFn, optMap, Option.bind_eq_bind, bind, Option.bind] at hm
      cases hf : (f w).map fun q => (w, q) with
      | none => rw [hf] at hm; cases hm
      | some p =>
          rw [hf] at hm
          cases hr : optMap (fun v => (f v).map fun q => (v, q)) vs with
          | none => rw [hr] at hm; cases hm
          | some m' =>
              rw [hr] at hm; cases hm
              cases hq : f w with
              | none => rw [hq] at hf; cases hf
              | some q =>
                  rw [hq] at hf
                  cases hf
                  rcases List.mem_cons.mp hv with hv | hv
                  · subst hv
                    exact ⟨q, hq, by simp [lookupKV]⟩
                  · by_cases hwv : w = v
                    · subst hwv
                      exact ⟨q, hq, by simp [lookupKV]⟩
                    · obtain ⟨q', hq', hl⟩ := ih hr hv
                      exact ⟨q', hq', by simp [lookupKV, hwv, hl]⟩

/-! ### `updateAt` / `pushEdge` / `depMutate` lemmas -/

theorem updateAt_node_map (net : BayesianNetwork T) (i : NodeId) (f : Node T → Node T) :
    (updateAt net i f).node_map = net.node_map := by
  unfold updateAt; cases net.nodes[i]? <;> rfl

theorem updateAt_value_space (net : BayesianNetwork T) (i : NodeId) (f : Node T → Node T) :
    (updateAt net i f).value_space = net.value_space := by
  unfold updateAt; cases net.nodes[i]? <;> rfl

theorem updateAt_length (net : BayesianNetwork T) (i : NodeId) (f : Node T → Node T) :
    (updateAt net i f).nodes.length = net.nodes.length := by
  unfold updateAt; cases net.nodes[i]? <;> simp

theorem updateAt_get_self {net : BayesianNetwork T} {i : NodeId} {nd : Node T}
    (f : Node T → Node T) (h : net.nodes[i]? = some nd) :
    (updateAt net i f).nodes[i]? = some (f nd) := by
  unfold updateAt
  rw [h]
  exact List.getElem?_set_eq_of_lt _ (getElem_some_lt h)

theorem updateAt_get_other {net : BayesianNetwork T} {i j : NodeId}
    (f : Node T → Node T) (h : j ≠ i) :
    (updateAt net i f).nodes[j]? = net.nodes[j]? := by
  unfold updateAt
  cases hg : net.nodes[i]? with
  | none => rfl
  | some nd => exact List.getElem?_set_ne fun he => h he.symm

theorem pushEdge_node_map (net : BayesianNetwork T) (pid cid : NodeId) :
    (pushEdge net pid cid).node_map = net.node_map := by
  unfold pushEdge; rw [updateAt_node_map, updateAt_node_map]

theorem pushEdge_value_space (net : BayesianNetwork T) (pid cid : NodeId) :
    (pushEdge net pid cid).value_space = net.value_space := by
  unfold pushEdge; rw [updateAt_value_space, updateAt_value_space]

theorem pushEdge_length (net : BayesianNetwork T) (pid cid : NodeId) :
    (pushEdge net pid cid).nodes.length = net.nodes.length := by
  unfold pushEdge; rw [updateAt_length, updateAt_length]

theorem pushEdge_get_child {net : BayesianNetwork T} {pid cid : NodeId} {cnode : Node T}
    (hne : pid ≠ cid) (h : net.nodes[cid]? = some cnode) :
    (pushEdge net pid cid).nodes[cid]? =
      some { cnode with parents := cnode.parents ++ [pid] } := by
  unfold pushEdge
  have h1 : (updateAt net pid fun nd => { nd with children := nd.children ++ [cid] }).nodes[cid]?
      = some cnode := by rw [updateAt_get_other _ fun he => hne he.symm]; exact h
  exact updateAt_get_self _ h1

theorem pushEdge_get_parent {net : BayesianNetwork T} {pid cid : NodeId} {pnode : Node T}
    (hne : pid ≠ cid) (h : net.nodes[pid]? = some pnode) :
    (pushEdge net pid cid).nodes[pid]? =
      some { pnode with children := pnode.children ++ [cid] } := by
  unfold pushEdge
  rw [updateAt_get_other _ hne]
  exact updateAt_get_self _ h

theorem pushEdge_get_other {net : BayesianNetwork T} {pid cid j : NodeId}
    (h1 : j ≠ pid) (h2 : j ≠ cid) :
    (pushEdge net pid cid).nodes[j]? = net.nodes[j]? := by
  unfold pushEdge
  rw [updateAt_get_other _ h2, updateAt_get_other _ h1]

/-- Full characterization of a *successful* run of the parent loop of
`add_dependency`: the child's parent list gains the resolved ids in order and
each (distinct) parent's child list gains the child, with everything else
untouched. -/
theorem depMutate_ok_char (cid : NodeId) :
    ∀ (names : List Name) (net : BayesianNetwork T) (pids : List NodeId),
      optMap (fun nm => lookupKV nm net.node_map) names = some pids →
      cid ∉ pids → pids.Nodup →
      ∀ net', depMutate cid net names = (net', true) →
      net'.node_map = net.node_map ∧
      net'.value_space = net.value_space ∧
      net'.nodes.length = net.nodes.length ∧
      (∀ cnode, net.nodes[cid]? = some cnode →
        net'.nodes[cid]? = some { cnode with parents := cnode.parents ++ pids }) ∧
      (∀ pid ∈ pids, ∀ pnode, net.nodes[pid]? = some pnode →
        net'.nodes[pid]? = some { pnode with children := pnode.children ++ [cid] }) ∧
      (∀ j, j ≠ cid → j ∉ pids → net'.nodes[j]? = net.nodes[j]?) := by
  intro names
  induction names with
  | nil =>
      intro net pids hpids _ _ net' hdm
      cases hpids
      cases hdm
      refine ⟨rfl, rfl, rfl, fun cnode hc => ?_, fun pid hp => absurd hp (List.not_mem_nil pid),
        fun j _ _ => rfl⟩
      rw [List.append_nil]
      exact hc
  | cons nm rest ih =>
      intro net pids hpids hnotc hnd net' hdm
      simp only [optMap, Option.bind_eq_bind, bind, Option.bind] at hpids
      cases hl : lookupKV nm net.node_map with
      | none => rw [hl] at hpids; cases hpids
      | some pid =>
          rw [hl] at hpids
          cases hr : optMap (fun nm => lookupKV nm net.node_map) rest with
          | none => rw [hr] at hpids; cases hpids
          | some restpids =>
              rw [hr] at hpids
              cases hpids
              have hcid_ne : cid ≠ pid := fun he => hnotc (he ▸ List.mem_cons_self pid restpids)
              have hcid_rest : cid ∉ restpids := fun he => hnotc (List.mem_cons_of_mem pid he)
              have hpid_rest : pid ∉ restpids := (List.nodup_cons.mp hnd).1
              have hnd' : restpids.Nodup := (List.nodup_cons.mp hnd).2
              unfold depMutate at hdm
              simp only [hl] at hdm
              cases hgp : net.nodes[pid]? with
              | none => simp only [hgp] at hdm; exact absurd (congrArg Prod.snd hdm) (by simp)
              | some pnode =>
                  simp only [hgp] at hdm
                  cases hleaf : isLeafType pnode.node_type with
                  | true =>
                      rw [if_pos hleaf] at hdm
                      exact absurd (congrArg Prod.snd hdm) (by simp)
                  | false =>
                    rw [if_neg (by simp [hleaf])] at hdm
                    cases hgc : net.nodes[cid]? with
                    | none => simp only [hgc] at hdm; exact absurd (congrArg Prod.snd hdm) (by simp)
                    | some cnode0 =>
                        simp only [hgc] at hdm
                        cases hroot : isRootType cnode0.node_type with
                        | true =>
                            rw [if_pos hroot] at hdm
                            exact absurd (congrArg Prod.snd hdm) (by simp)
                        | false =>
                          rw [if_neg (by simp [hroot])] at hdm
                          have hr1 : optMap (fun nm =>
                              lookupKV nm (pushEdge net pid cid).node_map) rest
                              = some restpids := by rw [pushEdge_node_map]; exact hr
                          obtain ⟨hm, hv, hlen, hchild, hpar, hoth⟩ :=
                            ih (pushEdge net pid cid) restpids hr1 hcid_rest hnd' net' hdm
                          refine ⟨hm.trans (pushEdge_node_map net pid cid),
                            hv.trans (pushEdge_value_space net pid cid),
                            hlen.trans (pushEdge_length net pid cid), ?_, ?_, ?_⟩
                          · intro cnode hc
                            cases hc
                            have := hchild { cnode0 with parents := cnode0.parents ++ [pid] }
                              (pushEdge_get_child (fun he => hcid_ne he.symm) hgc)
                            simpa [List.append_assoc] using this
                          · intro pid' hp' pnode' hgp'
                            rcases List.mem_cons.mp hp' with he | hp'
                            · subst he
                              have hbase : (pushEdge net pid' cid).nodes[pid']? =
                                  some { pnode' with children := pnode'.children ++ [cid] } :=
                                pushEdge_get_parent (fun he => hcid_ne he.symm) hgp'
                              rw [hoth pid' (fun he => hcid_ne he.symm) hpid_rest]
                              exact hbase
                            · have hne_pid : pid' ≠ pid := fun he => hpid_rest (he ▸ hp')
                              have hne_cid : pid' ≠ cid := fun he => hcid_rest (he ▸ hp')
                              exact hpar pid' hp' pnode'
                                ((pushEdge_get_other hne_pid hne_cid).trans hgp')
                          · intro j hj1 hj2
                            have hj3 : j ∉ restpids := fun he => hj2 (List.mem_cons_of_mem pid he)
                            have hj4 : j ≠ pid := fun he => hj2 (he ▸ List.mem_cons_self pid restpids)
                            rw [hoth j hj1 hj3, pushEdge_get_other hj4 hj1]

/-- Inversion of a successful run of the mutation tail of `add_dependency`. -/
theorem addDependencyMutate_ok_inversion {net : BayesianNetwork T}
    {pnames : List Name} {prob : List (List T × List (T × Probability))}
    {w : Nat} {cid : NodeId}
    (hok : (addDependencyMutate net pnames prob w cid).ok = true) :
    ∃ net1, depMutate cid net pnames = (net1, true) ∧
      ∃ cnode1, net1.nodes[cid]? = some cnode1 ∧
        addDependencyMutate net pnames prob w cid =
          ⟨{ net1 with nodes := net1.nodes.set cid { cnode1 with probability := prob } },
            true, w⟩ := by
  cases hdm : depMutate cid net pnames with
  | mk net1 ok2 =>
      cases ok2 with
      | false =>
          have hko : (addDependencyMutate net pnames prob w cid).ok = false := by
            unfold addDependencyMutate
            simp [hdm]
          rw [hok] at hko
          exact Bool.noConfusion hko
      | true =>
          cases hgc : net1.nodes[cid]? with
          | none =>
              have hko : (addDependencyMutate net pnames prob w cid).ok = false := by
                unfold addDependencyMutate
                simp [hdm, hgc]
              rw [hok] at hko
              exact Bool.noConfusion hko
          | some cnode1 =>
              refine ⟨net1, rfl, cnode1, hgc, ?_⟩
              unfold addDependencyMutate
              simp [hdm, hgc]

/-- Inversion of a successful `add_dependency` call into its stages. -/
theorem addDependency_ok_inversion {net : BayesianNetwork T} {pnames : List Name}
    {cname : Name} {prob : List (List T × List (T × Probability))}
    (hok : (addDependency net pnames cname prob).ok = true) :
    (cptValidate net.value_space pnames.length prob).2 = true ∧
    ∃ cid, lookupKV cname net.node_map = some cid ∧
      ∃ net1, depMutate cid net pnames = (net1, true) ∧
        ∃ cnode1, net1.nodes[cid]? = some cnode1 ∧
          (addDependency net pnames cname prob).net =
            { net1 with nodes := net1.nodes.set cid { cnode1 with probability := prob } } := by
  cases hvr : cptValidate net.value_space pnames.length prob with
  | mk w ok1 =>
      cases ok1 with
      | false =>
          have hko : (addDependency net pnames cname prob).ok = false := by
            unfold addDependency
            simp [hvr]
          rw [hok] at hko
          exact Bool.noConfusion hko
      | true =>
          cases hc : lookupKV cname net.node_map with
          | none =>
              have hko : (addDependency net pnames cname prob).ok = false := by
                unfold addDependency
                simp [hvr, hc]
              rw [hok] at hko
              exact Bool.noConfusion hko
          | some cid =>
              have heq : addDependency net pnames cname prob =
                  addDependencyMutate net pnames prob w cid := by
                unfold addDependency
                simp [hvr, hc]
              rw [heq] at hok
              obtain ⟨net1, hdm, cnode1, hgc, hmeq⟩ := addDependencyMutate_ok_inversion hok
              exact ⟨rfl, cid, rfl, net1, hdm, cnode1, hgc, by rw [heq, hmeq]⟩

/-- **C10** (confirmed).  `add_node` with an already-present name never fails
for a valid node argument: it appends a fresh node under a fresh id, rebinds
the name to the new id, and the previously added node keeps its slot but is no
longer reachable by name. -/
theorem addNode_shadows_existing_name (net : BayesianNetwork T) (name : Name)
    (nt : NodeType T) (oldId : NodeId)
    (hvalid : ∀ prior, nt = NodeType.Root prior →
      (net.value_space.all fun v => containsKV v prior) = true ∧
      (prior.all fun e => elemB e.1 net.value_space) = true)
    (hold : lookupKV name net.node_map = some oldId)
    (hlt : oldId < net.nodes.length) :
    (addNode net name nt).ok = true ∧
    (addNode net name nt).net.nodes.length = net.nodes.length + 1 ∧
    (addNode net name nt).net.nodes[net.nodes.length]? =
      some ⟨net.nodes.length, [], [], [], nt⟩ ∧
    getNodeIndex (addNode net name nt).net name = some net.nodes.length ∧
    (addNode net name nt).net.nodes[oldId]? = net.nodes[oldId]? ∧
    getNodeIndex (addNode net name nt).net name ≠ some oldId := by
  have key : (addNode net name nt).net = pushNode net name nt ∧ (addNode net name nt).ok = true := by
    cases nt with
    | Root prior =>
        obtain ⟨h1, h2⟩ := hvalid prior rfl
        simp [addNode, h1, h2]
    | Leaf => exact ⟨rfl, rfl⟩
    | Intermediate => exact ⟨rfl, rfl⟩
  rw [key.1]
  refine ⟨key.2, by simp [pushNode], ?_, ?_, ?_, ?_⟩
  · simpa [pushNode] using getb_append_length net.nodes _
  · simp [pushNode, getNodeIndex, lookupKV]
  · simp only [pushNode]
    exact List.getElem?_append_left hlt
  · simp only [pushNode, getNodeIndex, lookupKV, if_pos rfl]
    intro hcontra
    exact absurd (Option.some.inj hcontra) (Nat.ne_of_gt hlt)

/-- **C10 witness**: re-adding name `A` to `netA` shadows the old root node 0
but leaves it in slot 0. -/
theorem addNode_shadows_existing_name_witness :
    (addNode netA "A" NodeType.Leaf).ok = true ∧
    (addNode netA "A" NodeType.Leaf).net.nodes.length = netA.nodes.length + 1 ∧
    (addNode netA "A" NodeType.Leaf).net.nodes[netA.nodes.length]? =
      some ⟨netA.nodes.length, [], [], [], NodeType.Leaf⟩ ∧
    getNodeIndex (addNode netA "A" NodeType.Leaf).net "A" = some netA.nodes.length ∧
    (addNode netA "A" NodeType.Leaf).net.nodes[0]? = netA.nodes[0]? ∧
    getNodeIndex (addNode netA "A" NodeType.Leaf).net "A" ≠ some 0 :=
  addNode_shadows_existing_name netA "A" NodeType.Leaf 0
    (fun prior h => by cases h)
    (by with_unfolding_all decide)
    (by with_unfolding_all decide)

/-- **C9** (confirmed).  A successful `add_dependency` on a child that may
already have a CPT silently replaces the stored CPT wholesale and *appends*
the parent/child adjacency entries without deduplication. -/
theorem addDependency_overrides_cpt_appends_edges (net : BayesianNetwork T)
    (pnames : List Name) (cname : Name)
    (prob : List (List T × List (T × Probability)))
    (cid : NodeId) (pids : List NodeId) (cnode : Node T)
    (hc : lookupKV cname net.node_map = some cid)
    (hpids : optMap (fun nm => lookupKV nm net.node_map) pnames = some pids)
    (hcn : net.nodes[cid]? = some cnode)
    (hnotc : cid ∉ pids) (hnd : pids.Nodup)
    (hok : (addDependency net pnames cname prob).ok = true) :
    (addDependency net pnames cname prob).net.nodes[cid]? =
      some { cnode with parents := cnode.parents ++ pids, probability := prob } ∧
    ∀ pid ∈ pids, ∀ pnode, net.nodes[pid]? = some pnode →
      (addDependency net pnames cname prob).net.nodes[pid]? =
        some { pnode with children := pnode.children ++ [cid] } := by
  obtain ⟨-, cid', hc', net1, hdm, cnode1, hgc1, hnet⟩ := addDependency_ok_inversion hok
  rw [hc] at hc'
  cases hc'
  obtain ⟨-, -, -, hchild, hpar, -⟩ :=
    depMutate_ok_char cid pnames net pids hpids hnotc hnd net1 hdm
  have hg := hchild cnode hcn
  rw [hgc1] at hg
  cases hg
  constructor
  · rw [hnet]
    simp only
    rw [List.getElem?_set_eq_of_lt _ (getElem_some_lt hgc1)]
  · intro pid hp pnode hgp
    rw [hnet]
    simp only
    have hne : pid ≠ cid := fun he => hnotc (he ▸ hp)
    rw [List.getElem?_set_ne fun he => hne he.symm]
    exact hpar pid hp pnode hgp

/-- **C9 witness**: declaring `A → B` twice duplicates the adjacency entries
and the second CPT replaces the first. -/
theorem addDependency_overrides_witness :
    ((addDependency netAB0 ["A"] "B" [([0], rowHalf), ([1], rowHalf)]).net.nodes[1]? =
      some ⟨1, [0, 0], [], [([0], rowHalf), ([1], rowHalf)], NodeType.Leaf⟩) ∧
    ((addDependency netAB0 ["A"] "B" [([0], rowHalf), ([1], rowHalf)]).net.nodes[0]? =
      some ⟨0, [], [1, 1], [], NodeType.Root [(0, 1/2), (1, 1/2)]⟩) := by
  have h := addDependency_overrides_cpt_appends_edges netAB0 ["A"] "B"
    [([0], rowHalf), ([1], rowHalf)] 1 [0]
    ⟨1, [0], [], [([0], [(0, 1), (1, 0)]), ([1], [(0, 1), (1, 0)])], NodeType.Leaf⟩
    (by with_unfolding_all decide) (by with_unfolding_all decide)
    (by with_unfolding_all decide) (by with_unfolding_all decide)
    (by with_unfolding_all decide) (by with_unfolding_all decide)
  refine ⟨h.1, ?_⟩
  have h2 := h.2 0 (List.mem_cons_self 0 [])
    ⟨0, [], [1], [], NodeType.Root [(0, 1/2), (1, 1/2)]⟩ (by with_unfolding_all decide)
  exact h2

/-- The `warns` field of the mutation tail is whatever count it was given. -/
theorem addDependencyMutate_warns (net : BayesianNetwork T) (pnames : List Name)
    (prob : List (List T × List (T × Probability))) (w : Nat) (cid : NodeId) :
    (addDependencyMutate net pnames prob w cid).warns = w := by
  unfold addDependencyMutate
  cases hdm : depMutate cid net pnames with
  | mk net1 ok2 =>
      cases ok2 with
      | false => simp
      | true => cases hgc : net1.nodes[cid]? <;> simp [hgc]

/-- The `warns` field of `add_dependency` always reports the CPT validation
loop's warning count, whatever the graph-side outcome. -/
theorem addDependency_warns (net : BayesianNetwork T) (pnames : List Name)
    (cname : Name) (prob : List (List T × List (T × Probability))) :
    (addDependency net pnames cname prob).warns =
      (cptValidate net.value_space pnames.length prob).1 := by
  unfold addDependency
  cases hvr : cptValidate net.value_space pnames.length prob with
  | mk w ok1 =>
      cases ok1 with
      | false => rfl
      | true =>
          cases lookupKV cname net.node_map with
          | none => rfl
          | some cid => exact addDependencyMutate_warns net pnames prob w cid

/-- How the CPT validation loop counts warnings: with well-formed entries it
never fails and warns exactly once per row whose probabilities are off by more
than the tolerance. -/
theorem cptValidate_char (vs : List T) (plen : Nat) :
    ∀ (prob : List (List T × List (T × Probability))),
      (∀ e ∈ prob, e.1.length = plen ∧
        (e.1.all fun x => elemB x vs) = true ∧
        (vs.all fun v => containsKV v e.2) = true) →
      cptValidate vs plen prob =
        ((prob.map fun e => if tol < |(e.2.map fun r => r.2).sum - 1| then 1 else 0).sum,
          true) := by
  intro prob
  induction prob with
  | nil => intro _; rfl
  | cons e rest ih =>
      intro h
      obtain ⟨h1, h2, h3⟩ := h e (List.mem_cons_self e rest)
      have hr := ih fun e' he' => h e' (List.mem_cons_of_mem e he')
      unfold cptValidate
      rw [if_pos h1, if_pos h2, if_pos h3, hr]
      rfl

/-- **C8** (confirmed).  Construction accepts priors and CPT rows whose
probabilities do not sum to one: `add_node` and `add_dependency` succeed, the
values are stored as given, and a warning is counted exactly when the sum is
more than `1e-7` away from `1`. -/
theorem construction_sum_to_one_warning :
    (∀ (net : BayesianNetwork T) (name : Name) (prior : List (T × Probability)),
      (net.value_space.all fun v => containsKV v prior) = true →
      (prior.all fun e => elemB e.1 net.value_space) = true →
      (addNode net name (NodeType.Root prior)).ok = true ∧
      (addNode net name (NodeType.Root prior)).net.nodes[net.nodes.length]? =
        some ⟨net.nodes.length, [], [], [], NodeType.Root prior⟩ ∧
      (addNode net name (NodeType.Root prior)).warns =
        (if tol < |(prior.map fun e => e.2).sum - 1| then 1 else 0)) ∧
    (∀ (net : BayesianNetwork T) (pnames : List Name) (cname : Name)
      (prob : List (List T × List (T × Probability))),
      (∀ e ∈ prob, e.1.length = pnames.length ∧
        (e.1.all fun x => elemB x net.value_space) = true ∧
        (net.value_space.all fun v => containsKV v e.2) = true) →
      (cptValidate net.value_space pnames.length prob).2 = true ∧
      (addDependency net pnames cname prob).warns =
        (prob.map fun e => if tol < |(e.2.map fun r => r.2).sum - 1| then 1 else 0).sum) := by
  constructor
  · intro net name prior h1 h2
    have hnet : addNode net name (NodeType.Root prior) =
        ⟨pushNode net name (NodeType.Root prior), true,
          if tol < |(prior.map fun e => e.2).sum - 1| then 1 else 0⟩ := by
      unfold addNode
      simp [h1, h2]
    rw [hnet]
    refine ⟨rfl, ?_, rfl⟩
    simpa [pushNode] using getb_append_length net.nodes
      (⟨net.nodes.length, [], [], [], NodeType.Root prior⟩ : Node T)
  · intro net pnames cname prob h
    have hv := cptValidate_char net.value_space pnames.length prob h
    refine ⟨by rw [hv], ?_⟩
    rw [addDependency_warns, hv]

/-- **C8 witness**: a root prior summing to `2` and a CPT row summing to `2`
are accepted, stored as given, and warned about exactly once each. -/
theorem construction_sum_to_one_warning_witness :
    (addNode (new [0, 1]) "R" (NodeType.Root [(0, 1), (1, 1)])).ok = true ∧
    (addNode (new [0, 1]) "R" (NodeType.Root [(0, 1), (1, 1)])).warns = 1 ∧
    (cptValidate [0, 1] 1 [([0], [(0, 1), (1, 1)]), ([1], rowHalf)]).2 = true := by
  have h := construction_sum_to_one_warning (T := Nat)
  have ha := h.1 (new [0, 1]) "R" [(0, 1), (1, 1)] (by with_unfolding_all decide)
    (by with_unfolding_all decide)
  have hb := (h.2 (new [0, 1]) ["P"] "C" [([0], [(0, 1), (1, 1)]), ([1], rowHalf)]
    (by with_unfolding_all decide)).1
  refine ⟨ha.1, ?_, ?_⟩
  · rw [ha.2.2]
    with_unfolding_all decide
  · simpa [new] using hb

/-! ### Lemmas for the belief-combination phase -/

theorem mem_of_getElem_opt {α : Type} {l : List α} {i : Nat} {a : α}
    (h : l[i]? = some a) : a ∈ l := by
  obtain ⟨hlt, he⟩ := List.getElem?_eq_some.mp h
  exact he ▸ List.getElem_mem hlt

theorem lookup_of_getElem_nodup {K V : Type} [DecidableEq K] :
    ∀ {m : List (K × V)}, (m.map Prod.fst).Nodup →
      ∀ {j : Nat} {k : K} {v : V}, m[j]? = some (k, v) → lookupKV k m = some v := by
  intro m
  induction m with
  | nil => intro _ j k v h; cases h
  | cons e rest ih =>
      intro hnd j k v h
      have hnd' := List.nodup_cons.mp (by simpa using hnd :
        (e.1 :: rest.map Prod.fst).Nodup)
      cases j with
      | zero =>
          rw [List.getElem?_cons_zero] at h
          cases h
          simp [lookupKV]
      | succ j =>
          rw [List.getElem?_cons_succ] at h
          have hkmem : k ∈ rest.map Prod.fst :=
            List.mem_map_of_mem Prod.fst (mem_of_getElem_opt h)
          have hne : e.1 ≠ k := fun he => hnd'.1 (he ▸ hkmem)
          simp only [lookupKV, if_neg hne]
          exact ih hnd'.2 h

theorem sum_zero_of_all_zero : ∀ {l : List ℚ},
    (∀ (j : Nat) (q : ℚ), l[j]? = some q → q = 0) → l.sum = 0 := by
  intro l
  induction l with
  | nil => intro _; rfl
  | cons x l ih =>
      intro h
      have hx : x = 0 := h 0 x (by simp)
      have hrest : l.sum = 0 := ih fun j q hq => h (j + 1) q (by simpa using hq)
      simp [hx, hrest]

theorem sum_eq_single {obs : T} : ∀ (vs : List T) (probs : List ℚ),
    probs.length = vs.length → vs.Nodup →
    (∀ (j : Nat) (v : T) (q : ℚ), vs[j]? = some v → probs[j]? = some q → v ≠ obs → q = 0) →
    ∀ {j0 : Nat} {q0 : ℚ}, vs[j0]? = some obs → probs[j0]? = some q0 →
      probs.sum = q0 := by
  intro vs
  induction vs with
  | nil => intro probs _ _ _ j0 q0 h _; cases h
  | cons v vs ih =>
      intro probs hlen hnd h j0 q0 hj0 hq0
      cases probs with
      | nil => cases hq0
      | cons q probs =>
          have hlen' : probs.length = vs.length := by simpa using hlen
          cases j0 with
          | zero =>
              rw [List.getElem?_cons_zero] at hj0 hq0
              cases hj0; cases hq0
              have hrest : probs.sum = 0 := by
                refine sum_zero_of_all_zero fun j p hp => ?_
                have hjvs : j < vs.length := hlen' ▸ getElem_some_lt hp
                obtain ⟨w, hw⟩ : ∃ w, vs[j]? = some w := by
                  rw [List.getElem?_eq_getElem hjvs]; exact ⟨_, rfl⟩
                have hwobs : w ≠ obs := by
                  intro he; subst he
                  exact (List.nodup_cons.mp hnd).1 (mem_of_getElem_opt hw)
                exact h (j + 1) w p (by simpa using hw) (by simpa using hp) hwobs
              simp [hrest]
          | succ j0 =>
              rw [List.getElem?_cons_succ] at hj0 hq0
              have hvobs : v ≠ obs := by
                intro he; subst he
                exact (List.nodup_cons.mp hnd).1 (mem_of_getElem_opt hj0)
              have hq : q = 0 := h 0 v q (by simp) (by simp) hvobs
              have := ih probs hlen' (List.nodup_cons.mp hnd).2
                (fun j w p hw hp hne =>
                  h (j + 1) w p (by simpa using hw) (by simpa using hp) hne)
                hj0 hq0
              simp [hq, this]

/-- The keys of a normalized distribution are exactly the value space,
in order. -/
theorem normalizeMap_keys {vs : List T} {probs : List ℚ}
    {m : List (T × Probability)} (hm : normalizeMap vs probs = some m) :
    m.map Prod.fst = vs := by
  refine List.ext_getElem? fun i => ?_
  cases hv : vs[i]? with
  | none =>
      have hlen : m.length = vs.length := by
        have := optMap_length hm
        simpa using this
      have hge : vs.length ≤ i := by
        rcases Nat.lt_or_ge i vs.length with hlt | hge
        · rw [List.getElem?_eq_getElem hlt] at hv; cases hv
        · exact hge
      rw [List.getElem?_eq_none]
      simpa [hlen] using hge
  | some v =>
      have henum : vs.enum[i]? = some (i, v) := by
        rw [List.getElem?_enum, hv]; rfl
      obtain ⟨b, hb, hfb⟩ := optMapIdx hm henum
      cases hq : probs[i]? with
      | none => rw [hq] at hfb; cases hfb
      | some q =>
          rw [hq] at hfb
          cases hfb
          simp [List.getElem?_map, hb]

/-- **C4** (confirmed).  Whenever `infer` returns, every node in evidence
whose normalization denominator is nonzero receives the indicator
distribution: probability `1` at the observed value and `0` elsewhere. -/
theorem infer_evidence_indicator (net : BayesianNetwork T) (ev : List (Name × T))
    (res : List (List (T × Probability))) (idEv : List (NodeId × T))
    (denoms : List ℚ) (i : Nat) (node : Node T) (obs : T) (d : ℚ)
    (hres : infer net ev = some res)
    (hed : evidenceIds net ev = some idEv)
    (hds : inferDenoms net ev = some denoms)
    (hnode : net.nodes[i]? = some node)
    (hobs : lookupKV node.id idEv = some obs)
    (hd : denoms[i]? = some d) (hdne : d ≠ 0)
    (hnd : net.value_space.Nodup) :
    ∃ m, res[i]? = some m ∧
      ∀ v ∈ net.value_space, lookupKV v m = some (if v = obs then 1 else 0) := by
  unfold infer at hres
  unfold inferDenoms at hds
  rw [hed] at hres hds
  simp only [Option.bind_eq_bind, Option.some_bind] at hres hds
  cases hst : loop net.value_space net.nodes idEv (fuelOf net) ⟨[], [], false⟩ with
  | none => rw [hst] at hres; cases hres
  | some st =>
      rw [hst] at hres hds
      simp only [Option.some_bind] at hres hds
      obtain ⟨m, hm, hnodem⟩ := optMapIdx hres hnode
      obtain ⟨d', hd', hdenm⟩ := optMapIdx hds hnode
      rw [hd] at hd'
      cases hd'
      cases hprobs : nodeProbs net.value_space node idEv st.piMap st.lambdaMap with
      | none => rw [hprobs] at hdenm; cases hdenm
      | some probs =>
          rw [hprobs] at hnodem hdenm
          simp only [Option.map_some, Option.some_bind, Option.bind_eq_bind] at hnodem hdenm
          cases hdenm
          have hplen : probs.length = net.value_space.length := optMap_length hprobs
          have hindic : ∀ (j : Nat) (v : T), net.value_space[j]? = some v →
              ∃ lamv, probs[j]? = some (lamv * if obs = v then 1 else 0) := by
            intro j v hv
            obtain ⟨q, hq, hgq⟩ := optMapIdx hprobs hv
            cases hlam : optProd (fun c => do
                let mm ← lookupKV (c, node.id) st.lambdaMap
                lookupKV v mm) node.children with
            | none => rw [hlam] at hgq; cases hgq
            | some lamv =>
                have hpi : piSumValue node idEv st.piMap v =
                    some (if obs = v then 1 else 0) := by
                  unfold piSumValue
                  rw [hobs]
                rw [hlam] at hgq
                simp only [Option.some_bind, hpi, Option.bind_eq_bind,
                  Option.pure_def] at hgq
                cases hgq
                exact ⟨lamv, hq⟩
          have hzeros : ∀ (j : Nat) (v : T) (q : ℚ), net.value_space[j]? = some v → probs[j]? = some q →
              v ≠ obs → q = 0 := by
            intro j v q hv hq hne
            obtain ⟨lamv, hq'⟩ := hindic j v hv
            rw [hq] at hq'
            cases hq'
            rw [if_neg (fun he => hne he.symm), mul_zero]
          have hobsmem : obs ∈ net.value_space := by
            by_contra hno
            have hall : probs.sum = 0 := by
              refine sum_zero_of_all_zero fun j q hq => ?_
              have hjlt : j < net.value_space.length := hplen ▸ getElem_some_lt hq
              obtain ⟨w, hw⟩ : ∃ w, net.value_space[j]? = some w := by
                rw [List.getElem?_eq_getElem hjlt]; exact ⟨_, rfl⟩
              have hwne : w ≠ obs := fun he => hno (he ▸ mem_of_getElem_opt hw)
              exact hzeros j w q hw hq hwne
            exact hdne hall
          obtain ⟨j0, hj0lt, hj0⟩ := List.mem_iff_getElem.mp hobsmem
          have hj0' : net.value_space[j0]? = some obs := by
            rw [List.getElem?_eq_getElem hj0lt]
            exact congrArg some hj0
          obtain ⟨lam0, hq0⟩ := hindic j0 obs hj0'
          have hq0' : probs[j0]? = some lam0 := by simpa using hq0
          have hsum : probs.sum = lam0 :=
            sum_eq_single net.value_space probs hplen hnd hzeros hj0' hq0'
          have hlam0 : lam0 ≠ 0 := fun he => hdne (hsum.trans he)
          have hkeys : (m.map Prod.fst).Nodup := by
            rw [normalizeMap_keys hnodem]
            exact hnd
          refine ⟨m, hm, fun v hvmem => ?_⟩
          obtain ⟨j, hjlt, hj⟩ := List.mem_iff_getElem.mp hvmem
          have hj' : net.value_space[j]? = some v := by
            rw [List.getElem?_eq_getElem hjlt]
            exact congrArg some hj
          by_cases hvo : v = obs
          · subst hvo
            have henum : net.value_space.enum[j0]? = some (j0, v) := by
              rw [List.getElem?_enum, hj0']; rfl
            obtain ⟨b, hb, hfb⟩ := optMapIdx hnodem henum
            rw [hq0'] at hfb
            cases hfb
            have := lookup_of_getElem_nodup hkeys hb
            rw [this, hsum, div_self hlam0]
            simp
          · obtain ⟨qj, hqj⟩ := hindic j v hj'
            have hqj0 : probs[j]? = some 0 := by
              rw [if_neg (fun he => hvo he.symm), mul_zero] at hqj
              exact hqj
            have henum : net.value_space.enum[j]? = some (j, v) := by
              rw [List.getElem?_enum, hj']; rfl
            obtain ⟨b, hb, hfb⟩ := optMapIdx hnodem henum
            rw [hqj0] at hfb
            cases hfb
            have := lookup_of_getElem_nodup hkeys hb
            rw [this]
            simp [hvo]

/-- **C4 witness**: evidence `A = 1` on the single-root network gives `A` the
indicator distribution. -/
theorem infer_evidence_indicator_witness :
    ∃ m, ([[(0, 0), (1, 1)]] : List (List (Nat × Probability)))[0]? = some m ∧
      ∀ v ∈ netA.value_space, lookupKV v m = some (if v = 1 then 1 else 0) :=
  infer_evidence_indicator netA [("A", 1)] [[(0, 0), (1, 1)]] [(0, 1)] [1] 0
    ⟨0, [], [], [], NodeType.Root [(0, 1/2), (1, 1/2)]⟩ 1 1
    (by with_unfolding_all decide) (by with_unfolding_all decide)
    (by with_unfolding_all decide) (by with_unfolding_all decide)
    (by with_unfolding_all decide) (by with_unfolding_all decide)
    (by with_unfolding_all decide) (by with_unfolding_all decide)

/-- **C1** (code bug, exhibited).  Under evidence `B = 1` on `netAB0` the
normalization denominator of node `A` is zero, yet `infer` raises no
`InconsistentEvidenceError`: it returns normally, and node `A`'s posterior is
the all-zero distribution (in the `f64` source, `0.0/0.0 = NaN`; in this exact
embedding, `0/0 = 0`). -/
theorem infer_zero_denominator_silent :
    infer netAB0 [("B", 1)] = some [[(0, 0), (1, 0)], [(0, 0), (1, 1)]] ∧
      inferDenoms netAB0 [("B", 1)] = some [0, 1] := by
  constructor <;> with_unfolding_all decide

/-- **C6** (code bug, exhibited).  The evidence value `5` is outside the value
space of `netA`, yet `infer` does not reject it: the call succeeds and
silently produces an all-zero (in `f64`: NaN) posterior for `A`. -/
theorem infer_accepts_out_of_domain_evidence :
    elemB 5 netA.value_space = false ∧
      infer netA [("A", 5)] = some [[(0, 0), (1, 0)]] := by
  constructor <;> with_unfolding_all decide

/-- **C7** (code bug, exhibited).  `add_dependency ["P1", "P2"] "C"` fails on
the second parent (`P2` is a Leaf) after the first parent's edges were already
pushed: the failed call leaves `P1.children = [2]` and `C.parents = [0]`
behind, so the network's observable state differs from the state before the
call. -/
theorem addDependency_failure_leaves_partial_edges :
    (addDependency netPPC ["P1", "P2"] "C" cpt2).ok = false ∧
      (addDependency netPPC ["P1", "P2"] "C" cpt2).net ≠ netPPC ∧
      ((addDependency netPPC ["P1", "P2"] "C" cpt2).net.nodes[0]?).map
        (fun n => n.children) = some [2] ∧
      ((addDependency netPPC ["P1", "P2"] "C" cpt2).net.nodes[2]?).map
        (fun n => n.parents) = some [0] ∧
      (netPPC.nodes[0]?).map (fun n => n.children) = some [] := by
  refine ⟨by with_unfolding_all decide, by with_unfolding_all decide,
    by with_unfolding_all decide, by with_unfolding_all decide,
    by with_unfolding_all decide⟩

/-! ### Lemmas for comparing `pass_lambda` with the spec formula -/

theorem sum_ite_filter {α : Type} (P : α → Bool) (f : α → ℚ) : ∀ l : List α,
    ((l.map fun a => if P a then f a else 0).sum) = ((l.filter P).map f).sum := by
  intro l
  induction l with
  | nil => rfl
  | cons a l ih =>
      cases hp : P a <;> simp [List.filter_cons, hp, ih]

theorem prod_ite_one_filter {α : Type} (P : α → Prop) [DecidablePred P] (f : α → ℚ) :
    ∀ l : List α,
    ((l.map fun a => if P a then 1 else f a).prod) =
      ((l.filter fun a => decide (¬ P a)).map f).prod := by
  intro l
  induction l with
  | nil => rfl
  | cons a l ih =>
      by_cases hp : P a <;> simp [List.filter_cons, hp, ih]

theorem mem_enum_getElem {α : Type} {l : List α} {ip : Nat × α} (h : ip ∈ l.enum) :
    l[ip.1]? = some ip.2 := by
  cases ip with
  | mk i x => exact List.mk_mem_enum_iff_getElem?.mp h

theorem getElem_mem_enum {α : Type} {l : List α} {i : Nat} {x : α}
    (h : l[i]? = some x) : (i, x) ∈ l.enum :=
  List.mk_mem_enum_iff_getElem?.mpr h

theorem mem_evidentParents {evidence : List (NodeId × T)} {parents : List NodeId}
    {e : Nat} :
    e ∈ evidentParents evidence parents ↔
      ∃ pid, parents[e]? = some pid ∧ containsKV pid evidence = true := by
  unfold evidentParents
  constructor
  · intro h
    obtain ⟨ip, hip, he⟩ := List.mem_map.mp h
    obtain ⟨hmem, hcv⟩ := List.mem_filter.mp hip
    subst he
    exact ⟨ip.2, mem_enum_getElem hmem, hcv⟩
  · rintro ⟨pid, hpe, hcv⟩
    exact List.mem_map.mpr ⟨(e, pid),
      List.mem_filter.mpr ⟨getElem_mem_enum hpe, hcv⟩, rfl⟩

theorem skipCheck_gen {evidence : List (NodeId × T)} {parents : List NodeId}
    {tuple : List T} : ∀ (L : List Nat),
    (∀ e ∈ L, (∃ t, tuple[e]? = some t) ∧
      ∃ pid, parents[e]? = some pid ∧ ∃ ev, lookupKV pid evidence = some ev) →
    skipCheck evidence parents tuple L =
      some (! L.all fun e =>
        decide (tuple[e]? = (parents[e]?).bind fun pid => lookupKV pid evidence)) := by
  intro L
  induction L with
  | nil => intro _; rfl
  | cons e L ih =>
      intro h
      obtain ⟨⟨t, ht⟩, pid, hpid, ev, hev⟩ := h e (List.mem_cons_self e L)
      have hrec := ih fun a ha => h a (List.mem_cons_of_mem e ha)
      unfold skipCheck
      rw [ht]
      simp only [Option.bind_eq_bind, Option.some_bind]
      rw [hpid]
      simp only [Option.some_bind]
      rw [hev]
      simp only [Option.some_bind]
      by_cases hte : t = ev
      · subst hte
        rw [if_neg (by simp)]
        rw [hrec]
        simp [List.all_cons, ht, hpid, hev]
      · rw [if_pos (by simpa using hte)]
        simp [List.all_cons, ht, hpid, hev, hte]

theorem skipCheck_eval {evidence : List (NodeId × T)} {parents : List NodeId}
    {tuple : List T} (hlen : tuple.length = parents.length) :
    skipCheck evidence parents tuple (evidentParents evidence parents) =
      some (! tupleConsistent evidence parents tuple none) := by
  rw [skipCheck_gen (evidentParents evidence parents) ?side]
  case side =>
    intro e he
    obtain ⟨pid, hpe, hcv⟩ := mem_evidentParents.mp he
    have helt : e < parents.length := getElem_some_lt hpe
    have het : e < tuple.length := hlen ▸ helt
    refine ⟨?_, pid, hpe, ?_⟩
    · rw [List.getElem?_eq_getElem het]; exact ⟨_, rfl⟩
    · cases hev : lookupKV pid evidence with
      | none => rw [containsKV, hev] at hcv; cases hcv
      | some ev => exact ⟨ev, rfl⟩
  have key : ((evidentParents evidence parents).all fun e =>
      decide (tuple[e]? = (parents[e]?).bind fun pid => lookupKV pid evidence)) = true ↔
      tupleConsistent evidence parents tuple none = true := by
    rw [List.all_eq_true]
    unfold tupleConsistent
    rw [List.all_eq_true]
    constructor
    · intro h ip hip
      cases hev : lookupKV ip.2 evidence with
      | none => simp [hev]
      | some ev =>
          have hmem : ip.1 ∈ evidentParents evidence parents :=
            mem_evidentParents.mpr ⟨ip.2, mem_enum_getElem hip, by rw [containsKV, hev]; rfl⟩
          have := h ip.1 hmem
          rw [mem_enum_getElem hip] at this
          simp only [Option.some_bind, hev] at this
          simp [hev, of_decide_eq_true this]
    · intro h e he
      obtain ⟨pid, hpe, hcv⟩ := mem_evidentParents.mp he
      have := h (e, pid) (getElem_mem_enum hpe)
      rw [hpe]
      cases hev : lookupKV pid evidence with
      | none => rw [containsKV, hev] at hcv; cases hcv
      | some ev =>
          simp only [hev, decide_eq_true_eq, Option.some_bind] at this ⊢
          simpa using this
  have hbool : ((evidentParents evidence parents).all fun e =>
      decide (tuple[e]? = (parents[e]?).bind fun pid => lookupKV pid evidence)) =
      tupleConsistent evidence parents tuple none := by
    cases hall : ((evidentParents evidence parents).all fun e =>
        decide (tuple[e]? = (parents[e]?).bind fun pid => lookupKV pid evidence)) with
    | true => exact (key.mp hall).symm
    | false =>
        cases hcons : tupleConsistent evidence parents tuple none with
        | true => rw [key.mpr hcons] at hall; cases hall
        | false => rfl
  rw [hbool]

/-- **C2 counterexample**.  With the single parent `P = 0` of `X = 1` in
evidence with value `0`, the message computed by `pass_lambda` at candidate
value `1` is `0`, while the claim's formula (which does not constrain the
tuple at P's own position) gives `1`. -/
theorem passLambda_selfconstraint_counterexample :
    ((passLambda [0, 1] cnodeX 0 0 [(0, 0)] [] []).bind fun lm =>
        (lookupKV (1, 0) lm).bind (lookupKV 1)) = some 0 ∧
    specLambda [0, 1] [(0, 0)] [0] [] 1 [([0], rowHalf), ([1], rowHalf)] 0 0
      (fun _ _ => 1) (fun _ _ => 1) 0 false 1 = 1 ∧
    ((passLambda [0, 1] cnodeX 0 0 [(0, 0)] [] []).bind fun lm =>
        (lookupKV (1, 0) lm).bind (lookupKV 1)) ≠
      some (specLambda [0, 1] [(0, 0)] [0] [] 1 [([0], rowHalf), ([1], rowHalf)] 0 0
        (fun _ _ => 1) (fun _ _ => 1) 0 false 1) := by
  refine ⟨by with_unfolding_all decide, by with_unfolding_all decide,
    by with_unfolding_all decide⟩

theorem msgOfFn_eq_map {vs : List T} {f : T → Option ℚ} {g : T → ℚ}
    (h : ∀ v ∈ vs, f v = some (g v)) :
    msgOfFn vs f = some (vs.map fun v => (v, g v)) := by
  induction vs with
  | nil => rfl
  | cons w vs ih =>
      unfold msgOfFn optMap
      rw [h w (List.mem_cons_self w vs)]
      simp only [Option.map_some, Option.bind_eq_bind, Option.some_bind]
      have hrest := ih fun v hv => h v (List.mem_cons_of_mem w hv)
      unfold msgOfFn at hrest
      rw [hrest]
      rfl

theorem lookup_map_self {vs : List T} {g : T → ℚ} {p : T} (hp : p ∈ vs) :
    lookupKV p (vs.map fun v => (v, g v)) = g p := by
  induction vs with
  | nil => cases hp
  | cons w vs ih =>
      by_cases hwp : w = p
      · subst hwp
        simp [lookupKV]
      · rcases List.mem_cons.mp hp with he | hm
        · exact absurd he.symm hwp
        · simp only [List.map_cons, lookupKV, if_neg hwp]
          exact ih hm

/-- **C2 amended** (proved).  The lambda-message computed by `pass_lambda`
equals the spec's formula *with the tuple constrained at every evident parent
position, including P's own* (`selfConstrained = true`): sum over CPT key
tuples with `tuple[idx] = p` consistent with evidence on all evident parents
of the product of the other parents' pi-messages times the inner sum over the
node's own values consistent with its evidence of the children's
lambda-product times the CPT row value. -/
theorem passLambda_matches_selfconstrained_spec
    (vs : List T) (evidence : List (NodeId × T)) (node : Node T)
    (parent : NodeId) (idx : Nat) (piMap lambdaMap : MsgMap T)
    (piF lamF : NodeId → T → ℚ) (dflt : T)
    (hidx : node.parents[idx]? = some parent)
    (harity : ∀ e ∈ node.probability, e.1.length = node.parents.length)
    (hkeys : ∀ e ∈ node.probability, ∀ x ∈ e.1, x ∈ vs)
    (hrows : ∀ e ∈ node.probability, ∀ x ∈ vs, (lookupKV x e.2).isSome = true)
    (hpi : ∀ p' ∈ node.parents, p' ≠ parent →
      ∃ mm, lookupKV (p', node.id) piMap = some mm ∧
        ∀ v ∈ vs, lookupKV v mm = some (piF p' v))
    (hlam : ∀ c ∈ node.children,
      ∃ mm, lookupKV (c, node.id) lambdaMap = some mm ∧
        ∀ v ∈ vs, lookupKV v mm = some (lamF c v)) :
    ∃ msg, passLambda vs node parent idx evidence piMap lambdaMap =
        some (((node.id, parent), msg) :: lambdaMap) ∧
      ∀ p ∈ vs, lookupKV p msg =
        some (specLambda vs evidence node.parents node.children node.id
          node.probability parent idx piF lamF dflt true p) := by
  have hidxlt : idx < node.parents.length := getElem_some_lt hidx
  have key : ∀ p : T, optSum
      (lamEntry vs evidence node parent idx piMap lambdaMap p) node.probability =
      some (specLambda vs evidence node.parents node.children node.id
        node.probability parent idx piF lamF dflt true p) := by
    intro p
    have entry : ∀ e ∈ node.probability,
        lamEntry vs evidence node parent idx piMap lambdaMap p e =
        some (if (decide (e.1[idx]? = some p) &&
            tupleConsistent evidence node.parents e.1 none) = true
          then
            (((node.parents.enum.filter fun ip => ip.2 ≠ parent).map fun ip =>
              piF ip.2 ((e.1[ip.1]?).getD dflt)).prod) *
            (((vs.filter fun x =>
                match lookupKV node.id evidence with
                | some ev => decide (x = ev)
                | none => true).map fun x =>
              ((node.children.map fun c => lamF c x).prod) *
                ((lookupKV x e.2).getD 0)).sum)
          else 0) := by
      intro e he
      have hlen_e : e.1.length = node.parents.length := harity e he
      have hidxe : idx < e.1.length := hlen_e ▸ hidxlt
      obtain ⟨tval, htval⟩ : ∃ t, e.1[idx]? = some t := by
        rw [List.getElem?_eq_getElem hidxe]; exact ⟨_, rfl⟩
      unfold lamEntry
      rw [htval]
      simp only [Option.bind_eq_bind, Option.some_bind]
      by_cases htp : tval = p
      · subst htp
        rw [if_neg (by simp)]
        rw [skipCheck_eval hlen_e]
        cases hcons : tupleConsistent evidence node.parents e.1 none with
        | false => simp [htval]
        | true =>
            simp only [Option.some_bind, Bool.not_true, Bool.false_eq_true,
              if_false]
            have hpm : optProd (fun ip =>
                if ip.2 = parent then pure 1
                else do
                  let m ← lookupKV (ip.2, node.id) piMap
                  let tv2 ← e.1[ip.1]?
                  lookupKV tv2 m) node.parents.enum =
                some ((node.parents.enum.map fun ip =>
                  if ip.2 = parent then 1
                  else piF ip.2 ((e.1[ip.1]?).getD dflt)).prod) := by
              refine optProd_congr fun ip hip => ?_
              by_cases hp' : ip.2 = parent
              · rw [if_pos hp', if_pos hp']; rfl
              · have hpe := mem_enum_getElem hip
                have hplt : ip.1 < node.parents.length := getElem_some_lt hpe
                have hple : ip.1 < e.1.length := hlen_e ▸ hplt
                obtain ⟨tv2, htv2⟩ : ∃ t, e.1[ip.1]? = some t := by
                  rw [List.getElem?_eq_getElem hple]; exact ⟨_, rfl⟩
                obtain ⟨mm, hmm, hmv⟩ := hpi ip.2 (mem_of_getElem_opt hpe) hp'
                rw [if_neg hp', if_neg hp', hmm]
                simp only [Option.bind_eq_bind, Option.some_bind]
                rw [htv2]
                simp only [Option.some_bind]
                rw [hmv tv2 (hkeys e he tv2 (mem_of_getElem_opt htv2))]
                rfl
            have hns : optSum (fun x =>
                match lookupKV node.id evidence with
                | some ev => if ev ≠ x then pure 0
                    else lamCore node lambdaMap e.2 x
                | none => lamCore node lambdaMap e.2 x) vs =
                some ((vs.map fun x =>
                  if (match lookupKV node.id evidence with
                      | some ev => decide (x = ev)
                      | none => true) = true
                  then ((node.children.map fun c => lamF c x).prod) *
                    ((lookupKV x e.2).getD 0)
                  else 0).sum) := by
              refine optSum_congr fun x hx => ?_
              have hcore : lamCore node lambdaMap e.2 x =
                  some (((node.children.map fun c => lamF c x).prod) *
                    ((lookupKV x e.2).getD 0)) := by
                unfold lamCore
                have hcl : optProd (fun c => do
                    let m ← lookupKV (c, node.id) lambdaMap
                    lookupKV x m) node.children =
                    some ((node.children.map fun c => lamF c x).prod) := by
                  refine optProd_congr fun c hc => ?_
                  obtain ⟨mm, hmm, hmv⟩ := hlam c hc
                  rw [hmm]
                  simp only [Option.bind_eq_bind, Option.some_bind]
                  exact hmv x hx
                rw [hcl]
                simp only [Option.bind_eq_bind, Option.some_bind]
                obtain ⟨rv, hrv⟩ := Option.isSome_iff_exists.mp (hrows e he x hx)
                rw [hrv]
                simp only [Option.some_bind, Option.pure_def, hrv]
                rfl
              cases hev : lookupKV node.id evidence with
              | none => simp [hcore]
              | some ev =>
                  by_cases hxe : x = ev
                  · subst hxe
                    simp [hcore]
                  · simp [hxe, Ne.symm hxe]
            simp only [Option.bind_eq_bind] at hpm
            rw [hpm]
            simp only [Option.some_bind]
            rw [hns]
            simp only [Option.some_bind]
            rw [prod_ite_one_filter (fun ip => ip.2 = parent)
                (fun ip => piF ip.2 ((e.1[ip.1]?).getD dflt)) node.parents.enum,
              sum_ite_filter (fun x =>
                match lookupKV node.id evidence with
                | some ev => decide (x = ev)
                | none => true)
                (fun x => ((node.children.map fun c => lamF c x).prod) *
                  ((lookupKV x e.2).getD 0)) vs]
            rw [if_pos (by simp [htval, hcons])]
            simp only [ne_eq]
            rfl
      · rw [if_pos (by simpa using htp)]
        rw [if_neg (by simp [htval, htp])]
        rfl
    have := optSum_congr entry
    rw [this]
    unfold specLambda
    rw [sum_ite_filter]
    rfl
  have hmsg : msgOfFn vs (fun value =>
      optSum (lamEntry vs evidence node parent idx piMap lambdaMap value)
        node.probability) =
      some (vs.map fun v => (v, specLambda vs evidence node.parents node.children
        node.id node.probability parent idx piF lamF dflt true v)) :=
    msgOfFn_eq_map fun v _ => key v
  refine ⟨vs.map fun v => (v, specLambda vs evidence node.parents node.children
      node.id node.probability parent idx piF lamF dflt true v), ?_, ?_⟩
  · unfold passLambda
    rw [hmsg]
    rfl
  · intro p hp
    exact lookup_map_self hp

/-- **C2 witness** for the amended theorem: the concrete leaf node with its
parent in evidence. -/
theorem passLambda_matches_selfconstrained_spec_witness :
    ∃ msg, passLambda [0, 1] cnodeX 0 0 [(0, 0)] [] [] =
        some (((1, 0), msg) :: []) ∧
      ∀ p ∈ [0, 1], lookupKV p msg =
        some (specLambda [0, 1] [(0, 0)] [0] [] 1 [([0], rowHalf), ([1], rowHalf)]
          0 0 (fun _ _ => 1) (fun _ _ => 1) 0 true p) :=
  passLambda_matches_selfconstrained_spec [0, 1] [(0, 0)] cnodeX 0 0 [] []
    (fun _ _ => 1) (fun _ _ => 1) 0
    (by with_unfolding_all decide) (by with_unfolding_all decide)
    (by with_unfolding_all decide) (by with_unfolding_all decide)
    (fun p' hp' hne => absurd (by simpa [cnodeX] using hp') hne)
    (fun c hc => absurd hc (by simp [cnodeX]))

/-! ### C5: combinatorial lemmas for complete CPTs -/

theorem mem_tuplesCons {vss : List (List T)} : ∀ {ws t : List T},
    t ∈ tuplesCons vss ws ↔ ∃ v, v ∈ ws ∧ ∃ t', t' ∈ vss ∧ t = v :: t' := by
  intro ws
  induction ws with
  | nil => intro t; simp [tuplesCons]
  | cons w ws ih =>
      intro t
      simp only [tuplesCons, List.mem_append, List.mem_map, ih, List.mem_cons]
      constructor
      · rintro (⟨t', ht', rfl⟩ | ⟨v, hv, t', ht', rfl⟩)
        · exact ⟨w, Or.inl rfl, t', ht', rfl⟩
        · exact ⟨v, Or.inr hv, t', ht', rfl⟩
      · rintro ⟨v, hv | hv, t', ht', rfl⟩
        · exact Or.inl ⟨t', ht', by rw [hv]⟩
        · exact Or.inr ⟨v, hv, t', ht', rfl⟩

theorem mem_allTuples {vs : List T} : ∀ {n : Nat} {t : List T},
    t ∈ allTuples vs n ↔ t.length = n ∧ ∀ x ∈ t, x ∈ vs := by
  intro n
  induction n with
  | zero =>
      intro t
      simp only [allTuples, List.mem_singleton]
      constructor
      · rintro rfl; simp
      · rintro ⟨hl, _⟩; exact List.length_eq_zero.mp hl
  | succ n ih =>
      intro t
      rw [show allTuples vs (n + 1) = tuplesCons (allTuples vs n) vs from rfl,
        mem_tuplesCons]
      constructor
      · rintro ⟨v, hv, t', ht', rfl⟩
        obtain ⟨hl, hmem⟩ := ih.mp ht'
        refine ⟨by simp [hl], fun x hx => ?_⟩
        rcases List.mem_cons.mp hx with rfl | hx
        · exact hv
        · exact hmem x hx
      · rintro ⟨hl, hmem⟩
        cases t with
        | nil => cases hl
        | cons v t' =>
            exact ⟨v, hmem v (List.mem_cons_self v t'), t',
              ih.mpr ⟨by simpa using hl,
                fun x hx => hmem x (List.mem_cons_of_mem v hx)⟩, rfl⟩

theorem sum_map_tuplesCons (h : List T → ℚ) (vss : List (List T)) :
    ∀ ws : List T, ((tuplesCons vss ws).map h).sum =
      (ws.map fun v => ((vss.map fun t => h (v :: t)).sum)).sum := by
  intro ws
  induction ws with
  | nil => rfl
  | cons w ws ih =>
      simp only [tuplesCons, List.map_append, List.sum_append, ih,
        List.map_map, List.map_cons, List.sum_cons]
      rfl

theorem sum_map_mul_const {α : Type} (l : List α) (f : α → ℚ) (c : ℚ) :
    (l.map fun a => c * f a).sum = c * (l.map f).sum := by
  induction l with
  | nil => simp
  | cons a l ih => simp [ih, mul_add]

theorem sum_map_const_mul {α : Type} (l : List α) (f : α → ℚ) (c : ℚ) :
    (l.map fun a => f a * c).sum = (l.map f).sum * c := by
  induction l with
  | nil => simp
  | cons a l ih => simp [ih, add_mul]

theorem sum_map_add_distrib {α : Type} (l : List α) (f g : α → ℚ) :
    (l.map fun a => f a + g a).sum = (l.map f).sum + (l.map g).sum := by
  induction l with
  | nil => simp
  | cons a l ih => simp [ih]; ring

theorem sum_sum_comm {α β : Type} (l1 : List α) (l2 : List β) (g : α → β → ℚ) :
    (l1.map fun a => (l2.map fun b => g a b).sum).sum =
    (l2.map fun b => (l1.map fun a => g a b).sum).sum := by
  induction l1 with
  | nil => simp
  | cons a l1 ih =>
      simp only [List.map_cons, List.sum_cons]
      rw [ih, ← sum_map_add_distrib]

theorem zipProd_cons (F : NodeId → T → ℚ) (p : NodeId) (ps : List NodeId)
    (v : T) (t : List T) :
    zipProd F (p :: ps) (v :: t) = F p v * zipProd F ps t := by
  simp [zipProd]

theorem sum_allTuples_zipProd (vs : List T) (F : NodeId → T → ℚ) :
    ∀ ps : List NodeId,
      ((allTuples vs ps.length).map fun t => zipProd F ps t).sum =
      (ps.map fun p => (vs.map (F p)).sum).prod := by
  intro ps
  induction ps with
  | nil => simp [allTuples, zipProd]
  | cons p ps ih =>
      rw [List.length_cons,
        show allTuples vs (ps.length + 1) = tuplesCons (allTuples vs ps.length) vs
          from rfl, sum_map_tuplesCons]
      have hinner : ∀ v : T, ((allTuples vs ps.length).map fun t =>
          zipProd F (p :: ps) (v :: t)).sum =
          F p v * ((allTuples vs ps.length).map fun t => zipProd F ps t).sum := by
        intro v
        rw [show ((allTuples vs ps.length).map fun t => zipProd F (p :: ps) (v :: t)) =
            ((allTuples vs ps.length).map fun t => F p v * zipProd F ps t) from
          List.map_congr_left fun t _ => zipProd_cons F p ps v t]
        exact sum_map_mul_const _ _ _
      calc (vs.map fun v => ((allTuples vs ps.length).map fun t =>
              zipProd F (p :: ps) (v :: t)).sum).sum
          = (vs.map fun v => F p v * ((allTuples vs ps.length).map fun t =>
              zipProd F ps t).sum).sum :=
            congrArg List.sum (List.map_congr_left fun v _ => hinner v)
        _ = (vs.map (F p)).sum * ((allTuples vs ps.length).map fun t =>
              zipProd F ps t).sum := sum_map_const_mul _ _ _
        _ = (vs.map (F p)).sum * (ps.map fun q => (vs.map (F q)).sum).prod := by
              rw [ih]
        _ = ((p :: ps).map fun q => (vs.map (F q)).sum).prod := by
              rw [List.map_cons, List.prod_cons]

theorem sum_indicator_nodup {vs : List T} (hnd : vs.Nodup) {value : T}
    (hv : value ∈ vs) :
    (vs.map fun v => if v = value then (1 : ℚ) else 0).sum = 1 := by
  induction vs with
  | nil => cases hv
  | cons w ws ih =>
      rcases List.mem_cons.mp hv with h | h
      · subst h
        rw [List.map_cons, if_pos rfl, List.sum_cons]
        have hz : (ws.map fun v => if v = value then (1 : ℚ) else 0).sum = 0 := by
          refine List.sum_eq_zero fun x hx => ?_
          obtain ⟨v, hvmem, rfl⟩ := List.mem_map.mp hx
          rw [if_neg]
          intro he
          exact (List.nodup_cons.mp hnd).1 (he ▸ hvmem)
        rw [hz, add_zero]
      · have hw : w ≠ value := by
          intro he
          exact (List.nodup_cons.mp hnd).1 (he ▸ h)
        rw [List.map_cons, if_neg hw, List.sum_cons,
          ih (List.nodup_cons.mp hnd).2 h, zero_add]

theorem eq_some_getD {α : Type} {o : Option α} (h : o.isSome = true) (d : α) :
    o = some (o.getD d) := by
  cases o with
  | none => cases h
  | some a => rfl

theorem lookup_cons_cases {K V : Type} [DecidableEq K] {k k' : K} {v : V}
    {m : List (K × V)} {r : V} (h : lookupKV k ((k', v) :: m) = some r) :
    r = v ∨ lookupKV k m = some r := by
  by_cases he : k' = k
  · simp only [lookupKV, if_pos he] at h
    cases h
    exact Or.inl rfl
  · simp only [lookupKV, if_neg he] at h
    exact Or.inr h

theorem optSum_mem_some {α : Type} {g : α → Option ℚ} : ∀ {l : List α} {q : ℚ},
    optSum g l = some q → ∀ a ∈ l, (g a).isSome = true := by
  intro l
  induction l with
  | nil => intro q _ a ha; cases ha
  | cons b l ih =>
      intro q h a ha
      simp only [optSum, Option.bind_eq_bind, bind, Option.bind] at h
      cases hb : g b with
      | none => rw [hb] at h; cases h
      | some x =>
          rw [hb] at h
          cases hr : optSum g l with
          | none => rw [hr] at h; cases h
          | some r =>
              rcases List.mem_cons.mp ha with rfl | ha'
              · rw [hb]; rfl
              · exact ih hr a ha'

theorem optProd_mem_some {α : Type} {g : α → Option ℚ} : ∀ {l : List α} {q : ℚ},
    optProd g l = some q → ∀ a ∈ l, (g a).isSome = true := by
  intro l
  induction l with
  | nil => intro q _ a ha; cases ha
  | cons b l ih =>
      intro q h a ha
      simp only [optProd, Option.bind_eq_bind, bind, Option.bind] at h
      cases hb : g b with
      | none => rw [hb] at h; cases h
      | some x =>
          rw [hb] at h
          cases hr : optProd g l with
          | none => rw [hr] at h; cases h
          | some r =>
              rcases List.mem_cons.mp ha with rfl | ha'
              · rw [hb]; rfl
              · exact ih hr a ha'

theorem optMap_eq_map {α β : Type} {f : α → Option β} {g : α → β} :
    ∀ {l : List α}, (∀ a ∈ l, f a = some (g a)) → optMap f l = some (l.map g) := by
  intro l
  induction l with
  | nil => intro _; rfl
  | cons a l ih =>
      intro h
      simp only [optMap, Option.bind_eq_bind, bind, Option.bind, Option.pure_def,
        h a (List.mem_cons_self a l), ih fun b hb => h b (List.mem_cons_of_mem a hb),
        List.map_cons]

theorem zip_getElem_opt {α β : Type} : ∀ {l1 : List α} {l2 : List β} {i : Nat}
    {a : α} {b : β}, l1[i]? = some a → l2[i]? = some b →
    (l1.zip l2)[i]? = some (a, b) := by
  intro l1
  induction l1 with
  | nil => intro l2 i a b h1 _; cases h1
  | cons x l1 ih =>
      intro l2 i a b h1 h2
      cases l2 with
      | nil => cases h2
      | cons y l2 =>
          cases i with
          | zero =>
              rw [List.getElem?_cons_zero] at h1 h2
              cases h1; cases h2
              simp [List.zip_cons_cons]
          | succ i =>
              rw [List.getElem?_cons_succ] at h1 h2
              rw [List.zip_cons_cons, List.getElem?_cons_succ]
              exact ih h1 h2

theorem mem_zip_getElem {α β : Type} : ∀ {l1 : List α} {l2 : List β}
    {p : α × β}, p ∈ l1.zip l2 →
    ∃ i : Nat, l1[i]? = some p.1 ∧ l2[i]? = some p.2 := by
  intro l1
  induction l1 with
  | nil => intro l2 p h; simp [List.zip] at h
  | cons x l1 ih =>
      intro l2 p h
      cases l2 with
      | nil => simp [List.zip] at h
      | cons y l2 =>
          rw [List.zip_cons_cons] at h
          rcases List.mem_cons.mp h with rfl | h'
          · exact ⟨0, by simp, by simp⟩
          · obtain ⟨i, h1, h2⟩ := ih h'
            exact ⟨i + 1, by simpa using h1, by simpa using h2⟩

theorem nodup_getElem_opt_inj {α : Type} {l : List α} (hnd : l.Nodup)
    {i j : Nat} {a : α} (hi : l[i]? = some a) (hj : l[j]? = some a) : i = j := by
  obtain ⟨hilt, hie⟩ := List.getElem?_eq_some.mp hi
  obtain ⟨hjlt, hje⟩ := List.getElem?_eq_some.mp hj
  exact (List.Nodup.getElem_inj_iff hnd).mp (hie.trans hje.symm)

theorem replicate_mem_allTuples {vs : List T} {v : T} (hv : v ∈ vs) (n : Nat) :
    List.replicate n v ∈ allTuples vs n :=
  mem_allTuples.mpr ⟨List.length_replicate n v,
    fun x hx => (List.eq_of_mem_replicate hx) ▸ hv⟩

theorem exists_entry_of_perm {vs : List T} (hvne : vs ≠ [])
    {prob : List (List T × List (T × Probability))} {n : Nat}
    (hperm : (prob.map fun e => e.1).Perm (allTuples vs n)) :
    ∃ e, e ∈ prob := by
  cases hvs : vs with
  | nil => exact absurd hvs hvne
  | cons v ws =>
      have hmem : List.replicate n v ∈ allTuples vs n :=
        replicate_mem_allTuples (hvs ▸ List.mem_cons_self v ws) n
      have : List.replicate n v ∈ prob.map fun e => e.1 := hperm.mem_iff.mpr hmem
      obtain ⟨e, he, _⟩ := List.mem_map.mp this
      exact ⟨e, he⟩

theorem evidentParents_nil (ps : List NodeId) :
    evidentParents ([] : List (NodeId × T)) ps = [] := by
  simp [evidentParents, containsKV, lookupKV]

/-! ### C5: evaluating the message computations under the invariant -/

theorem optProd_enumFrom_zip (K : NodeId → Option T → Option ℚ) :
    ∀ (ps : List NodeId) (i : Nat) (t : List T), i + ps.length ≤ t.length →
    optProd (fun ip => K ip.2 t[ip.1]?) (List.enumFrom i ps) =
    optProd (fun pt => K pt.1 (some pt.2)) (ps.zip (t.drop i)) := by
  intro ps
  induction ps with
  | nil => intro i t _; rfl
  | cons p ps ih =>
      intro i t hle
      rw [List.length_cons] at hle
      have hit : i < t.length := by omega
      have hdrop : t.drop i = t[i] :: t.drop (i + 1) :=
        List.drop_eq_getElem_cons hit
      rw [show List.enumFrom i (p :: ps) = (i, p) :: List.enumFrom (i + 1) ps
          from rfl, hdrop, List.zip_cons_cons]
      simp only [optProd]
      rw [List.getElem?_eq_getElem hit]
      rw [ih (i + 1) t (by omega)]

theorem optProd_enum_zip (K : NodeId → Option T → Option ℚ) (ps : List NodeId)
    (t : List T) (h : ps.length ≤ t.length) :
    optProd (fun ip => K ip.2 t[ip.1]?) ps.enum =
    optProd (fun pt => K pt.1 (some pt.2)) (ps.zip t) := by
  have hz := optProd_enumFrom_zip K ps 0 t (by omega)
  rw [List.drop_zero] at hz
  exact hz

theorem optProd_lambda_ones {vs : List T} {lambdaMap : MsgMap T} {nid : NodeId}
    (hinv : ∀ k m, lookupKV k lambdaMap = some m → MsgOne vs m)
    {cs : List NodeId} {v : T} (hv : v ∈ vs)
    (hsome : ∀ c ∈ cs, (lookupKV (c, nid) lambdaMap).isSome = true) :
    optProd (fun c => do
      let m ← lookupKV (c, nid) lambdaMap
      lookupKV v m) cs = some 1 := by
  have h1 : ∀ c ∈ cs, (do
      let m ← lookupKV (c, nid) lambdaMap
      lookupKV v m) = some ((fun _ : NodeId => (1 : ℚ)) c) := by
    intro c hc
    cases hm : lookupKV (c, nid) lambdaMap with
    | none =>
        have hs := hsome c hc
        rw [hm] at hs
        simp at hs
    | some m =>
        simp only [Option.bind_eq_bind, Option.some_bind]
        exact hinv (c, nid) m hm v hv
  rw [optProd_congr h1]
  simp

theorem piParentMul_eval {vs : List T} {piMap : MsgMap T} {nid : NodeId}
    {ps : List NodeId} {t : List T}
    (hinv : ∀ k m, lookupKV k piMap = some m → MsgSumOne vs m)
    (hlen : ps.length ≤ t.length)
    (hmem : ∀ x ∈ t, x ∈ vs)
    (hsome : ∀ p ∈ ps, (lookupKV (p, nid) piMap).isSome = true) :
    piParentMul piMap nid ps t = some (zipProd (Fpi piMap nid) ps t) := by
  have hb := optProd_enum_zip (fun p ot => do
      let msg ← lookupKV (p, nid) piMap
      let tv ← ot
      lookupKV tv msg) ps t hlen
  have h2 : optProd (fun pt : NodeId × T => do
      let msg ← lookupKV (pt.1, nid) piMap
      let tv ← some pt.2
      lookupKV tv msg) (ps.zip t) =
      some (((ps.zip t).map fun pt => Fpi piMap nid pt.1 pt.2).prod) := by
    refine optProd_congr fun pt hpt => ?_
    obtain ⟨hp1, hp2⟩ := List.of_mem_zip hpt
    obtain ⟨m, hm⟩ := Option.isSome_iff_exists.mp (hsome pt.1 hp1)
    rw [hm]
    simp only [Option.bind_eq_bind, Option.some_bind]
    have hisv := (hinv (pt.1, nid) m hm).1 pt.2 (hmem pt.2 hp2)
    rw [eq_some_getD hisv 0]
    unfold Fpi
    rw [hm]
    rfl
  unfold piParentMul
  exact hb.trans h2

theorem lamParentMul_eval {vs : List T} {piMap : MsgMap T} {nid parent : NodeId}
    {ps : List NodeId} {t : List T}
    (hinv : ∀ k m, lookupKV k piMap = some m → MsgSumOne vs m)
    (hlen : ps.length ≤ t.length)
    (hmem : ∀ x ∈ t, x ∈ vs)
    (hsome : ∀ p ∈ ps, p ≠ parent → (lookupKV (p, nid) piMap).isSome = true) :
    optProd (fun ip =>
      if ip.2 = parent then pure 1
      else do
        let m ← lookupKV (ip.2, nid) piMap
        let tv2 ← t[ip.1]?
        lookupKV tv2 m) ps.enum =
    some (zipProd (fun p v => if p = parent then 1 else Fpi piMap nid p v) ps t) := by
  have hb := optProd_enum_zip (fun p ot =>
      if p = parent then pure 1
      else do
        let m ← lookupKV (p, nid) piMap
        let tv2 ← ot
        lookupKV tv2 m) ps t hlen
  have h2 : optProd (fun pt : NodeId × T =>
      if pt.1 = parent then pure 1
      else do
        let m ← lookupKV (pt.1, nid) piMap
        let tv2 ← some pt.2
        lookupKV tv2 m) (ps.zip t) =
      some (((ps.zip t).map fun pt =>
        if pt.1 = parent then 1 else Fpi piMap nid pt.1 pt.2).prod) := by
    refine optProd_congr fun pt hpt => ?_
    obtain ⟨hp1, hp2⟩ := List.of_mem_zip hpt
    by_cases hp : pt.1 = parent
    · rw [if_pos hp, if_pos hp]
      rfl
    · rw [if_neg hp, if_neg hp]
      obtain ⟨m, hm⟩ := Option.isSome_iff_exists.mp (hsome pt.1 hp1 hp)
      rw [hm]
      simp only [Option.bind_eq_bind, Option.some_bind]
      have hisv := (hinv (pt.1, nid) m hm).1 pt.2 (hmem pt.2 hp2)
      rw [eq_some_getD hisv 0]
      unfold Fpi
      rw [hm]
      rfl
  exact hb.trans h2

theorem lamNs_eval {vs : List T} {lambdaMap : MsgMap T} {node : Node T}
    {row : List (T × Probability)}
    (hinv : ∀ k m, lookupKV k lambdaMap = some m → MsgOne vs m)
    (hrowS : ∀ x ∈ vs, (lookupKV x row).isSome = true)
    (hrow1 : (vs.map fun x => (lookupKV x row).getD 0).sum = 1)
    (hcsome : ∀ c ∈ node.children, (lookupKV (c, node.id) lambdaMap).isSome = true) :
    optSum (fun x => lamCore node lambdaMap row x) vs = some 1 := by
  have h1 : ∀ x ∈ vs, lamCore node lambdaMap row x =
      some ((fun y => (lookupKV y row).getD 0) x) := by
    intro x hx
    unfold lamCore
    rw [optProd_lambda_ones hinv hx hcsome]
    simp only [Option.bind_eq_bind, Option.some_bind]
    rw [eq_some_getD (hrowS x hx) 0]
    simp [one_mul]
  rw [optSum_congr h1, hrow1]

theorem piOptSum_parents_some {piMap : MsgMap T} {node : Node T}
    {v : T} {q : ℚ}
    (hq : optSum (fun entry => do
        let skip ← skipCheck ([] : List (NodeId × T)) node.parents entry.1
          (evidentParents ([] : List (NodeId × T)) node.parents)
        if skip then pure 0
        else do
          let pm ← piParentMul piMap node.id node.parents entry.1
          let pv ← lookupKV v entry.2
          pure (pv * pm)) node.probability = some q)
    {e₀ : List T × List (T × Probability)} (he₀ : e₀ ∈ node.probability) :
    ∀ p ∈ node.parents, (lookupKV (p, node.id) piMap).isSome = true := by
  intro p hp
  have hbody := optSum_mem_some hq e₀ he₀
  rw [evidentParents_nil] at hbody
  simp only [skipCheck, Option.bind_eq_bind, Option.some_bind,
    Bool.false_eq_true, if_false] at hbody
  cases hpm : piParentMul piMap node.id node.parents e₀.1 with
  | none => rw [hpm] at hbody; simp at hbody
  | some pmv =>
      unfold piParentMul at hpm
      obtain ⟨j, hjlt, hje⟩ := List.mem_iff_getElem.mp hp
      have hjq : node.parents[j]? = some p := by
        rw [List.getElem?_eq_getElem hjlt]
        exact congrArg some hje
      have hjenum : (j, p) ∈ node.parents.enum := getElem_mem_enum hjq
      have hel := optProd_mem_some hpm (j, p) hjenum
      have hel' : ((do
          let msg ← lookupKV (p, node.id) piMap
          let tv ← e₀.1[j]?
          lookupKV tv msg : Option ℚ)).isSome = true := hel
      cases hcl : lookupKV (p, node.id) piMap with
      | none => rw [hcl] at hel'; simp at hel'
      | some mm => rfl

theorem piOptSum_eval {vs : List T} {piMap : MsgMap T} {node : Node T} {v : T}
    (hperm : (node.probability.map fun e => e.1).Perm
      (allTuples vs node.parents.length))
    (hrowS : ∀ e ∈ node.probability, ∀ x ∈ vs, (lookupKV x e.2).isSome = true)
    (hpi : ∀ k m, lookupKV k piMap = some m → MsgSumOne vs m)
    (hpsome : ∀ p ∈ node.parents, (lookupKV (p, node.id) piMap).isSome = true)
    (hv : v ∈ vs) :
    optSum (fun entry => do
        let skip ← skipCheck ([] : List (NodeId × T)) node.parents entry.1
          (evidentParents ([] : List (NodeId × T)) node.parents)
        if skip then pure 0
        else do
          let pm ← piParentMul piMap node.id node.parents entry.1
          let pv ← lookupKV v entry.2
          pure (pv * pm)) node.probability =
    some ((node.probability.map fun e =>
      (lookupKV v e.2).getD 0 * zipProd (Fpi piMap node.id) node.parents e.1).sum) := by
  refine optSum_congr fun e he => ?_
  have hkey : e.1 ∈ allTuples vs node.parents.length :=
    hperm.mem_iff.mp (List.mem_map_of_mem _ he)
  obtain ⟨hlen, hmem⟩ := mem_allTuples.mp hkey
  rw [evidentParents_nil]
  simp only [skipCheck, Option.bind_eq_bind, Option.some_bind,
    Bool.false_eq_true, if_false]
  rw [piParentMul_eval hpi (le_of_eq hlen.symm) hmem hpsome]
  simp only [Option.some_bind]
  rw [eq_some_getD (hrowS e he v hv) 0]
  simp

theorem piOptSum_total {vs : List T} {piMap : MsgMap T} {node : Node T}
    (hperm : (node.probability.map fun e => e.1).Perm
      (allTuples vs node.parents.length))
    (hrow1 : ∀ e ∈ node.probability,
      (vs.map fun x => (lookupKV x e.2).getD 0).sum = 1)
    (hpi : ∀ k m, lookupKV k piMap = some m → MsgSumOne vs m)
    (hpsome : ∀ p ∈ node.parents, (lookupKV (p, node.id) piMap).isSome = true) :
    (vs.map fun v => (node.probability.map fun e =>
      (lookupKV v e.2).getD 0 * zipProd (Fpi piMap node.id) node.parents e.1).sum).sum
      = 1 := by
  rw [sum_sum_comm]
  have hper : ∀ e ∈ node.probability, (vs.map fun v =>
      (lookupKV v e.2).getD 0 * zipProd (Fpi piMap node.id) node.parents e.1).sum =
      zipProd (Fpi piMap node.id) node.parents e.1 := by
    intro e he
    rw [sum_map_const_mul, hrow1 e he, one_mul]
  rw [List.map_congr_left hper]
  rw [show (node.probability.map fun e =>
      zipProd (Fpi piMap node.id) node.parents e.1) =
      ((node.probability.map fun e => e.1).map fun t =>
        zipProd (Fpi piMap node.id) node.parents t) by rw [List.map_map]; rfl]
  rw [(hperm.map fun t => zipProd (Fpi piMap node.id) node.parents t).sum_eq]
  rw [sum_allTuples_zipProd]
  refine List.prod_eq_one fun x hx => ?_
  obtain ⟨p, hp, rfl⟩ := List.mem_map.mp hx
  show (vs.map fun v => Fpi piMap node.id p v).sum = 1
  obtain ⟨m, hm⟩ := Option.isSome_iff_exists.mp (hpsome p hp)
  have hms := (hpi (p, node.id) m hm).2
  have hco : ∀ v ∈ vs, Fpi piMap node.id p v = (lookupKV v m).getD 0 := by
    intro v _
    unfold Fpi
    rw [hm]
    rfl
  rw [List.map_congr_left hco]
  exact hms

theorem nonroot_msg_sum {vs : List T} {piMap : MsgMap T} {node : Node T}
    {msg : List (T × Probability)}
    (hvne : vs ≠ [])
    (hperm : (node.probability.map fun e => e.1).Perm
      (allTuples vs node.parents.length))
    (hrows : ∀ e ∈ node.probability, (∀ x ∈ vs, (lookupKV x e.2).isSome = true) ∧
      (vs.map fun x => (lookupKV x e.2).getD 0).sum = 1)
    (hpi : ∀ k m, lookupKV k piMap = some m → MsgSumOne vs m)
    (hred : ∀ v : T, piSumValue node ([] : List (NodeId × T)) piMap v =
      optSum (fun entry => do
        let skip ← skipCheck ([] : List (NodeId × T)) node.parents entry.1
          (evidentParents ([] : List (NodeId × T)) node.parents)
        if skip then pure 0
        else do
          let pm ← piParentMul piMap node.id node.parents entry.1
          let pv ← lookupKV v entry.2
          pure (pv * pm)) node.probability)
    (hstep : ∀ v ∈ vs, ∃ sv,
      piSumValue node ([] : List (NodeId × T)) piMap v = some sv ∧
      lookupKV v msg = some (1 * sv)) :
    (vs.map fun v => (lookupKV v msg).getD 0).sum = 1 := by
  obtain ⟨v₀, hv₀⟩ := List.exists_mem_of_ne_nil vs hvne
  obtain ⟨sv₀, hsv₀, -⟩ := hstep v₀ hv₀
  rw [hred v₀] at hsv₀
  obtain ⟨e₀, he₀⟩ := exists_entry_of_perm hvne hperm
  have hpsome := piOptSum_parents_some hsv₀ he₀
  have hco : ∀ v ∈ vs, (lookupKV v msg).getD 0 = (node.probability.map fun e =>
      (lookupKV v e.2).getD 0 * zipProd (Fpi piMap node.id) node.parents e.1).sum := by
    intro v hv
    obtain ⟨sv, hsv, hl⟩ := hstep v hv
    rw [hred v] at hsv
    rw [piOptSum_eval hperm (fun e he => (hrows e he).1) hpi hpsome hv] at hsv
    rw [hl, one_mul, Option.getD_some]
    exact (Option.some.inj hsv).symm
  rw [List.map_congr_left hco]
  exact piOptSum_total hperm (fun e he => (hrows e he).2) hpi hpsome

theorem passPi_preserves {vs : List T} {node : Node T} {child : NodeId}
    {lambdaMap piMap pm' : MsgMap T}
    (hvne : vs ≠ []) (hwf : NodeWF vs node)
    (hpi : ∀ k m, lookupKV k piMap = some m → MsgSumOne vs m)
    (hlam : ∀ k m, lookupKV k lambdaMap = some m → MsgOne vs m)
    (h : passPi vs node child [] lambdaMap piMap = some pm') :
    ∀ k m, lookupKV k pm' = some m → MsgSumOne vs m := by
  unfold passPi at h
  simp only [Option.bind_eq_bind, Option.pure_def] at h
  rcases Option.bind_eq_some.mp h with ⟨msg, hmsg, hpm⟩
  cases hpm
  intro k m hkm
  rcases lookup_cons_cases hkm with rfl | htail
  · have hstep : ∀ v ∈ vs, ∃ sv,
        piSumValue node ([] : List (NodeId × T)) piMap v = some sv ∧
        lookupKV v m = some (1 * sv) := by
      intro v hv
      obtain ⟨q, hq, hl⟩ := msgOfFn_lookup hmsg hv
      rcases Option.bind_eq_some.mp hq with ⟨lam, hlamv, hq2⟩
      rcases Option.bind_eq_some.mp hq2 with ⟨sv, hsv, hq3⟩
      have hcsome : ∀ c ∈ node.children.filter fun oc => oc ≠ child,
          (lookupKV (c, node.id) lambdaMap).isSome = true := by
        intro c hc
        have hbody := optProd_mem_some hlamv c hc
        cases hcl : lookupKV (c, node.id) lambdaMap with
        | none => rw [hcl] at hbody; simp at hbody
        | some mm => rfl
      have hones := optProd_lambda_ones hlam hv hcsome
      simp only [Option.bind_eq_bind] at hones
      rw [hlamv] at hones
      cases Option.some.inj hones
      refine ⟨sv, hsv, ?_⟩
      rw [hl, ← hq3]
    refine ⟨fun v hv => ?_, ?_⟩
    · obtain ⟨q, -, hl⟩ := msgOfFn_lookup hmsg hv
      rw [hl]
      rfl
    · cases hnt : node.node_type with
      | Root pm =>
          simp only [NodeWF, hnt] at hwf
          obtain ⟨hpar, hps, hp1⟩ := hwf
          have hco : ∀ v ∈ vs, (lookupKV v m).getD 0 = (lookupKV v pm).getD 0 := by
            intro v hv
            obtain ⟨sv, hsv, hl⟩ := hstep v hv
            have hsv2 : piSumValue node ([] : List (NodeId × T)) piMap v =
                some ((lookupKV v pm).getD 0) := by
              unfold piSumValue
              simp only [lookupKV, hnt]
              exact eq_some_getD (hps v hv) 0
            rw [hsv] at hsv2
            rw [hl, one_mul, Option.getD_some]
            exact Option.some.inj hsv2
          rw [List.map_congr_left hco]
          exact hp1
      | Leaf =>
          simp only [NodeWF, hnt] at hwf
          obtain ⟨hndps, hperm, hrows⟩ := hwf
          refine nonroot_msg_sum hvne hperm hrows hpi (fun v => ?_) hstep
          unfold piSumValue
          simp only [lookupKV, hnt]
      | Intermediate =>
          simp only [NodeWF, hnt] at hwf
          obtain ⟨hndps, hperm, hrows⟩ := hwf
          refine nonroot_msg_sum hvne hperm hrows hpi (fun v => ?_) hstep
          unfold piSumValue
          simp only [lookupKV, hnt]
  · exact hpi k m htail

theorem passLambda_preserves {vs : List T} {node : Node T} {parent : NodeId}
    {idx : Nat} {piMap lambdaMap lm' : MsgMap T}
    (hvne : vs ≠ []) (hnd : vs.Nodup)
    (hndps : node.parents.Nodup)
    (hperm : (node.probability.map fun e => e.1).Perm
      (allTuples vs node.parents.length))
    (hrows : ∀ e ∈ node.probability, (∀ x ∈ vs, (lookupKV x e.2).isSome = true) ∧
      (vs.map fun x => (lookupKV x e.2).getD 0).sum = 1)
    (hpi : ∀ k m, lookupKV k piMap = some m → MsgSumOne vs m)
    (hlam : ∀ k m, lookupKV k lambdaMap = some m → MsgOne vs m)
    (hidx : node.parents[idx]? = some parent)
    (h : passLambda vs node parent idx [] piMap lambdaMap = some lm') :
    ∀ k m, lookupKV k lm' = some m → MsgOne vs m := by
  unfold passLambda at h
  simp only [Option.bind_eq_bind, Option.pure_def] at h
  rcases Option.bind_eq_some.mp h with ⟨msg, hmsg, hpm⟩
  cases hpm
  intro k m hkm
  rcases lookup_cons_cases hkm with rfl | htail
  · intro value hvalue
    obtain ⟨q, hq, hl⟩ := msgOfFn_lookup hmsg hvalue
    have hidxlt : idx < node.parents.length := getElem_some_lt hidx
    have hrep : List.replicate node.parents.length value ∈
        node.probability.map fun e => e.1 :=
      hperm.mem_iff.mpr (replicate_mem_allTuples hvalue _)
    obtain ⟨estar, hestar, hekey⟩ := List.mem_map.mp hrep
    have hqs := optSum_mem_some hq estar hestar
    obtain ⟨qstar, hqstar⟩ := Option.isSome_iff_exists.mp hqs
    unfold lamEntry at hqstar
    have hstv : estar.1[idx]? = some value := by
      rw [hekey, List.getElem?_replicate, if_pos hidxlt]
    rw [hstv] at hqstar
    simp only [Option.bind_eq_bind, Option.some_bind] at hqstar
    rw [if_neg (by simp : ¬(value ≠ value))] at hqstar
    rw [evidentParents_nil] at hqstar
    simp only [skipCheck, Option.some_bind, Bool.false_eq_true, if_false] at hqstar
    rcases Option.bind_eq_some.mp hqstar with ⟨pmv, hpmv, hq2⟩
    rcases Option.bind_eq_some.mp hq2 with ⟨nsv, hnsv, -⟩
    have hpsome : ∀ p ∈ node.parents, p ≠ parent →
        (lookupKV (p, node.id) piMap).isSome = true := by
      intro p hp hpne
      obtain ⟨j, hjlt, hje⟩ := List.mem_iff_getElem.mp hp
      have hjq : node.parents[j]? = some p := by
        rw [List.getElem?_eq_getElem hjlt]
        exact congrArg some hje
      have hjenum : (j, p) ∈ node.parents.enum := getElem_mem_enum hjq
      have hbody := optProd_mem_some hpmv (j, p) hjenum
      have hbody' : ((if p = parent then pure 1
          else (do
            let m ← lookupKV (p, node.id) piMap
            let tv2 ← estar.1[j]?
            lookupKV tv2 m) : Option ℚ)).isSome = true := hbody
      rw [if_neg hpne] at hbody'
      cases hcl : lookupKV (p, node.id) piMap with
      | none => rw [hcl] at hbody'; simp at hbody'
      | some mm => rfl
    have hcsome : ∀ c ∈ node.children,
        (lookupKV (c, node.id) lambdaMap).isSome = true := by
      obtain ⟨x₀, hx₀⟩ := List.exists_mem_of_ne_nil vs hvne
      have hxbody := optSum_mem_some hnsv x₀ hx₀
      have hxbody' : (lamCore node lambdaMap estar.2 x₀).isSome = true := hxbody
      intro c hc
      unfold lamCore at hxbody'
      cases hop : optProd (fun c => do
          let m ← lookupKV (c, node.id) lambdaMap
          lookupKV x₀ m) node.children with
      | none => rw [hop] at hxbody'; simp at hxbody'
      | some lv =>
          have hb2 := optProd_mem_some hop c hc
          cases hcl : lookupKV (c, node.id) lambdaMap with
          | none => rw [hcl] at hb2; simp at hb2
          | some mm => rfl
    have hentry : ∀ e ∈ node.probability,
        lamEntry vs ([] : List (NodeId × T)) node parent idx piMap lambdaMap value e =
        some ((fun e' : List T × List (T × Probability) =>
          zipProd (fun p v => if p = parent then (if v = value then 1 else 0)
            else Fpi piMap node.id p v) node.parents e'.1) e) := by
      intro e he
      have hkey : e.1 ∈ allTuples vs node.parents.length :=
        hperm.mem_iff.mp (List.mem_map_of_mem _ he)
      obtain ⟨hlen, hmem⟩ := mem_allTuples.mp hkey
      have hidxe : idx < e.1.length := by rw [hlen]; exact hidxlt
      obtain ⟨tval, htval⟩ : ∃ tt, e.1[idx]? = some tt := by
        rw [List.getElem?_eq_getElem hidxe]
        exact ⟨_, rfl⟩
      unfold lamEntry
      rw [htval]
      simp only [Option.bind_eq_bind, Option.some_bind]
      by_cases htv : tval = value
      · subst htv
        rw [if_neg (by simp : ¬(tval ≠ tval))]
        rw [evidentParents_nil]
        simp only [skipCheck, Option.some_bind, Bool.false_eq_true, if_false]
        have hpm2 := lamParentMul_eval hpi (le_of_eq hlen.symm) hmem hpsome
        simp only [Option.bind_eq_bind] at hpm2
        rw [hpm2]
        simp only [Option.some_bind]
        have hns : optSum (fun x =>
            match lookupKV node.id ([] : List (NodeId × T)) with
            | some e' => if e' ≠ x then pure 0 else lamCore node lambdaMap e.2 x
            | none => lamCore node lambdaMap e.2 x) vs = some 1 :=
          lamNs_eval hlam (hrows e he).1 (hrows e he).2 hcsome
        rw [hns]
        simp only [Option.some_bind]
        rw [mul_one]
        refine congrArg some ?_
        unfold zipProd
        refine congrArg List.prod (List.map_congr_left fun pt hpt => ?_)
        show (if pt.1 = parent then (1 : ℚ) else Fpi piMap node.id pt.1 pt.2) =
          (if pt.1 = parent then (if pt.2 = tval then (1 : ℚ) else 0)
            else Fpi piMap node.id pt.1 pt.2)
        by_cases hp : pt.1 = parent
        · rw [if_pos hp, if_pos hp]
          obtain ⟨jj, hj1, hj2⟩ := mem_zip_getElem hpt
          rw [hp] at hj1
          have hji : jj = idx := nodup_getElem_opt_inj hndps hj1 hidx
          subst hji
          rw [htval] at hj2
          rw [← Option.some.inj hj2, if_pos rfl]
        · rw [if_neg hp, if_neg hp]
      · rw [if_pos htv]
        have hzero : zipProd (fun p v =>
            if p = parent then (if v = value then 1 else 0)
            else Fpi piMap node.id p v) node.parents e.1 = 0 := by
          unfold zipProd
          refine List.prod_eq_zero ?_
          refine List.mem_map.mpr ⟨(parent, tval), ?_, ?_⟩
          · exact mem_of_getElem_opt (zip_getElem_opt hidx htval)
          · simp [htv]
        rw [hzero]
        rfl
    have hsum := optSum_congr hentry
    rw [hq] at hsum
    have hone : (node.probability.map fun e' : List T × List (T × Probability) =>
        zipProd (fun p v => if p = parent then (if v = value then 1 else 0)
          else Fpi piMap node.id p v) node.parents e'.1).sum = 1 := by
      rw [show (node.probability.map fun e' : List T × List (T × Probability) =>
          zipProd (fun p v => if p = parent then (if v = value then 1 else 0)
            else Fpi piMap node.id p v) node.parents e'.1) =
          ((node.probability.map fun e => e.1).map fun t =>
            zipProd (fun p v => if p = parent then (if v = value then 1 else 0)
              else Fpi piMap node.id p v) node.parents t) by
        rw [List.map_map]; rfl]
      rw [(hperm.map fun t =>
        zipProd (fun p v => if p = parent then (if v = value then 1 else 0)
          else Fpi piMap node.id p v) node.parents t).sum_eq]
      rw [sum_allTuples_zipProd]
      refine List.prod_eq_one fun x hx => ?_
      obtain ⟨p, hp, rfl⟩ := List.mem_map.mp hx
      by_cases hpp : p = parent
      · subst hpp
        show (vs.map fun v => if p = p then (if v = value then (1 : ℚ) else 0)
          else Fpi piMap node.id p v).sum = 1
        have hcg : ∀ v ∈ vs, (if p = p then (if v = value then (1 : ℚ) else 0)
            else Fpi piMap node.id p v) = (if v = value then (1 : ℚ) else 0) :=
          fun v _ => if_pos rfl
        rw [List.map_congr_left hcg]
        exact sum_indicator_nodup hnd hvalue
      · show (vs.map fun v => if p = parent then (if v = value then (1 : ℚ) else 0)
          else Fpi piMap node.id p v).sum = 1
        have hcg : ∀ v ∈ vs, (if p = parent then (if v = value then (1 : ℚ) else 0)
            else Fpi piMap node.id p v) = Fpi piMap node.id p v :=
          fun v _ => if_neg hpp
        rw [List.map_congr_left hcg]
        obtain ⟨m', hm'⟩ := Option.isSome_iff_exists.mp (hpsome p hp hpp)
        have hms := (hpi (p, node.id) m' hm').2
        have hco : ∀ v ∈ vs, Fpi piMap node.id p v = (lookupKV v m').getD 0 := by
          intro v _
          unfold Fpi
          rw [hm']
          rfl
        rw [List.map_congr_left hco]
        exact hms
    rw [hone] at hsum
    cases Option.some.inj hsum
    exact hl
  · exact hlam k m htail

theorem foldSt_inv {α : Type} {vs : List T}
    {f : PropState T → α → Option (PropState T)} :
    ∀ {l : List α},
      (∀ st a, a ∈ l → StInv vs st → ∀ st', f st a = some st' → StInv vs st') →
      ∀ {st st' : PropState T}, StInv vs st → foldSt f st l = some st' →
        StInv vs st' := by
  intro l
  induction l with
  | nil =>
      intro _ st st' hinv h
      cases h
      exact hinv
  | cons a l ih =>
      intro hf st st' hinv h
      simp only [foldSt, Option.bind_eq_bind, bind, Option.bind] at h
      cases hfa : f st a with
      | none => rw [hfa] at h; cases h
      | some st1 =>
          rw [hfa] at h
          exact ih (fun s b hb => hf s b (List.mem_cons_of_mem a hb))
            (hf st a (List.mem_cons_self a l) hinv st1 hfa) h

theorem processPiChild_inv {vs : List T} {node : Node T} {child : NodeId}
    {st st' : PropState T}
    (hvne : vs ≠ []) (hwf : NodeWF vs node) (hinv : StInv vs st)
    (h : processPiChild vs node [] st child = some st') : StInv vs st' := by
  unfold processPiChild at h
  by_cases hc : containsKV (node.id, child) st.piMap = true
  · rw [if_pos hc] at h
    cases h
    exact hinv
  · rw [if_neg hc] at h
    simp only [Option.bind_eq_bind, Option.pure_def] at h
    rcases Option.bind_eq_some.mp h with ⟨pm, hpm, hst⟩
    cases hst
    exact ⟨passPi_preserves hvne hwf hinv.1 hinv.2 hpm, hinv.2⟩

theorem processLamParent_inv {vs : List T} {node : Node T} {ip : Nat × NodeId}
    {st st' : PropState T}
    (hvne : vs ≠ []) (hnd : vs.Nodup)
    (hndps : node.parents.Nodup)
    (hperm : (node.probability.map fun e => e.1).Perm
      (allTuples vs node.parents.length))
    (hrows : ∀ e ∈ node.probability, (∀ x ∈ vs, (lookupKV x e.2).isSome = true) ∧
      (vs.map fun x => (lookupKV x e.2).getD 0).sum = 1)
    (hidx : node.parents[ip.1]? = some ip.2)
    (hinv : StInv vs st)
    (h : processLamParent vs node [] st ip = some st') : StInv vs st' := by
  unfold processLamParent at h
  by_cases hc : containsKV (node.id, ip.2) st.lambdaMap = true
  · rw [if_pos hc] at h
    cases h
    exact hinv
  · rw [if_neg hc] at h
    simp only [Option.bind_eq_bind, Option.pure_def] at h
    rcases Option.bind_eq_some.mp h with ⟨lm, hlm, hst⟩
    cases hst
    exact ⟨hinv.1,
      passLambda_preserves hvne hnd hndps hperm hrows hinv.1 hinv.2 hidx hlm⟩

theorem phasePi_inv {vs : List T} {node : Node T} {st : PropState T}
    {sc : PropState T × Bool}
    (hvne : vs ≠ []) (hwf : NodeWF vs node) (hinv : StInv vs st)
    (h : phasePi vs node [] st = some sc) : StInv vs sc.1 := by
  unfold phasePi at h
  by_cases hall : (node.parents.all fun p => containsKV (p, node.id) st.piMap) = true
  · rw [if_pos hall] at h
    have h' : (if (node.children.filter fun c =>
          containsKV (c, node.id) st.lambdaMap).length + 2 ≤ node.children.length
        then some (st, false)
        else if (node.children.filter fun c =>
            containsKV (c, node.id) st.lambdaMap).length + 1 = node.children.length
        then (foldSt (fun s c =>
            if containsKV (c, node.id) s.lambdaMap = true then some s
            else processPiChild vs node [] s c) st node.children).map
          (fun s => (s, true))
        else (foldSt (processPiChild vs node []) st node.children).map
          fun s => (s, true)) = some sc := h
    by_cases h2 : (node.children.filter fun c =>
        containsKV (c, node.id) st.lambdaMap).length + 2 ≤ node.children.length
    · rw [if_pos h2] at h'
      cases h'
      exact hinv
    · rw [if_neg h2] at h'
      by_cases h3 : (node.children.filter fun c =>
          containsKV (c, node.id) st.lambdaMap).length + 1 = node.children.length
      · rw [if_pos h3] at h'
        rcases Option.map_eq_some'.mp h' with ⟨st1, hst1, hsc⟩
        cases hsc
        refine foldSt_inv (fun s c hc hins s' hs' => ?_) hinv hst1
        by_cases hg : containsKV (c, node.id) s.lambdaMap = true
        · rw [if_pos hg] at hs'
          cases hs'
          exact hins
        · rw [if_neg hg] at hs'
          exact processPiChild_inv hvne hwf hins hs'
      · rw [if_neg h3] at h'
        rcases Option.map_eq_some'.mp h' with ⟨st1, hst1, hsc⟩
        cases hsc
        exact foldSt_inv (fun s c hc hins s' hs' =>
          processPiChild_inv hvne hwf hins hs') hinv hst1
  · rw [if_neg hall] at h
    cases h
    exact hinv

theorem phaseLam_inv {vs : List T} {node : Node T} {st st' : PropState T}
    (hvne : vs ≠ []) (hnd : vs.Nodup) (hwf : NodeWF vs node) (hinv : StInv vs st)
    (h : phaseLam vs node [] st = some st') : StInv vs st' := by
  have hstep : node.parents.Nodup →
      ((node.probability.map fun e => e.1).Perm
        (allTuples vs node.parents.length)) →
      (∀ e ∈ node.probability, (∀ x ∈ vs, (lookupKV x e.2).isSome = true) ∧
        (vs.map fun x => (lookupKV x e.2).getD 0).sum = 1) →
      StInv vs st' := by
    intro hndps hperm hrows
    unfold phaseLam at h
    by_cases hall : (node.children.all fun c =>
        containsKV (c, node.id) st.lambdaMap) = true
    · rw [if_pos hall] at h
      have h' : (if (node.parents.filter fun p =>
            containsKV (p, node.id) st.piMap).length + 2 ≤ node.parents.length
          then some st
          else if (node.parents.filter fun p =>
              containsKV (p, node.id) st.piMap).length + 1 = node.parents.length
          then foldSt (fun s ip =>
              if containsKV (ip.2, node.id) s.piMap = true then some s
              else processLamParent vs node [] s ip) st node.parents.enum
          else foldSt (processLamParent vs node []) st node.parents.enum) =
          some st' := h
      by_cases h2 : (node.parents.filter fun p =>
          containsKV (p, node.id) st.piMap).length + 2 ≤ node.parents.length
      · rw [if_pos h2] at h'
        cases h'
        exact hinv
      · rw [if_neg h2] at h'
        by_cases h3 : (node.parents.filter fun p =>
            containsKV (p, node.id) st.piMap).length + 1 = node.parents.length
        · rw [if_pos h3] at h'
          refine foldSt_inv (fun s ip hip hins s' hs' => ?_) hinv h'
          by_cases hg : containsKV (ip.2, node.id) s.piMap = true
          · rw [if_pos hg] at hs'
            cases hs'
            exact hins
          · rw [if_neg hg] at hs'
            exact processLamParent_inv hvne hnd hndps hperm hrows
              (mem_enum_getElem hip) hins hs'
        · rw [if_neg h3] at h'
          exact foldSt_inv (fun s ip hip hins s' hs' =>
            processLamParent_inv hvne hnd hndps hperm hrows
              (mem_enum_getElem hip) hins hs') hinv h'
    · rw [if_neg hall] at h
      cases h
      exact hinv
  cases hnt : node.node_type with
  | Root pm =>
      have hwf' := hwf
      simp only [NodeWF, hnt] at hwf'
      obtain ⟨hpar, -, -⟩ := hwf'
      unfold phaseLam at h
      rw [hpar] at h
      simp [foldSt] at h
      subst h
      exact hinv
  | Leaf =>
      have hwf' := hwf
      simp only [NodeWF, hnt] at hwf'
      exact hstep hwf'.1 hwf'.2.1 hwf'.2.2
  | Intermediate =>
      have hwf' := hwf
      simp only [NodeWF, hnt] at hwf'
      exact hstep hwf'.1 hwf'.2.1 hwf'.2.2

theorem processNode_inv {vs : List T} {node : Node T} {st st' : PropState T}
    (hvne : vs ≠ []) (hnd : vs.Nodup) (hwf : NodeWF vs node) (hinv : StInv vs st)
    (h : processNode vs [] st node = some st') : StInv vs st' := by
  unfold processNode at h
  simp only [Option.bind_eq_bind, Option.pure_def] at h
  rcases Option.bind_eq_some.mp h with ⟨sc, hsc, h2⟩
  have hinv1 := phasePi_inv hvne hwf hinv hsc
  have h2' : (if sc.2 = true then phaseLam vs node [] sc.1 else some sc.1) =
      some st' := h2
  by_cases hb : sc.2 = true
  · rw [if_pos hb] at h2'
    exact phaseLam_inv hvne hnd hwf hinv1 h2'
  · rw [if_neg hb] at h2'
    cases h2'
    exact hinv1

theorem sweep_inv {vs : List T} {nodes : List (Node T)} {st st' : PropState T}
    (hvne : vs ≠ []) (hnd : vs.Nodup) (hwf : ∀ n ∈ nodes, NodeWF vs n)
    (hinv : StInv vs st)
    (h : sweep vs nodes [] st = some st') : StInv vs st' := by
  unfold sweep at h
  exact foldSt_inv (fun s n hn hins s' hs' =>
    processNode_inv hvne hnd (hwf n hn) hins hs') hinv h

theorem loop_inv {vs : List T} {nodes : List (Node T)}
    (hvne : vs ≠ []) (hnd : vs.Nodup) (hwf : ∀ n ∈ nodes, NodeWF vs n) :
    ∀ (fuel : Nat) {st st' : PropState T}, StInv vs st →
      loop vs nodes [] fuel st = some st' → StInv vs st' := by
  intro fuel
  induction fuel with
  | zero => intro st st' _ h; cases h
  | succ fuel ih =>
      intro st st' hinv h
      simp only [loop, Option.bind_eq_bind] at h
      rcases Option.bind_eq_some.mp h with ⟨st1, hst1, h2⟩
      have hinv1 := sweep_inv hvne hnd hwf hinv hst1
      have h2' : (if st1.upd = true
          then loop vs nodes [] fuel { st1 with upd := false }
          else pure st1) = some st' := h2
      by_cases hb : st1.upd = true
      · rw [if_pos hb] at h2'
        refine ih ?_ h2'
        exact ⟨hinv1.1, hinv1.2⟩
      · rw [if_neg hb] at h2'
        cases h2'
        exact hinv1

/-- **C5 (amended)**.  For a well-formed network (nonempty duplicate-free value
space; roots parentless with priors covering the value space and summing to
`1`; non-roots with duplicate-free parents, complete CPT key sets and rows
summing to `1`) and EMPTY evidence, `infer` returns for every Root node
exactly the configured prior.  The normalization hypothesis is necessary: the
code normalizes beliefs, so an unnormalized prior is returned rescaled (see
the counterexample). -/
theorem infer_root_prior_empty_evidence (net : BayesianNetwork T)
    (res : List (List (T × Probability))) (j : Nat) (node : Node T)
    (probMap : List (T × Probability))
    (hwf : NetWF net) (hres : infer net [] = some res)
    (hnode : net.nodes[j]? = some node)
    (hroot : node.node_type = NodeType.Root probMap) :
    ∃ m, res[j]? = some m ∧
      ∀ v ∈ net.value_space, lookupKV v m = lookupKV v probMap := by
  obtain ⟨hvne, hnd, hnwf⟩ := hwf
  unfold infer at hres
  have hev : evidenceIds net ([] : List (Name × T)) = some [] := rfl
  rw [hev] at hres
  simp only [Option.bind_eq_bind, Option.some_bind] at hres
  cases hst : loop net.value_space net.nodes [] (fuelOf net) ⟨[], [], false⟩ with
  | none => rw [hst] at hres; cases hres
  | some st =>
      rw [hst] at hres
      simp only [Option.some_bind] at hres
      have hinv : StInv net.value_space st :=
        loop_inv hvne hnd hnwf (fuelOf net)
          ⟨fun k m hk => (by cases hk), fun k m hk => (by cases hk)⟩ hst
      obtain ⟨m, hm, hnodem⟩ := optMapIdx hres hnode
      cases hprobs : nodeProbs net.value_space node [] st.piMap st.lambdaMap with
      | none => rw [hprobs] at hnodem; cases hnodem
      | some probs =>
          rw [hprobs] at hnodem
          simp only [Option.bind_eq_bind, Option.some_bind] at hnodem
          have hwfn := hnwf node (mem_of_getElem_opt hnode)
          simp only [NodeWF, hroot] at hwfn
          obtain ⟨hpar, hpriS, hpri1⟩ := hwfn
          have hcsome : ∀ c ∈ node.children,
              (lookupKV (c, node.id) st.lambdaMap).isSome = true := by
            intro c hc
            unfold nodeProbs at hprobs
            obtain ⟨v₀, hv₀⟩ := List.exists_mem_of_ne_nil net.value_space hvne
            obtain ⟨q0, hq0⟩ := optMap_mem hprobs hv₀
            simp only [Option.bind_eq_bind, Option.pure_def] at hq0
            rcases Option.bind_eq_some.mp hq0 with ⟨lam0, hlam0, -⟩
            have hb := optProd_mem_some hlam0 c hc
            cases hcl : lookupKV (c, node.id) st.lambdaMap with
            | none => rw [hcl] at hb; simp at hb
            | some mm => rfl
          have hfv : ∀ v ∈ net.value_space, (do
              let lam ← optProd (fun c => do
                  let mm ← lookupKV (c, node.id) st.lambdaMap
                  lookupKV v mm) node.children
              let pi ← piSumValue node ([] : List (NodeId × T)) st.piMap v
              pure (lam * pi) : Option ℚ) =
              some ((fun w => (lookupKV w probMap).getD 0) v) := by
            intro v hv
            rw [optProd_lambda_ones hinv.2 hv hcsome]
            simp only [Option.bind_eq_bind, Option.some_bind]
            have hpsv : piSumValue node ([] : List (NodeId × T)) st.piMap v =
                some ((lookupKV v probMap).getD 0) := by
              unfold piSumValue
              simp only [lookupKV, hroot]
              exact eq_some_getD (hpriS v hv) 0
            rw [hpsv]
            simp [one_mul]
          have hprobs2 : nodeProbs net.value_space node [] st.piMap st.lambdaMap =
              some (net.value_space.map fun w => (lookupKV w probMap).getD 0) := by
            unfold nodeProbs
            exact optMap_eq_map hfv
          have hpe : probs = net.value_space.map fun w =>
              (lookupKV w probMap).getD 0 :=
            Option.some.inj (hprobs.symm.trans hprobs2)
          have hsum : probs.sum = 1 := by
            rw [hpe]
            exact hpri1
          have hm2 : normalizeMap net.value_space probs =
              some (net.value_space.map fun w =>
                (w, (lookupKV w probMap).getD 0)) := by
            unfold normalizeMap
            have hiv : ∀ iv ∈ net.value_space.enum,
                ((probs[iv.1]?).map fun q => (iv.2, q / probs.sum)) =
                some ((fun w => (w, (lookupKV w probMap).getD 0)) iv.2) := by
              intro iv hiven
              have hvg : net.value_space[iv.1]? = some iv.2 :=
                mem_enum_getElem hiven
              have hpq : probs[iv.1]? = some ((lookupKV iv.2 probMap).getD 0) := by
                rw [hpe, List.getElem?_map, hvg]
                rfl
              rw [hpq, hsum]
              simp [div_one]
            rw [optMap_eq_map hiv]
            refine congrArg some ?_
            conv_rhs => rw [← List.enum_map_snd net.value_space]
            rw [List.map_map]
            rfl
          rw [hnodem] at hm2
          have hmeq := Option.some.inj hm2
          refine ⟨m, hm, fun v hv => ?_⟩
          rw [hmeq, lookup_map_self hv]
          exact (eq_some_getD (hpriS v hv) 0).symm

/-- **C5 (amended) witness**: the singleton root network `netA` (prior one
half / one half) under empty evidence gets back exactly its configured
prior. -/
theorem infer_root_prior_empty_evidence_witness :
    ∃ m, ([[((0 : Nat), (1 : ℚ)/2), (1, 1/2)]] :
        List (List (Nat × Probability)))[0]? = some m ∧
      ∀ v ∈ netA.value_space,
        lookupKV v m = lookupKV v [((0 : Nat), (1 : ℚ)/2), (1, 1/2)] := by
  refine infer_root_prior_empty_evidence netA _ 0
      ⟨0, [], [], [], NodeType.Root [(0, 1/2), (1, 1/2)]⟩ [(0, 1/2), (1, 1/2)]
      ⟨by with_unfolding_all decide, by with_unfolding_all decide, ?_⟩
      (by with_unfolding_all decide) (by with_unfolding_all decide) rfl
  intro n hn
  have hns : netA.nodes = [⟨0, [], [], [], NodeType.Root [(0, 1/2), (1, 1/2)]⟩] := by
    with_unfolding_all decide
  rw [hns] at hn
  rcases List.mem_singleton.mp hn with rfl
  exact ⟨rfl, by with_unfolding_all decide, by with_unfolding_all decide⟩

/-- **C5 counterexample**.  `netC5`'s root was configured (warned about, but
stored as given) with the unnormalized prior `[(0, 1), (1, 1)]`; under empty
evidence `infer` returns the normalized distribution `1/2, 1/2` for it, not
the configured prior, refuting "`infer` returns exactly the configured prior"
as stated.  The prior assigns `1` to value `0`, the returned posterior `1/2`. -/
theorem infer_root_prior_counterexample :
    infer netC5 [] = some [[(0, 1/2), (1, 1/2)]] ∧
      netC5.nodes.map (fun n => n.node_type) = [NodeType.Root [(0, 1), (1, 1)]] ∧
      lookupKV (0 : Nat) [((0 : Nat), (1 : ℚ)), (1, 1)] = some 1 ∧
      ((1 : ℚ)/2) ≠ 1 := by
  refine ⟨?_, ?_, ?_, ?_⟩ <;> with_unfolding_all decide

/-! ### C3: list and key-store utilities -/

theorem containsKV_cons_of {K V : Type} [DecidableEq K] {k k' : K} {v : V}
    {m : List (K × V)} (h : containsKV k m = true) :
    containsKV k ((k', v) :: m) = true := by
  unfold containsKV at h ⊢
  by_cases he : k' = k
  · simp [lookupKV, he]
  · simpa [lookupKV, he] using h

theorem containsKV_cons_self {K V : Type} [DecidableEq K] {k : K} {v : V}
    {m : List (K × V)} : containsKV k ((k, v) :: m) = true := by
  simp [containsKV, lookupKV]

theorem lookup_none_iff {K V : Type} [DecidableEq K] {k : K} :
    ∀ {m : List (K × V)}, lookupKV k m = none ↔ k ∉ m.map Prod.fst := by
  intro m
  induction m with
  | nil => simp [lookupKV]
  | cons kv rest ih =>
      by_cases he : kv.1 = k
      · simp [lookupKV, he]
      · simp only [lookupKV, if_neg he, ih, List.map_cons, List.mem_cons]
        constructor
        · intro h hk
          rcases hk with hk | hk
          · exact he hk.symm
          · exact h hk
        · intro h hk
          exact h (Or.inr hk)

theorem nodup_subset_length_le {α : Type} [DecidableEq α] {l s : List α}
    (hnd : l.Nodup) (hsub : ∀ x ∈ l, x ∈ s) : l.length ≤ s.length := by
  have h1 : l.length = l.toFinset.card := (List.toFinset_card_of_nodup hnd).symm
  have h2 : l.toFinset ⊆ s.toFinset := by
    intro x hx
    exact List.mem_toFinset.mpr (hsub x (List.mem_toFinset.mp hx))
  calc l.length = l.toFinset.card := h1
    _ ≤ s.toFinset.card := Finset.card_le_card h2
    _ ≤ s.length := List.toFinset_card_le s

theorem piEdges_mem {net : BayesianNetwork T} {n : Node T} {c : NodeId}
    (hn : n ∈ net.nodes) (hc : c ∈ n.children) : (n.id, c) ∈ piEdges net := by
  unfold piEdges
  revert hn
  generalize net.nodes = l
  intro hn
  induction l with
  | nil => cases hn
  | cons x l ih =>
      simp only [List.foldr_cons, List.mem_append]
      rcases List.mem_cons.mp hn with rfl | hn'
      · exact Or.inl (List.mem_map_of_mem _ hc)
      · exact Or.inr (ih hn')

theorem lamEdges_mem {net : BayesianNetwork T} {n : Node T} {p : NodeId}
    (hn : n ∈ net.nodes) (hp : p ∈ n.parents) : (n.id, p) ∈ lamEdges net := by
  unfold lamEdges
  revert hn
  generalize net.nodes = l
  intro hn
  induction l with
  | nil => cases hn
  | cons x l ih =>
      simp only [List.foldr_cons, List.mem_append]
      rcases List.mem_cons.mp hn with rfl | hn'
      · exact Or.inl (List.mem_map_of_mem _ hp)
      · exact Or.inr (ih hn')

theorem edges_length_fuel (net : BayesianNetwork T) :
    (piEdges net).length + (lamEdges net).length + 1 = fuelOf net := by
  unfold piEdges lamEdges fuelOf
  induction net.nodes with
  | nil => rfl
  | cons x l ih =>
      simp only [List.foldr_cons, List.length_append, List.length_map,
        List.map_cons, List.sum_cons] at ih ⊢
      omega

theorem filter_all_of_length_eq {α : Type} {P : α → Bool} :
    ∀ {l : List α}, (l.filter P).length = l.length → ∀ a ∈ l, P a = true := by
  intro l
  induction l with
  | nil => intro _ a ha; cases ha
  | cons x l ih =>
      intro h a ha
      cases hx : P x with
      | false =>
          rw [List.filter_cons, if_neg (by simp [hx]), List.length_cons] at h
          have := List.length_filter_le P l
          omega
      | true =>
          rw [List.filter_cons, if_pos (by simp [hx]), List.length_cons,
            List.length_cons] at h
          rcases List.mem_cons.mp ha with rfl | ha'
          · exact hx
          · exact ih (by omega) a ha'

theorem exists_false_of_filter_length_lt {α : Type} {P : α → Bool} {l : List α}
    (h : (l.filter P).length < l.length) : ∃ a ∈ l, P a = false := by
  by_contra hno
  push_neg at hno
  have hall : ∀ a ∈ l, P a = true := by
    intro a ha
    cases hpa : P a with
    | false => exact absurd hpa (hno a ha)
    | true => rfl
  rw [List.filter_eq_self.mpr hall] at h
  omega

theorem almost_all_filter_length {α : Type} {P : α → Bool} {v : α} :
    ∀ {l : List α}, l.Nodup → (∀ a ∈ l, a ≠ v → P a = true) →
      l.length ≤ (l.filter P).length + 1 := by
  intro l
  induction l with
  | nil => intro _ _; simp
  | cons x l ih =>
      intro hnd hP
      by_cases hxv : x = v
      · subst hxv
        have hall : ∀ a ∈ l, P a = true := by
          intro a ha
          refine hP a (List.mem_cons_of_mem x ha) ?_
          intro he
          exact (List.nodup_cons.mp hnd).1 (he ▸ ha)
        rw [List.filter_cons]
        by_cases hPx : P x = true
        · rw [if_pos (by simp [hPx]), List.filter_eq_self.mpr hall]
          simp
        · rw [if_neg hPx, List.filter_eq_self.mpr hall]
          simp
      · have hPx : P x = true := hP x (List.mem_cons_self x l) hxv
        rw [List.filter_cons, if_pos (by simp [hPx]), List.length_cons,
          List.length_cons]
        have := ih (List.nodup_cons.mp hnd).2
          (fun a ha hav => hP a (List.mem_cons_of_mem x ha) hav)
        omega

theorem filter_pred_of_one_missing {α : Type} {P : α → Bool} {c : α} :
    ∀ {l : List α}, l.Nodup → c ∈ l → P c = false →
      (l.filter P).length + 1 = l.length → ∀ a ∈ l, a ≠ c → P a = true := by
  intro l
  induction l with
  | nil => intro _ hc; cases hc
  | cons x l ih =>
      intro hnd hc hcP hlen a ha hac
      rcases List.mem_cons.mp hc with rfl | hc'
      · rw [List.filter_cons, if_neg (by simp [hcP]), List.length_cons] at hlen
        have hall := filter_all_of_length_eq (P := P) (l := l) (by omega)
        rcases List.mem_cons.mp ha with rfl | ha'
        · exact absurd rfl hac
        · exact hall a ha'
      · have hxc : x ≠ c := by
          intro he
          exact (List.nodup_cons.mp hnd).1 (he ▸ hc')
        cases hPx : P x with
        | true =>
            rw [List.filter_cons, if_pos (by simp [hPx]), List.length_cons,
              List.length_cons] at hlen
            rcases List.mem_cons.mp ha with rfl | ha'
            · exact hPx
            · exact ih (List.nodup_cons.mp hnd).2 hc' hcP (by omega) a ha' hac
        | false =>
            rw [List.filter_cons, if_neg (by simp [hPx]), List.length_cons] at hlen
            have hall := filter_all_of_length_eq (P := P) (l := l) (by omega)
            exact absurd (hall c hc') (by simp [hcP])

/-! ### C3: acyclicity tools -/

theorem acyclic_of_card_lt {V : Type} [Fintype V] {G : SimpleGraph V}
    (h : Fintype.card V < 3) : G.IsAcyclic := by
  intro v c hc
  have h3 := hc.three_le_length
  have hnd := hc.support_nodup
  have hlen : c.support.tail.length = c.length := by
    have := SimpleGraph.Walk.length_support c
    cases hsup : c.support with
    | nil => exact absurd hsup c.support_ne_nil
    | cons a l =>
        rw [hsup] at this
        simp only [List.length_cons] at this
        simp only [List.tail_cons]
        omega
  have hcard := hnd.length_le_card
  omega

theorem acyclic_no_descent {V : Type} [Fintype V] [DecidableEq V]
    {G : SimpleGraph V} (hG : G.IsAcyclic) (M : V → V → Prop)
    (hadj : ∀ x y, M x y → G.Adj x y)
    (hstep : ∀ x y, M x y → ∃ z, M z x ∧ z ≠ y) :
    ∀ x y, ¬ M x y := by
  intro x₀ y₀ hM₀
  have hS : ∀ k : ℕ, ∃ (a b c : V), ∃ p : G.Walk b c,
      M a b ∧ p.IsPath ∧ a ∉ p.support ∧ p.length = k := by
    intro k
    induction k with
    | zero =>
        refine ⟨x₀, y₀, y₀, SimpleGraph.Walk.nil, hM₀,
          SimpleGraph.Walk.IsPath.nil, ?_, rfl⟩
        simp only [SimpleGraph.Walk.support_nil, List.mem_singleton]
        exact (hadj x₀ y₀ hM₀).ne
    | succ k ih =>
        obtain ⟨a, b, c, p, hM, hp, ha, hlen⟩ := ih
        obtain ⟨z, hMz, hzb⟩ := hstep a b hM
        have hab : G.Adj a b := hadj a b hM
        have hza : G.Adj z a := hadj z a hMz
        have hp' : (SimpleGraph.Walk.cons hab p).IsPath :=
          (SimpleGraph.Walk.cons_isPath_iff hab p).mpr ⟨hp, ha⟩
        have hz : z ∉ (SimpleGraph.Walk.cons hab p).support := by
          rw [SimpleGraph.Walk.support_cons]
          intro hmem
          rcases List.mem_cons.mp hmem with rfl | hzp
          · exact hza.ne rfl
          · have hq : (p.takeUntil z hzp).IsPath := hp.takeUntil hzp
            have haq : a ∉ (p.takeUntil z hzp).support :=
              fun hmem' => ha (SimpleGraph.Walk.support_takeUntil_subset p hzp hmem')
            have hp2 : (SimpleGraph.Walk.cons hab (p.takeUntil z hzp)).IsPath :=
              (SimpleGraph.Walk.cons_isPath_iff hab (p.takeUntil z hzp)).mpr ⟨hq, haq⟩
            have hedge : ¬ s(z, a) ∈ (SimpleGraph.Walk.cons hab (p.takeUntil z hzp)).edges := by
              rw [SimpleGraph.Walk.edges_cons]
              intro hmem'
              rcases List.mem_cons.mp hmem' with heq | hmem''
              · rcases Sym2.eq_iff.mp heq with ⟨h1, h2⟩ | ⟨h1, h2⟩
                · exact hab.ne h2
                · exact hzb h1
              · exact haq (SimpleGraph.Walk.snd_mem_support_of_mem_edges _ hmem'')
            have hcyc : (SimpleGraph.Walk.cons hza
                (SimpleGraph.Walk.cons hab (p.takeUntil z hzp))).IsCycle :=
              (SimpleGraph.Walk.cons_isCycle_iff
                (SimpleGraph.Walk.cons hab (p.takeUntil z hzp)) hza).mpr ⟨hp2, hedge⟩
            exact hG _ hcyc
        exact ⟨z, a, c, SimpleGraph.Walk.cons hab p, hMz, hp', hz, by
          rw [SimpleGraph.Walk.length_cons, hlen]⟩
  obtain ⟨a, b, c, p, -, hp, -, hlen⟩ := hS (Fintype.card V)
  have := hp.length_lt
  omega

/-! ### C3: success of the message computations -/

theorem optProd_isSome {α : Type} {f : α → Option ℚ} :
    ∀ {l : List α}, (∀ a ∈ l, (f a).isSome = true) →
      (optProd f l).isSome = true := by
  intro l
  induction l with
  | nil => intro _; rfl
  | cons a l ih =>
      intro h
      obtain ⟨x, hx⟩ := Option.isSome_iff_exists.mp (h a (List.mem_cons_self a l))
      obtain ⟨r, hr⟩ := Option.isSome_iff_exists.mp
        (ih fun b hb => h b (List.mem_cons_of_mem a hb))
      simp only [optProd, Option.bind_eq_bind, hx, hr, Option.some_bind]
      rfl

theorem optSum_isSome {α : Type} {f : α → Option ℚ} :
    ∀ {l : List α}, (∀ a ∈ l, (f a).isSome = true) →
      (optSum f l).isSome = true := by
  intro l
  induction l with
  | nil => intro _; rfl
  | cons a l ih =>
      intro h
      obtain ⟨x, hx⟩ := Option.isSome_iff_exists.mp (h a (List.mem_cons_self a l))
      obtain ⟨r, hr⟩ := Option.isSome_iff_exists.mp
        (ih fun b hb => h b (List.mem_cons_of_mem a hb))
      simp only [optSum, Option.bind_eq_bind, hx, hr, Option.some_bind]
      rfl

theorem optMap_isSome {α β : Type} {f : α → Option β} :
    ∀ {l : List α}, (∀ a ∈ l, (f a).isSome = true) →
      (optMap f l).isSome = true := by
  intro l
  induction l with
  | nil => intro _; rfl
  | cons a l ih =>
      intro h
      obtain ⟨x, hx⟩ := Option.isSome_iff_exists.mp (h a (List.mem_cons_self a l))
      obtain ⟨r, hr⟩ := Option.isSome_iff_exists.mp
        (ih fun b hb => h b (List.mem_cons_of_mem a hb))
      simp only [optMap, Option.bind_eq_bind, hx, hr, Option.some_bind]
      rfl

theorem piSumValue_isSome {vs : List T} {node : Node T}
    {evidence : List (NodeId × T)} {piMap : MsgMap T} {v : T} (hv : v ∈ vs)
    (hroot : rootCovered vs node = true)
    (hcpt : ∀ e ∈ node.probability, e.1.length = node.parents.length ∧
      (∀ x ∈ e.1, x ∈ vs) ∧ ∀ x ∈ vs, (lookupKV x e.2).isSome = true)
    (hpar : ∀ p ∈ node.parents, ∃ m, lookupKV (p, node.id) piMap = some m ∧
      ∀ x ∈ vs, (lookupKV x m).isSome = true) :
    (piSumValue node evidence piMap v).isSome = true := by
  unfold piSumValue
  cases hev : lookupKV node.id evidence with
  | some ev => rfl
  | none =>
      cases hnt : node.node_type with
      | Root pm =>
          simp only [rootCovered, hnt, List.all_eq_true] at hroot
          exact hroot v hv
      | Leaf =>
          refine optSum_isSome fun e he => ?_
          obtain ⟨harity, hkeys, hrows⟩ := hcpt e he
          rw [skipCheck_eval harity]
          simp only [Option.bind_eq_bind, Option.some_bind]
          by_cases hskip : (! tupleConsistent evidence node.parents e.1 none) = true
          · rw [if_pos hskip]; rfl
          · rw [if_neg hskip]
            have hpm : (piParentMul piMap node.id node.parents e.1).isSome = true := by
              unfold piParentMul
              refine optProd_isSome fun ip hip => ?_
              obtain ⟨m, hm, hmt⟩ := hpar ip.2 (mem_of_getElem_opt (mem_enum_getElem hip))
              rw [hm]
              simp only [Option.bind_eq_bind, Option.some_bind]
              have hlt : ip.1 < node.parents.length :=
                getElem_some_lt (mem_enum_getElem hip)
              have hlt2 : ip.1 < e.1.length := by rw [harity]; exact hlt
              obtain ⟨tv, htv⟩ : ∃ t, e.1[ip.1]? = some t := by
                rw [List.getElem?_eq_getElem hlt2]; exact ⟨_, rfl⟩
              rw [htv]
              simp only [Option.some_bind]
              exact hmt tv (hkeys tv (mem_of_getElem_opt htv))
            obtain ⟨pmv, hpmv⟩ := Option.isSome_iff_exists.mp hpm
            rw [hpmv]
            simp only [Option.some_bind]
            obtain ⟨pv, hpv⟩ := Option.isSome_iff_exists.mp (hrows v hv)
            rw [hpv]
            simp only [Option.some_bind]
            rfl
      | Intermediate =>
          refine optSum_isSome fun e he => ?_
          obtain ⟨harity, hkeys, hrows⟩ := hcpt e he
          rw [skipCheck_eval harity]
          simp only [Option.bind_eq_bind, Option.some_bind]
          by_cases hskip : (! tupleConsistent evidence node.parents e.1 none) = true
          · rw [if_pos hskip]; rfl
          · rw [if_neg hskip]
            have hpm : (piParentMul piMap node.id node.parents e.1).isSome = true := by
              unfold piParentMul
              refine optProd_isSome fun ip hip => ?_
              obtain ⟨m, hm, hmt⟩ := hpar ip.2 (mem_of_getElem_opt (mem_enum_getElem hip))
              rw [hm]
              simp only [Option.bind_eq_bind, Option.some_bind]
              have hlt : ip.1 < node.parents.length :=
                getElem_some_lt (mem_enum_getElem hip)
              have hlt2 : ip.1 < e.1.length := by rw [harity]; exact hlt
              obtain ⟨tv, htv⟩ : ∃ t, e.1[ip.1]? = some t := by
                rw [List.getElem?_eq_getElem hlt2]; exact ⟨_, rfl⟩
              rw [htv]
              simp only [Option.some_bind]
              exact hmt tv (hkeys tv (mem_of_getElem_opt htv))
            obtain ⟨pmv, hpmv⟩ := Option.isSome_iff_exists.mp hpm
            rw [hpmv]
            simp only [Option.some_bind]
            obtain ⟨pv, hpv⟩ := Option.isSome_iff_exists.mp (hrows v hv)
            rw [hpv]
            simp only [Option.some_bind]
            rfl

theorem passPi_isSome {vs : List T} {node : Node T} {child : NodeId}
    {evidence : List (NodeId × T)} {lambdaMap piMap : MsgMap T}
    (hroot : rootCovered vs node = true)
    (hcpt : ∀ e ∈ node.probability, e.1.length = node.parents.length ∧
      (∀ x ∈ e.1, x ∈ vs) ∧ ∀ x ∈ vs, (lookupKV x e.2).isSome = true)
    (hpar : ∀ p ∈ node.parents, ∃ m, lookupKV (p, node.id) piMap = some m ∧
      ∀ x ∈ vs, (lookupKV x m).isSome = true)
    (hch : ∀ oc ∈ node.children, oc ≠ child →
      ∃ m, lookupKV (oc, node.id) lambdaMap = some m ∧
        ∀ x ∈ vs, (lookupKV x m).isSome = true) :
    (passPi vs node child evidence lambdaMap piMap).isSome = true := by
  unfold passPi
  have hmsg : (msgOfFn vs fun value => do
      let lam ← optProd (fun oc => do
            let m ← lookupKV (oc, node.id) lambdaMap
            lookupKV value m)
          (node.children.filter fun oc => oc ≠ child)
      let s ← piSumValue node evidence piMap value
      pure (lam * s)).isSome = true := by
    unfold msgOfFn
    refine optMap_isSome fun v hv => ?_
    have hlam : (optProd (fun oc => do
        let m ← lookupKV (oc, node.id) lambdaMap
        lookupKV v m) (node.children.filter fun oc => oc ≠ child)).isSome = true := by
      refine optProd_isSome fun oc hoc => ?_
      obtain ⟨hocm, hocne⟩ := List.mem_filter.mp hoc
      obtain ⟨m, hm, hmt⟩ := hch oc hocm (by simpa using hocne)
      rw [hm]
      simp only [Option.bind_eq_bind, Option.some_bind]
      exact hmt v hv
    obtain ⟨lam, hlamv⟩ := Option.isSome_iff_exists.mp hlam
    obtain ⟨sv, hsv⟩ := Option.isSome_iff_exists.mp
      (piSumValue_isSome hv hroot hcpt hpar)
    simp only [Option.bind_eq_bind] at hlamv
    simp only [Option.bind_eq_bind, Option.pure_def, hlamv, Option.some_bind]
    rw [hsv]
    simp only [Option.some_bind]
    rfl
  obtain ⟨msg, hmsgv⟩ := Option.isSome_iff_exists.mp hmsg
  rw [hmsgv]
  rfl

theorem passLambda_isSome {vs : List T} {node : Node T} {parent : NodeId}
    {parentIndex : Nat} {evidence : List (NodeId × T)} {piMap lambdaMap : MsgMap T}
    (hidx : node.parents[parentIndex]? = some parent)
    (hcpt : ∀ e ∈ node.probability, e.1.length = node.parents.length ∧
      (∀ x ∈ e.1, x ∈ vs) ∧ ∀ x ∈ vs, (lookupKV x e.2).isSome = true)
    (hpar : ∀ p ∈ node.parents, p ≠ parent →
      ∃ m, lookupKV (p, node.id) piMap = some m ∧
        ∀ x ∈ vs, (lookupKV x m).isSome = true)
    (hch : ∀ c ∈ node.children, ∃ m, lookupKV (c, node.id) lambdaMap = some m ∧
      ∀ x ∈ vs, (lookupKV x m).isSome = true) :
    (passLambda vs node parent parentIndex evidence piMap lambdaMap).isSome = true := by
  have hidxlt : parentIndex < node.parents.length := getElem_some_lt hidx
  unfold passLambda
  have hmsg : (msgOfFn vs fun value =>
      optSum (lamEntry vs evidence node parent parentIndex piMap lambdaMap value)
        node.probability).isSome = true := by
    unfold msgOfFn
    refine optMap_isSome fun v hv => ?_
    have hentry : (optSum (lamEntry vs evidence node parent parentIndex piMap
        lambdaMap v) node.probability).isSome = true := by
      refine optSum_isSome fun e he => ?_
      obtain ⟨harity, hkeys, hrows⟩ := hcpt e he
      unfold lamEntry
      have hie : parentIndex < e.1.length := by rw [harity]; exact hidxlt
      obtain ⟨tv, htv⟩ : ∃ t, e.1[parentIndex]? = some t := by
        rw [List.getElem?_eq_getElem hie]; exact ⟨_, rfl⟩
      rw [htv]
      simp only [Option.bind_eq_bind, Option.some_bind]
      by_cases htvv : tv ≠ v
      · rw [if_pos htvv]; rfl
      · rw [if_neg htvv]
        rw [skipCheck_eval harity]
        simp only [Option.some_bind]
        by_cases hskip : (! tupleConsistent evidence node.parents e.1 none) = true
        · rw [if_pos hskip]; rfl
        · rw [if_neg hskip]
          have hpm : (optProd (fun ip =>
              if ip.2 = parent then pure 1
              else do
                let m ← lookupKV (ip.2, node.id) piMap
                let tv2 ← e.1[ip.1]?
                lookupKV tv2 m) node.parents.enum).isSome = true := by
            refine optProd_isSome fun ip hip => ?_
            by_cases hp : ip.2 = parent
            · rw [if_pos hp]; rfl
            · rw [if_neg hp]
              obtain ⟨m, hm, hmt⟩ :=
                hpar ip.2 (mem_of_getElem_opt (mem_enum_getElem hip)) hp
              rw [hm]
              simp only [Option.bind_eq_bind, Option.some_bind]
              have hlt : ip.1 < node.parents.length :=
                getElem_some_lt (mem_enum_getElem hip)
              have hlt2 : ip.1 < e.1.length := by rw [harity]; exact hlt
              obtain ⟨tv2, htv2⟩ : ∃ t, e.1[ip.1]? = some t := by
                rw [List.getElem?_eq_getElem hlt2]; exact ⟨_, rfl⟩
              rw [htv2]
              simp only [Option.some_bind]
              exact hmt tv2 (hkeys tv2 (mem_of_getElem_opt htv2))
          obtain ⟨pmv, hpmv⟩ := Option.isSome_iff_exists.mp hpm
          simp only [Option.bind_eq_bind] at hpmv
          rw [hpmv]
          simp only [Option.some_bind]
          have hns : (optSum (fun x =>
              match lookupKV node.id evidence with
              | some e' => if e' ≠ x then pure 0 else lamCore node lambdaMap e.2 x
              | none => lamCore node lambdaMap e.2 x) vs).isSome = true := by
            refine optSum_isSome fun x hx => ?_
            have hcore : (lamCore node lambdaMap e.2 x).isSome = true := by
              unfold lamCore
              have hop : (optProd (fun c => do
                  let m ← lookupKV (c, node.id) lambdaMap
                  lookupKV x m) node.children).isSome = true := by
                refine optProd_isSome fun c hc => ?_
                obtain ⟨m, hm, hmt⟩ := hch c hc
                rw [hm]
                simp only [Option.bind_eq_bind, Option.some_bind]
                exact hmt x hx
              obtain ⟨lam, hlamv⟩ := Option.isSome_iff_exists.mp hop
              obtain ⟨pv, hpv⟩ := Option.isSome_iff_exists.mp (hrows x hx)
              simp only [Option.bind_eq_bind] at hlamv
              simp only [Option.bind_eq_bind, Option.pure_def, hlamv, Option.some_bind]
              rw [hpv]
              simp only [Option.some_bind]
              rfl
            cases hev : lookupKV node.id evidence with
            | none => exact hcore
            | some ev =>
                show (if ev ≠ x then (pure 0 : Option ℚ)
                  else lamCore node lambdaMap e.2 x).isSome = true
                by_cases hevx : ev ≠ x
                · rw [if_pos hevx]; rfl
                · rw [if_neg hevx]; exact hcore
          obtain ⟨nsv, hnsv⟩ := Option.isSome_iff_exists.mp hns
          rw [hnsv]
          simp only [Option.some_bind]
          rfl
    obtain ⟨q, hq⟩ := Option.isSome_iff_exists.mp hentry
    simp only [hq, Option.map_some]
    rfl
  obtain ⟨msg, hmsgv⟩ := Option.isSome_iff_exists.mp hmsg
  simp only [Option.bind_eq_bind, hmsgv, Option.some_bind]
  rfl

/-! ### C3: bare step shape lemmas (no invariants needed) -/

theorem stepRel_trans {s s₁ s₂ : PropState T}
    (h1 : StepRel s s₁) (h2 : StepRel s₁ s₂) : StepRel s s₂ := by
  rcases h1 with rfl | ⟨hu1, hm1⟩
  · exact h2
  · rcases h2 with rfl | ⟨hu2, hm2⟩
    · exact Or.inr ⟨hu1, hm1⟩
    · exact Or.inr ⟨hu2, by omega⟩

theorem stepRel_mu {s s' : PropState T} (h : StepRel s s') :
    muSize s ≤ muSize s' := by
  rcases h with rfl | ⟨-, hm⟩
  · exact le_refl _
  · omega

theorem processPiChild_bare {vs : List T} {n : Node T} {ev : List (NodeId × T)}
    {s s' : PropState T} {c : NodeId}
    (h : processPiChild vs n ev s c = some s') :
    StepRel s s' ∧ s'.lambdaMap = s.lambdaMap ∧ (s.upd = true → s'.upd = true) := by
  unfold processPiChild at h
  by_cases hg : containsKV (n.id, c) s.piMap = true
  · rw [if_pos hg] at h
    cases h
    exact ⟨Or.inl rfl, rfl, fun hu => hu⟩
  · rw [if_neg hg] at h
    simp only [Option.bind_eq_bind, Option.pure_def] at h
    rcases Option.bind_eq_some.mp h with ⟨pm, hpm, hs⟩
    cases hs
    obtain ⟨msg, hmsg, hshape⟩ : ∃ msg mf, pm = ((n.id, c), msg) :: s.piMap := by
      unfold passPi at hpm
      simp only [Option.bind_eq_bind, Option.pure_def] at hpm
      rcases Option.bind_eq_some.mp hpm with ⟨msg, hmsg, hpm2⟩
      exact ⟨msg, hmsg, (Option.some.inj hpm2).symm⟩
    refine ⟨Or.inr ⟨rfl, ?_⟩, rfl, fun _ => rfl⟩
    unfold muSize
    subst hshape
    simp only [List.length_cons]
    omega

theorem processLamParent_bare {vs : List T} {n : Node T} {ev : List (NodeId × T)}
    {s s' : PropState T} {ip : Nat × NodeId}
    (h : processLamParent vs n ev s ip = some s') :
    StepRel s s' ∧ s'.piMap = s.piMap ∧ (s.upd = true → s'.upd = true) := by
  unfold processLamParent at h
  by_cases hg : containsKV (n.id, ip.2) s.lambdaMap = true
  · rw [if_pos hg] at h
    cases h
    exact ⟨Or.inl rfl, rfl, fun hu => hu⟩
  · rw [if_neg hg] at h
    simp only [Option.bind_eq_bind, Option.pure_def] at h
    rcases Option.bind_eq_some.mp h with ⟨lm, hlm, hs⟩
    cases hs
    obtain ⟨msg, hmsg, hshape⟩ : ∃ msg mf, lm = ((n.id, ip.2), msg) :: s.lambdaMap := by
      unfold passLambda at hlm
      simp only [Option.bind_eq_bind, Option.pure_def] at hlm
      rcases Option.bind_eq_some.mp hlm with ⟨msg, hmsg, hlm2⟩
      exact ⟨msg, hmsg, (Option.some.inj hlm2).symm⟩
    refine ⟨Or.inr ⟨rfl, ?_⟩, rfl, fun _ => rfl⟩
    unfold muSize
    subst hshape
    simp only [List.length_cons]
    omega

theorem foldSt_mono {α : Type} {f : PropState T → α → Option (PropState T)} :
    ∀ {l : List α},
      (∀ s a, a ∈ l → ∀ s', f s a = some s' → s.upd = true → s'.upd = true) →
      ∀ {s s' : PropState T}, foldSt f s l = some s' → s.upd = true →
        s'.upd = true := by
  intro l
  induction l with
  | nil =>
      intro _ s s' h hu
      cases h
      exact hu
  | cons a l ih =>
      intro hm s s' h hu
      simp only [foldSt, Option.bind_eq_bind, bind, Option.bind] at h
      cases hfa : f s a with
      | none => rw [hfa] at h; cases h
      | some s1 =>
          rw [hfa] at h
          exact ih (fun t b hb => hm t b (List.mem_cons_of_mem a hb)) h
            (hm s a (List.mem_cons_self a l) s1 hfa hu)

theorem foldSt_bare {α : Type} {f : PropState T → α → Option (PropState T)} :
    ∀ {l : List α},
      (∀ s a, a ∈ l → ∀ s', f s a = some s' →
        StepRel s s' ∧ (s.upd = true → s'.upd = true)) →
      ∀ {s s' : PropState T}, foldSt f s l = some s' →
        StepRel s s' ∧ (s.upd = true → s'.upd = true) := by
  intro l
  induction l with
  | nil =>
      intro _ s s' h
      cases h
      exact ⟨Or.inl rfl, fun hu => hu⟩
  | cons a l ih =>
      intro hb s s' h
      simp only [foldSt, Option.bind_eq_bind, bind, Option.bind] at h
      cases hfa : f s a with
      | none => rw [hfa] at h; cases h
      | some s1 =>
          rw [hfa] at h
          obtain ⟨hr1, hm1⟩ := hb s a (List.mem_cons_self a l) s1 hfa
          obtain ⟨hr2, hm2⟩ := ih (fun t b htb => hb t b (List.mem_cons_of_mem a htb)) h
          exact ⟨stepRel_trans hr1 hr2, fun hu => hm2 (hm1 hu)⟩

theorem foldSt_no_upd {α : Type} {f : PropState T → α → Option (PropState T)} :
    ∀ {l : List α},
      (∀ s a, a ∈ l → ∀ s', f s a = some s' →
        StepRel s s' ∧ (s.upd = true → s'.upd = true)) →
      ∀ {s s' : PropState T}, foldSt f s l = some s' → s'.upd = false →
        s.upd = false → s' = s ∧ ∀ a ∈ l, f s a = some s := by
  intro l
  induction l with
  | nil =>
      intro _ s s' h _ _
      cases h
      exact ⟨rfl, fun a ha => absurd ha (List.not_mem_nil a)⟩
  | cons a l ih =>
      intro hb s s' h hupd' hupd
      simp only [foldSt, Option.bind_eq_bind, bind, Option.bind] at h
      cases hfa : f s a with
      | none => rw [hfa] at h; cases h
      | some s1 =>
          rw [hfa] at h
          have hs1upd : s1.upd = false := by
            cases hs1 : s1.upd with
            | false => rfl
            | true =>
                have := foldSt_mono
                  (fun t b htb s'' hs'' => (hb t b (List.mem_cons_of_mem a htb) s'' hs'').2)
                  h hs1
                rw [hupd'] at this
                cases this
          have hs1 : s1 = s := by
            rcases (hb s a (List.mem_cons_self a l) s1 hfa).1 with rfl | ⟨hu, -⟩
            · rfl
            · rw [hs1upd] at hu; cases hu
          subst hs1
          obtain ⟨hfix, hall⟩ :=
            ih (fun t b htb => hb t b (List.mem_cons_of_mem a htb)) h hupd' hupd
          refine ⟨hfix, fun b hbmem => ?_⟩
          rcases List.mem_cons.mp hbmem with rfl | hbmem'
          · exact hfa
          · exact hall b hbmem'

theorem phasePi_bare {vs : List T} {n : Node T} {ev : List (NodeId × T)}
    {s : PropState T} {sc : PropState T × Bool}
    (h : phasePi vs n ev s = some sc) :
    StepRel s sc.1 ∧ (s.upd = true → sc.1.upd = true) := by
  unfold phasePi at h
  by_cases hall : (n.parents.all fun p => containsKV (p, n.id) s.piMap) = true
  · rw [if_pos hall] at h
    have h' : (if (n.children.filter fun c =>
          containsKV (c, n.id) s.lambdaMap).length + 2 ≤ n.children.length
        then some (s, false)
        else if (n.children.filter fun c =>
            containsKV (c, n.id) s.lambdaMap).length + 1 = n.children.length
        then (foldSt (fun t c =>
            if containsKV (c, n.id) t.lambdaMap = true then some t
            else processPiChild vs n ev t c) s n.children).map (fun t => (t, true))
        else (foldSt (processPiChild vs n ev) s n.children).map
          fun t => (t, true)) = some sc := h
    by_cases h2 : (n.children.filter fun c =>
        containsKV (c, n.id) s.lambdaMap).length + 2 ≤ n.children.length
    · rw [if_pos h2] at h'
      cases h'
      exact ⟨Or.inl rfl, fun hu => hu⟩
    · rw [if_neg h2] at h'
      by_cases h3 : (n.children.filter fun c =>
          containsKV (c, n.id) s.lambdaMap).length + 1 = n.children.length
      · rw [if_pos h3] at h'
        rcases Option.map_eq_some'.mp h' with ⟨s1, hs1, hsc⟩
        cases hsc
        refine foldSt_bare (fun t c hc s' hs' => ?_) hs1
        by_cases hg : containsKV (c, n.id) t.lambdaMap = true
        · rw [if_pos hg] at hs'
          cases hs'
          exact ⟨Or.inl rfl, fun hu => hu⟩
        · rw [if_neg hg] at hs'
          obtain ⟨hr, -, hm⟩ := processPiChild_bare hs'
          exact ⟨hr, hm⟩
      · rw [if_neg h3] at h'
        rcases Option.map_eq_some'.mp h' with ⟨s1, hs1, hsc⟩
        cases hsc
        refine foldSt_bare (fun t c hc s' hs' => ?_) hs1
        obtain ⟨hr, -, hm⟩ := processPiChild_bare hs'
        exact ⟨hr, hm⟩
  · rw [if_neg hall] at h
    cases h
    exact ⟨Or.inl rfl, fun hu => hu⟩

theorem phaseLam_bare {vs : List T} {n : Node T} {ev : List (NodeId × T)}
    {s s' : PropState T}
    (h : phaseLam vs n ev s = some s') :
    StepRel s s' ∧ (s.upd = true → s'.upd = true) := by
  unfold phaseLam at h
  by_cases hall : (n.children.all fun c => containsKV (c, n.id) s.lambdaMap) = true
  · rw [if_pos hall] at h
    have h' : (if (n.parents.filter fun p =>
          containsKV (p, n.id) s.piMap).length + 2 ≤ n.parents.length
        then some s
        else if (n.parents.filter fun p =>
            containsKV (p, n.id) s.piMap).length + 1 = n.parents.length
        then foldSt (fun t ip =>
            if containsKV (ip.2, n.id) t.piMap = true then some t
            else processLamParent vs n ev t ip) s n.parents.enum
        else foldSt (processLamParent vs n ev) s n.parents.enum) = some s' := h
    by_cases h2 : (n.parents.filter fun p =>
        containsKV (p, n.id) s.piMap).length + 2 ≤ n.parents.length
    · rw [if_pos h2] at h'
      cases h'
      exact ⟨Or.inl rfl, fun hu => hu⟩
    · rw [if_neg h2] at h'
      by_cases h3 : (n.parents.filter fun p =>
          containsKV (p, n.id) s.piMap).length + 1 = n.parents.length
      · rw [if_pos h3] at h'
        refine foldSt_bare (fun t ip hip s'' hs'' => ?_) h'
        by_cases hg : containsKV (ip.2, n.id) t.piMap = true
        · rw [if_pos hg] at hs''
          cases hs''
          exact ⟨Or.inl rfl, fun hu => hu⟩
        · rw [if_neg hg] at hs''
          obtain ⟨hr, -, hm⟩ := processLamParent_bare hs''
          exact ⟨hr, hm⟩
      · rw [if_neg h3] at h'
        refine foldSt_bare (fun t ip hip s'' hs'' => ?_) h'
        obtain ⟨hr, -, hm⟩ := processLamParent_bare hs''
        exact ⟨hr, hm⟩
  · rw [if_neg hall] at h
    cases h
    exact ⟨Or.inl rfl, fun hu => hu⟩

theorem processNode_bare {vs : List T} {n : Node T} {ev : List (NodeId × T)}
    {s s' : PropState T}
    (h : processNode vs ev s n = some s') :
    StepRel s s' ∧ (s.upd = true → s'.upd = true) := by
  unfold processNode at h
  simp only [Option.bind_eq_bind, Option.pure_def] at h
  rcases Option.bind_eq_some.mp h with ⟨sc, hsc, h2⟩
  obtain ⟨hr1, hm1⟩ := phasePi_bare hsc
  have h2' : (if sc.2 = true then phaseLam vs n ev sc.1 else some sc.1) =
      some s' := h2
  by_cases hb : sc.2 = true
  · rw [if_pos hb] at h2'
    obtain ⟨hr2, hm2⟩ := phaseLam_bare h2'
    exact ⟨stepRel_trans hr1 hr2, fun hu => hm2 (hm1 hu)⟩
  · rw [if_neg hb] at h2'
    cases h2'
    exact ⟨hr1, hm1⟩

theorem passPi_shape {vs : List T} {node : Node T} {child : NodeId}
    {ev : List (NodeId × T)} {lambdaMap piMap pm' : MsgMap T}
    (h : passPi vs node child ev lambdaMap piMap = some pm') :
    ∃ msg, pm' = ((node.id, child), msg) :: piMap ∧
      ∀ v ∈ vs, (lookupKV v msg).isSome = true := by
  unfold passPi at h
  simp only [Option.bind_eq_bind, Option.pure_def] at h
  rcases Option.bind_eq_some.mp h with ⟨msg, hmsg, hpm2⟩
  refine ⟨msg, (Option.some.inj hpm2).symm, fun v hv => ?_⟩
  obtain ⟨q, -, hl⟩ := msgOfFn_lookup hmsg hv
  rw [hl]
  rfl

theorem passLambda_shape {vs : List T} {node : Node T} {parent : NodeId}
    {parentIndex : Nat} {ev : List (NodeId × T)} {piMap lambdaMap lm' : MsgMap T}
    (h : passLambda vs node parent parentIndex ev piMap lambdaMap = some lm') :
    ∃ msg, lm' = ((node.id, parent), msg) :: lambdaMap ∧
      ∀ v ∈ vs, (lookupKV v msg).isSome = true := by
  unfold passLambda at h
  simp only [Option.bind_eq_bind, Option.pure_def] at h
  rcases Option.bind_eq_some.mp h with ⟨msg, hmsg, hlm2⟩
  refine ⟨msg, (Option.some.inj hlm2).symm, fun v hv => ?_⟩
  obtain ⟨q, -, hl⟩ := msgOfFn_lookup hmsg hv
  rw [hl]
  rfl

theorem processPiChild_c3 {net : BayesianNetwork T} {n : Node T}
    {ev : List (NodeId × T)} {s s' : PropState T} {c : NodeId}
    (hn : n ∈ net.nodes) (hc : c ∈ n.children) (hinv : C3Inv net s)
    (h : processPiChild net.value_space n ev s c = some s') : C3Inv net s' := by
  unfold processPiChild at h
  by_cases hg : containsKV (n.id, c) s.piMap = true
  · rw [if_pos hg] at h
    cases h
    exact hinv
  · rw [if_neg hg] at h
    simp only [Option.bind_eq_bind, Option.pure_def] at h
    rcases Option.bind_eq_some.mp h with ⟨pm, hpm, hs⟩
    cases hs
    obtain ⟨msg, rfl, htot⟩ := passPi_shape hpm
    refine ⟨?_, ?_, hinv.2.2.1, ?_, hinv.2.2.2.2⟩
    · intro k m hk v hv
      rcases hk with hk | hk
      · rcases lookup_cons_cases hk with rfl | htail
        · exact htot v hv
        · exact hinv.1 k m (Or.inl htail) v hv
      · exact hinv.1 k m (Or.inr hk) v hv
    · rw [List.map_cons]
      refine List.nodup_cons.mpr ⟨?_, hinv.2.1⟩
      refine lookup_none_iff.mp ?_
      cases hl : lookupKV (n.id, c) s.piMap with
      | none => rfl
      | some m0 => exact absurd (by simp [containsKV, hl]) hg
    · rw [List.map_cons]
      intro k hkmem
      rcases List.mem_cons.mp hkmem with rfl | hk
      · exact piEdges_mem hn hc
      · exact hinv.2.2.2.1 k hk

theorem processLamParent_c3 {net : BayesianNetwork T} {n : Node T}
    {ev : List (NodeId × T)} {s s' : PropState T} {ip : Nat × NodeId}
    (hn : n ∈ net.nodes) (hp : ip.2 ∈ n.parents) (hinv : C3Inv net s)
    (h : processLamParent net.value_space n ev s ip = some s') : C3Inv net s' := by
  unfold processLamParent at h
  by_cases hg : containsKV (n.id, ip.2) s.lambdaMap = true
  · rw [if_pos hg] at h
    cases h
    exact hinv
  · rw [if_neg hg] at h
    simp only [Option.bind_eq_bind, Option.pure_def] at h
    rcases Option.bind_eq_some.mp h with ⟨lm, hlm, hs⟩
    cases hs
    obtain ⟨msg, rfl, htot⟩ := passLambda_shape hlm
    refine ⟨?_, hinv.2.1, ?_, hinv.2.2.2.1, ?_⟩
    · intro k m hk v hv
      rcases hk with hk | hk
      · exact hinv.1 k m (Or.inl hk) v hv
      · rcases lookup_cons_cases hk with rfl | htail
        · exact htot v hv
        · exact hinv.1 k m (Or.inr htail) v hv
    · rw [List.map_cons]
      refine List.nodup_cons.mpr ⟨?_, hinv.2.2.1⟩
      refine lookup_none_iff.mp ?_
      cases hl : lookupKV (n.id, ip.2) s.lambdaMap with
      | none => rfl
      | some m0 => exact absurd (by simp [containsKV, hl]) hg
    · rw [List.map_cons]
      intro k hkmem
      rcases List.mem_cons.mp hkmem with rfl | hk
      · exact lamEdges_mem hn hp
      · exact hinv.2.2.2.2 k hk

/-! ### C3: the sweep always succeeds -/

theorem processPiChild_sp {net : BayesianNetwork T} {n : Node T}
    {ev : List (NodeId × T)} {t : PropState T} {c : NodeId}
    (hn : n ∈ net.nodes) (hc : c ∈ n.children) (hwfn : NodeC3WF net n)
    (hIc3 : C3Inv net t)
    (hpar : ∀ p ∈ n.parents, containsKV (p, n.id) t.piMap = true)
    (hoth : ∀ oc ∈ n.children, oc ≠ c → containsKV (oc, n.id) t.lambdaMap = true) :
    ∃ t', processPiChild net.value_space n ev t c = some t' ∧ C3Inv net t' ∧
      t'.lambdaMap = t.lambdaMap ∧
      ∀ k, containsKV k t.piMap = true → containsKV k t'.piMap = true := by
  by_cases hg2 : containsKV (n.id, c) t.piMap = true
  · refine ⟨t, ?_, hIc3, rfl, fun k hk => hk⟩
    unfold processPiChild
    rw [if_pos hg2]
  · have hps : (passPi net.value_space n c ev t.lambdaMap t.piMap).isSome = true := by
      refine passPi_isSome hwfn.2.2.1 hwfn.2.2.2 ?_ ?_
      · intro p hp
        obtain ⟨m, hm⟩ := Option.isSome_iff_exists.mp (hpar p hp)
        exact ⟨m, hm, fun x hx => hIc3.1 (p, n.id) m (Or.inl hm) x hx⟩
      · intro oc hoc hocne
        obtain ⟨m, hm⟩ := Option.isSome_iff_exists.mp (hoth oc hoc hocne)
        exact ⟨m, hm, fun x hx => hIc3.1 (oc, n.id) m (Or.inr hm) x hx⟩
    obtain ⟨pm, hpm⟩ := Option.isSome_iff_exists.mp hps
    have hproc : processPiChild net.value_space n ev t c =
        some { t with piMap := pm, upd := true } := by
      unfold processPiChild
      rw [if_neg hg2, hpm]
      rfl
    obtain ⟨msg, hpmeq, -⟩ := passPi_shape hpm
    refine ⟨_, hproc, processPiChild_c3 hn hc hIc3 hproc, rfl, ?_⟩
    intro k hk
    show containsKV k pm = true
    rw [hpmeq]
    exact containsKV_cons_of hk

theorem processLamParent_sp {net : BayesianNetwork T} {n : Node T}
    {ev : List (NodeId × T)} {t : PropState T} {ip : Nat × NodeId}
    (hn : n ∈ net.nodes) (hidx : n.parents[ip.1]? = some ip.2)
    (hwfn : NodeC3WF net n) (hIc3 : C3Inv net t)
    (hch : ∀ c ∈ n.children, containsKV (c, n.id) t.lambdaMap = true)
    (hoth : ∀ p ∈ n.parents, p ≠ ip.2 → containsKV (p, n.id) t.piMap = true) :
    ∃ t', processLamParent net.value_space n ev t ip = some t' ∧ C3Inv net t' ∧
      t'.piMap = t.piMap ∧
      ∀ k, containsKV k t.lambdaMap = true → containsKV k t'.lambdaMap = true := by
  by_cases hg2 : containsKV (n.id, ip.2) t.lambdaMap = true
  · refine ⟨t, ?_, hIc3, rfl, fun k hk => hk⟩
    unfold processLamParent
    rw [if_pos hg2]
  · have hps : (passLambda net.value_space n ip.2 ip.1 ev t.piMap
        t.lambdaMap).isSome = true := by
      refine passLambda_isSome hidx hwfn.2.2.2 ?_ ?_
      · intro p hp hpne
        obtain ⟨m, hm⟩ := Option.isSome_iff_exists.mp (hoth p hp hpne)
        exact ⟨m, hm, fun x hx => hIc3.1 (p, n.id) m (Or.inl hm) x hx⟩
      · intro cc hcc
        obtain ⟨m, hm⟩ := Option.isSome_iff_exists.mp (hch cc hcc)
        exact ⟨m, hm, fun x hx => hIc3.1 (cc, n.id) m (Or.inr hm) x hx⟩
    obtain ⟨lm, hlm⟩ := Option.isSome_iff_exists.mp hps
    have hproc : processLamParent net.value_space n ev t ip =
        some { t with lambdaMap := lm, upd := true } := by
      unfold processLamParent
      rw [if_neg hg2, hlm]
      rfl
    obtain ⟨msg, hlmeq, -⟩ := passLambda_shape hlm
    refine ⟨_, hproc, processLamParent_c3 hn (mem_of_getElem_opt hidx) hIc3 hproc,
      rfl, ?_⟩
    intro k hk
    show containsKV k lm = true
    rw [hlmeq]
    exact containsKV_cons_of hk

theorem foldSt_sp {α : Type} (I : PropState T → Prop)
    {f : PropState T → α → Option (PropState T)} :
    ∀ {l : List α},
      (∀ s a, a ∈ l → I s → ∃ s', f s a = some s' ∧ I s') →
      ∀ {s : PropState T}, I s → ∃ s', foldSt f s l = some s' ∧ I s' := by
  intro l
  induction l with
  | nil =>
      intro _ s hI
      exact ⟨s, rfl, hI⟩
  | cons a l ih =>
      intro hstep s hI
      obtain ⟨s1, hs1, hI1⟩ := hstep s a (List.mem_cons_self a l) hI
      obtain ⟨s', hs', hI'⟩ :=
        ih (fun t b htb => hstep t b (List.mem_cons_of_mem a htb)) hI1
      refine ⟨s', ?_, hI'⟩
      simp only [foldSt, Option.bind_eq_bind, hs1, Option.some_bind]
      exact hs'

theorem phasePi_sp {net : BayesianNetwork T} {n : Node T}
    {ev : List (NodeId × T)} {s : PropState T}
    (hn : n ∈ net.nodes) (hwfn : NodeC3WF net n) (hinv : C3Inv net s) :
    ∃ sc, phasePi net.value_space n ev s = some sc ∧ C3Inv net sc.1 := by
  unfold phasePi
  by_cases hall : (n.parents.all fun p => containsKV (p, n.id) s.piMap) = true
  · rw [if_pos hall]
    have hparS : ∀ p ∈ n.parents, containsKV (p, n.id) s.piMap = true := by
      simpa [List.all_eq_true] using hall
    show ∃ sc, (if (n.children.filter fun c =>
          containsKV (c, n.id) s.lambdaMap).length + 2 ≤ n.children.length
        then some (s, false)
        else if (n.children.filter fun c =>
            containsKV (c, n.id) s.lambdaMap).length + 1 = n.children.length
        then (foldSt (fun t c =>
            if containsKV (c, n.id) t.lambdaMap = true then some t
            else processPiChild net.value_space n ev t c) s n.children).map
          (fun t => (t, true))
        else (foldSt (processPiChild net.value_space n ev) s n.children).map
          fun t => (t, true)) = some sc ∧ C3Inv net sc.1
    by_cases h2 : (n.children.filter fun c =>
        containsKV (c, n.id) s.lambdaMap).length + 2 ≤ n.children.length
    · rw [if_pos h2]
      exact ⟨(s, false), rfl, hinv⟩
    · rw [if_neg h2]
      by_cases h3 : (n.children.filter fun c =>
          containsKV (c, n.id) s.lambdaMap).length + 1 = n.children.length
      · rw [if_pos h3]
        have hstep : ∀ t c, c ∈ n.children →
            (C3Inv net t ∧ t.lambdaMap = s.lambdaMap ∧
              ∀ p ∈ n.parents, containsKV (p, n.id) t.piMap = true) →
            ∃ t', (if containsKV (c, n.id) t.lambdaMap = true then some t
                else processPiChild net.value_space n ev t c) = some t' ∧
              (C3Inv net t' ∧ t'.lambdaMap = s.lambdaMap ∧
                ∀ p ∈ n.parents, containsKV (p, n.id) t'.piMap = true) := by
          intro t c hcmem hIt
          obtain ⟨hIc3, hIlam, hIpar⟩ := hIt
          by_cases hg : containsKV (c, n.id) t.lambdaMap = true
          · rw [if_pos hg]
            exact ⟨t, rfl, hIc3, hIlam, hIpar⟩
          · rw [if_neg hg]
            have hgs : containsKV (c, n.id) s.lambdaMap = false := by
              rw [← hIlam]
              cases hx : containsKV (c, n.id) t.lambdaMap with
              | false => rfl
              | true => exact absurd hx hg
            have hothS := filter_pred_of_one_missing hwfn.1 hcmem hgs h3
            obtain ⟨t', ht', hI3, hlam', hmono⟩ :=
              processPiChild_sp hn hcmem hwfn hIc3 hIpar
                (fun oc hoc hne => by rw [hIlam]; exact hothS oc hoc hne)
            exact ⟨t', ht', hI3, hlam'.trans hIlam,
              fun p hp => hmono (p, n.id) (hIpar p hp)⟩
        obtain ⟨s1, hs1, hI1⟩ := foldSt_sp (fun t => C3Inv net t ∧
            t.lambdaMap = s.lambdaMap ∧
            ∀ p ∈ n.parents, containsKV (p, n.id) t.piMap = true)
          hstep ⟨hinv, rfl, hparS⟩
        refine ⟨(s1, true), ?_, hI1.1⟩
        rw [hs1]
        rfl
      · rw [if_neg h3]
        have hlcnt : (n.children.filter fun c =>
            containsKV (c, n.id) s.lambdaMap).length = n.children.length := by
          have hle := List.length_filter_le
            (fun c => containsKV (c, n.id) s.lambdaMap) n.children
          omega
        have hallc := filter_all_of_length_eq hlcnt
        have hstep : ∀ t c, c ∈ n.children →
            (C3Inv net t ∧ t.lambdaMap = s.lambdaMap ∧
              ∀ p ∈ n.parents, containsKV (p, n.id) t.piMap = true) →
            ∃ t', processPiChild net.value_space n ev t c = some t' ∧
              (C3Inv net t' ∧ t'.lambdaMap = s.lambdaMap ∧
                ∀ p ∈ n.parents, containsKV (p, n.id) t'.piMap = true) := by
          intro t c hcmem hIt
          obtain ⟨hIc3, hIlam, hIpar⟩ := hIt
          obtain ⟨t', ht', hI3, hlam', hmono⟩ :=
            processPiChild_sp hn hcmem hwfn hIc3 hIpar
              (fun oc hoc _ => by rw [hIlam]; exact hallc oc hoc)
          exact ⟨t', ht', hI3, hlam'.trans hIlam,
            fun p hp => hmono (p, n.id) (hIpar p hp)⟩
        obtain ⟨s1, hs1, hI1⟩ := foldSt_sp (fun t => C3Inv net t ∧
            t.lambdaMap = s.lambdaMap ∧
            ∀ p ∈ n.parents, containsKV (p, n.id) t.piMap = true)
          hstep ⟨hinv, rfl, hparS⟩
        refine ⟨(s1, true), ?_, hI1.1⟩
        rw [hs1]
        rfl
  · rw [if_neg hall]
    exact ⟨(s, true), rfl, hinv⟩

theorem phaseLam_sp {net : BayesianNetwork T} {n : Node T}
    {ev : List (NodeId × T)} {s : PropState T}
    (hn : n ∈ net.nodes) (hwfn : NodeC3WF net n) (hinv : C3Inv net s) :
    ∃ s', phaseLam net.value_space n ev s = some s' ∧ C3Inv net s' := by
  unfold phaseLam
  by_cases hall : (n.children.all fun c => containsKV (c, n.id) s.lambdaMap) = true
  · rw [if_pos hall]
    have hchS : ∀ c ∈ n.children, containsKV (c, n.id) s.lambdaMap = true := by
      simpa [List.all_eq_true] using hall
    show ∃ s', (if (n.parents.filter fun p =>
          containsKV (p, n.id) s.piMap).length + 2 ≤ n.parents.length
        then some s
        else if (n.parents.filter fun p =>
            containsKV (p, n.id) s.piMap).length + 1 = n.parents.length
        then foldSt (fun t ip =>
            if containsKV (ip.2, n.id) t.piMap = true then some t
            else processLamParent net.value_space n ev t ip) s n.parents.enum
        else foldSt (processLamParent net.value_space n ev) s n.parents.enum) =
          some s' ∧ C3Inv net s'
    by_cases h2 : (n.parents.filter fun p =>
        containsKV (p, n.id) s.piMap).length + 2 ≤ n.parents.length
    · rw [if_pos h2]
      exact ⟨s, rfl, hinv⟩
    · rw [if_neg h2]
      by_cases h3 : (n.parents.filter fun p =>
          containsKV (p, n.id) s.piMap).length + 1 = n.parents.length
      · rw [if_pos h3]
        have hstep : ∀ t ip, ip ∈ n.parents.enum →
            (C3Inv net t ∧ t.piMap = s.piMap ∧
              ∀ c ∈ n.children, containsKV (c, n.id) t.lambdaMap = true) →
            ∃ t', (if containsKV (ip.2, n.id) t.piMap = true then some t
                else processLamParent net.value_space n ev t ip) = some t' ∧
              (C3Inv net t' ∧ t'.piMap = s.piMap ∧
                ∀ c ∈ n.children, containsKV (c, n.id) t'.lambdaMap = true) := by
          intro t ip hipmem hIt
          obtain ⟨hIc3, hIpi, hIch⟩ := hIt
          by_cases hg : containsKV (ip.2, n.id) t.piMap = true
          · rw [if_pos hg]
            exact ⟨t, rfl, hIc3, hIpi, hIch⟩
          · rw [if_neg hg]
            have hgs : containsKV (ip.2, n.id) s.piMap = false := by
              rw [← hIpi]
              cases hx : containsKV (ip.2, n.id) t.piMap with
              | false => rfl
              | true => exact absurd hx hg
            have hothS := filter_pred_of_one_missing hwfn.2.1
              (mem_of_getElem_opt (mem_enum_getElem hipmem)) hgs h3
            obtain ⟨t', ht', hI3, hpi', hmono⟩ :=
              processLamParent_sp hn (mem_enum_getElem hipmem) hwfn hIc3 hIch
                (fun p hp hne => by rw [hIpi]; exact hothS p hp hne)
            exact ⟨t', ht', hI3, hpi'.trans hIpi,
              fun c hc => hmono (c, n.id) (hIch c hc)⟩
        obtain ⟨s1, hs1, hI1⟩ := foldSt_sp (fun t => C3Inv net t ∧
            t.piMap = s.piMap ∧
            ∀ c ∈ n.children, containsKV (c, n.id) t.lambdaMap = true)
          hstep ⟨hinv, rfl, hchS⟩
        exact ⟨s1, hs1, hI1.1⟩
      · rw [if_neg h3]
        have hpcnt : (n.parents.filter fun p =>
            containsKV (p, n.id) s.piMap).length = n.parents.length := by
          have hle := List.length_filter_le
            (fun p => containsKV (p, n.id) s.piMap) n.parents
          omega
        have hallp := filter_all_of_length_eq hpcnt
        have hstep : ∀ t ip, ip ∈ n.parents.enum →
            (C3Inv net t ∧ t.piMap = s.piMap ∧
              ∀ c ∈ n.children, containsKV (c, n.id) t.lambdaMap = true) →
            ∃ t', processLamParent net.value_space n ev t ip = some t' ∧
              (C3Inv net t' ∧ t'.piMap = s.piMap ∧
                ∀ c ∈ n.children, containsKV (c, n.id) t'.lambdaMap = true) := by
          intro t ip hipmem hIt
          obtain ⟨hIc3, hIpi, hIch⟩ := hIt
          obtain ⟨t', ht', hI3, hpi', hmono⟩ :=
            processLamParent_sp hn (mem_enum_getElem hipmem) hwfn hIc3 hIch
              (fun p hp _ => by rw [hIpi]; exact hallp p hp)
          exact ⟨t', ht', hI3, hpi'.trans hIpi,
            fun c hc => hmono (c, n.id) (hIch c hc)⟩
        obtain ⟨s1, hs1, hI1⟩ := foldSt_sp (fun t => C3Inv net t ∧
            t.piMap = s.piMap ∧
            ∀ c ∈ n.children, containsKV (c, n.id) t.lambdaMap = true)
          hstep ⟨hinv, rfl, hchS⟩
        exact ⟨s1, hs1, hI1.1⟩
  · rw [if_neg hall]
    exact ⟨s, rfl, hinv⟩

theorem processNode_sp {net : BayesianNetwork T} {n : Node T}
    {ev : List (NodeId × T)} {s : PropState T}
    (hn : n ∈ net.nodes) (hwfn : NodeC3WF net n) (hinv : C3Inv net s) :
    ∃ s', processNode net.value_space ev s n = some s' ∧ C3Inv net s' := by
  obtain ⟨sc, hsc, hscinv⟩ := phasePi_sp hn hwfn hinv
  by_cases hb : sc.2 = true
  · obtain ⟨s', hs', hinv'⟩ := phaseLam_sp hn hwfn hscinv
    refine ⟨s', ?_, hinv'⟩
    unfold processNode
    rw [hsc]
    simp only [Option.bind_eq_bind, Option.some_bind]
    rw [if_pos hb]
    exact hs'
  · refine ⟨sc.1, ?_, hscinv⟩
    unfold processNode
    rw [hsc]
    simp only [Option.bind_eq_bind, Option.some_bind]
    rw [if_neg hb]
    rfl

theorem sweep_sp {net : BayesianNetwork T} {ev : List (NodeId × T)}
    {s : PropState T}
    (hwf : ∀ n ∈ net.nodes, NodeC3WF net n) (hinv : C3Inv net s) :
    ∃ s', sweep net.value_space net.nodes ev s = some s' ∧ C3Inv net s' := by
  unfold sweep
  exact foldSt_sp (C3Inv net)
    (fun t n hn hI => processNode_sp hn (hwf n hn) hI) hinv

theorem muSize_le_edges {net : BayesianNetwork T} {s : PropState T}
    (hinv : C3Inv net s) :
    muSize s ≤ (piEdges net).length + (lamEdges net).length := by
  obtain ⟨-, hndp, hndl, hsubp, hsubl⟩ := hinv
  have h1 : s.piMap.length ≤ (piEdges net).length := by
    have := nodup_subset_length_le hndp hsubp
    simpa using this
  have h2 : s.lambdaMap.length ≤ (lamEdges net).length := by
    have := nodup_subset_length_le hndl hsubl
    simpa using this
  unfold muSize
  omega

theorem sweep_bare {vs : List T} {nodes : List (Node T)}
    {ev : List (NodeId × T)} {s s' : PropState T}
    (h : sweep vs nodes ev s = some s') :
    StepRel s s' ∧ (s.upd = true → s'.upd = true) := by
  unfold sweep at h
  exact foldSt_bare (fun t n hn s'' hs'' => processNode_bare hs'') h

theorem loop_sp {net : BayesianNetwork T} {ev : List (NodeId × T)}
    (hwf : ∀ n ∈ net.nodes, NodeC3WF net n) :
    ∀ (fuel : Nat) {s : PropState T},
      C3Inv net s → s.upd = false →
      (piEdges net).length + (lamEdges net).length + 1 ≤ fuel + muSize s →
      ∃ st, loop net.value_space net.nodes ev fuel s = some st ∧
        C3Inv net st ∧ st.upd = false ∧
        sweep net.value_space net.nodes ev st = some st ∧
        ∀ n ∈ net.nodes, processNode net.value_space ev st n = some st := by
  intro fuel
  induction fuel with
  | zero =>
      intro s hinv hupd hfuel
      have := muSize_le_edges hinv
      omega
  | succ fuel ih =>
      intro s hinv hupd hfuel
      obtain ⟨st1, hst1, hinv1⟩ := sweep_sp hwf hinv
      cases hupd1 : st1.upd with
      | true =>
          have hmu : muSize s < muSize st1 := by
            rcases (sweep_bare hst1).1 with rfl | ⟨-, hm⟩
            · rw [hupd] at hupd1; cases hupd1
            · exact hm
          have hinv1' : C3Inv net ({ st1 with upd := false }) := hinv1
          obtain ⟨st, hst, hrest⟩ := ih hinv1' rfl (by
            have : muSize ({ st1 with upd := false } : PropState T) =
                muSize st1 := rfl
            omega)
          refine ⟨st, ?_, hrest⟩
          unfold loop
          show ((sweep net.value_space net.nodes ev s).bind fun st' =>
              if st'.upd = true then loop net.value_space net.nodes ev fuel
                { st' with upd := false } else pure st') = some st
          rw [hst1, Option.some_bind, if_pos hupd1]
          exact hst
      | false =>
          obtain ⟨hfix, hall⟩ := foldSt_no_upd
            (fun t n hn s'' hs'' => processNode_bare hs'') hst1 hupd1 hupd
          subst hfix
          refine ⟨st1, ?_, hinv1, hupd1, hst1, hall⟩
          unfold loop
          show ((sweep net.value_space net.nodes ev st1).bind fun st' =>
              if st'.upd = true then loop net.value_space net.nodes ev fuel
                { st' with upd := false } else pure st') = some st1
          rw [hst1, Option.some_bind, if_neg]
          · rfl
          · rw [hupd1]
            exact Bool.false_ne_true

theorem containsKV_mem_keys {K V : Type} [DecidableEq K] {k : K} :
    ∀ {m : List (K × V)}, containsKV k m = true → k ∈ m.map Prod.fst := by
  intro m
  induction m with
  | nil => intro h; simp [containsKV, lookupKV] at h
  | cons kv rest ih =>
      intro h
      simp only [List.map_cons, List.mem_cons]
      by_cases hk : kv.1 = k
      · exact Or.inl hk.symm
      · refine Or.inr (ih ?_)
        simp only [containsKV, lookupKV, if_neg hk] at h
        exact h

theorem piEdges_mem_inv {net : BayesianNetwork T} {k : NodeId × NodeId}
    (hk : k ∈ piEdges net) :
    ∃ n ∈ net.nodes, k.1 = n.id ∧ k.2 ∈ n.children := by
  unfold piEdges at hk
  revert hk
  generalize net.nodes = l
  induction l with
  | nil => intro hk; exact absurd hk (List.not_mem_nil k)
  | cons x l ih =>
      intro hk
      simp only [List.foldr_cons, List.mem_append] at hk
      rcases hk with hk1 | hk2
      · obtain ⟨c, hc, hck⟩ := List.mem_map.mp hk1
        refine ⟨x, List.mem_cons_self x l, ?_, ?_⟩
        · rw [← hck]
        · rw [← hck]
          exact hc
      · obtain ⟨n, hn, h1, h2⟩ := ih hk2
        exact ⟨n, List.mem_cons_of_mem x hn, h1, h2⟩

theorem lamEdges_mem_inv {net : BayesianNetwork T} {k : NodeId × NodeId}
    (hk : k ∈ lamEdges net) :
    ∃ n ∈ net.nodes, k.1 = n.id ∧ k.2 ∈ n.parents := by
  unfold lamEdges at hk
  revert hk
  generalize net.nodes = l
  induction l with
  | nil => intro hk; exact absurd hk (List.not_mem_nil k)
  | cons x l ih =>
      intro hk
      simp only [List.foldr_cons, List.mem_append] at hk
      rcases hk with hk1 | hk2
      · obtain ⟨p, hp, hpk⟩ := List.mem_map.mp hk1
        refine ⟨x, List.mem_cons_self x l, ?_, ?_⟩
        · rw [← hpk]
        · rw [← hpk]
          exact hp
      · obtain ⟨n, hn, h1, h2⟩ := ih hk2
        exact ⟨n, List.mem_cons_of_mem x hn, h1, h2⟩

theorem propagationWF_nodeC3WF {net : BayesianNetwork T}
    (hwf : PropagationWF net) : ∀ n ∈ net.nodes, NodeC3WF net n := by
  intro n hn
  obtain ⟨hcnd, hpnd, -, -, -, -, -⟩ := hwf.2.1 n hn
  obtain ⟨hroot, hcpt⟩ := hwf.2.2.2 n hn
  exact ⟨hcnd, hpnd, hroot, hcpt⟩

theorem get_mem_nodes {α : Type} (l : List α) (i : Fin l.length) :
    l.get i ∈ l :=
  @mem_of_getElem_opt α l i.1 (l.get i)
    (by simp [List.getElem?_eq_getElem i.isLt, List.get_eq_getElem])

theorem wf_id_at {net : BayesianNetwork T} (hwf : PropagationWF net)
    (i : Fin net.nodes.length) : (net.nodes.get i).id = i.1 :=
  hwf.1 (i.1, net.nodes.get i)
    (getElem_mem_enum (by simp [List.getElem?_eq_getElem i.isLt, List.get_eq_getElem]))

theorem wf_sym {net : BayesianNetwork T} (hwf : PropagationWF net)
    (i j : Fin net.nodes.length) :
    j.1 ∈ (net.nodes.get i).children ↔ i.1 ∈ (net.nodes.get j).parents :=
  hwf.2.2.1 (i.1, net.nodes.get i)
    (getElem_mem_enum (by simp [List.getElem?_eq_getElem i.isLt, List.get_eq_getElem]))
    (j.1, net.nodes.get j)
    (getElem_mem_enum (by simp [List.getElem?_eq_getElem j.isLt, List.get_eq_getElem]))

theorem processPiChild_fix_contains {vs : List T} {n : Node T}
    {ev : List (NodeId × T)} {st : PropState T} {c : NodeId}
    (hupd : st.upd = false) (h : processPiChild vs n ev st c = some st) :
    containsKV (n.id, c) st.piMap = true := by
  cases hx : containsKV (n.id, c) st.piMap with
  | true => rfl
  | false =>
      exfalso
      unfold processPiChild at h
      rw [if_neg (by rw [hx]; exact Bool.false_ne_true)] at h
      simp only [Option.bind_eq_bind, Option.pure_def] at h
      rcases Option.bind_eq_some.mp h with ⟨pm, hpm, hs⟩
      have hu : true = st.upd := congrArg PropState.upd (Option.some.inj hs)
      rw [hupd] at hu
      exact Bool.false_ne_true hu.symm

theorem processLamParent_fix_contains {vs : List T} {n : Node T}
    {ev : List (NodeId × T)} {st : PropState T} {ip : Nat × NodeId}
    (hupd : st.upd = false) (h : processLamParent vs n ev st ip = some st) :
    containsKV (n.id, ip.2) st.lambdaMap = true := by
  cases hx : containsKV (n.id, ip.2) st.lambdaMap with
  | true => rfl
  | false =>
      exfalso
      unfold processLamParent at h
      rw [if_neg (by rw [hx]; exact Bool.false_ne_true)] at h
      simp only [Option.bind_eq_bind, Option.pure_def] at h
      rcases Option.bind_eq_some.mp h with ⟨lm, hlm, hs⟩
      have hu : true = st.upd := congrArg PropState.upd (Option.some.inj hs)
      rw [hupd] at hu
      exact Bool.false_ne_true hu.symm

theorem processNode_fix {vs : List T} {n : Node T} {ev : List (NodeId × T)}
    {st : PropState T} (hupd : st.upd = false)
    (h : processNode vs ev st n = some st) :
    ∃ flag, phasePi vs n ev st = some (st, flag) ∧
      (flag = true → phaseLam vs n ev st = some st) := by
  unfold processNode at h
  simp only [Option.bind_eq_bind, Option.pure_def] at h
  rcases Option.bind_eq_some.mp h with ⟨sc, hsc, h2⟩
  have h2' : (if sc.2 = true then phaseLam vs n ev sc.1 else some sc.1) =
      some st := h2
  have hsc1 : sc.1 = st := by
    by_cases hb : sc.2 = true
    · rw [if_pos hb] at h2'
      rcases (phaseLam_bare h2').1 with heq2 | ⟨hu2, -⟩
      · exact heq2.symm
      · rw [hupd] at hu2
        exact absurd hu2 Bool.false_ne_true
    · rw [if_neg hb] at h2'
      exact Option.some.inj h2'
  refine ⟨sc.2, ?_, fun hb => ?_⟩
  · have hpair : (st, sc.2) = sc := by rw [← hsc1]
    rw [hpair]
    exact hsc
  · rw [if_pos hb] at h2'
    rw [hsc1] at h2'
    exact h2'

theorem phasePi_fix_false {vs : List T} {n : Node T} {ev : List (NodeId × T)}
    {st : PropState T}
    (hpp : phasePi vs n ev st = some (st, false)) :
    (n.children.filter fun c =>
      containsKV (c, n.id) st.lambdaMap).length + 2 ≤ n.children.length := by
  unfold phasePi at hpp
  by_cases hall : (n.parents.all fun p => containsKV (p, n.id) st.piMap) = true
  · rw [if_pos hall] at hpp
    have h' : (if (n.children.filter fun c =>
          containsKV (c, n.id) st.lambdaMap).length + 2 ≤ n.children.length
        then some (st, false)
        else if (n.children.filter fun c =>
            containsKV (c, n.id) st.lambdaMap).length + 1 = n.children.length
        then (foldSt (fun t c =>
            if containsKV (c, n.id) t.lambdaMap = true then some t
            else processPiChild vs n ev t c) st n.children).map (fun t => (t, true))
        else (foldSt (processPiChild vs n ev) st n.children).map
          fun t => (t, true)) = some (st, false) := hpp
    by_cases h2 : (n.children.filter fun c =>
        containsKV (c, n.id) st.lambdaMap).length + 2 ≤ n.children.length
    · exact h2
    · rw [if_neg h2] at h'
      by_cases h3 : (n.children.filter fun c =>
          containsKV (c, n.id) st.lambdaMap).length + 1 = n.children.length
      · rw [if_pos h3] at h'
        rcases Option.map_eq_some'.mp h' with ⟨s1, -, heq⟩
        have hb : true = false := congrArg Prod.snd heq
        exact Bool.noConfusion hb
      · rw [if_neg h3] at h'
        rcases Option.map_eq_some'.mp h' with ⟨s1, -, heq⟩
        have hb : true = false := congrArg Prod.snd heq
        exact Bool.noConfusion hb
  · rw [if_neg hall] at hpp
    have hb : true = false := congrArg Prod.snd (Option.some.inj hpp)
    exact Bool.noConfusion hb

theorem phasePi_fix_missing {vs : List T} {n : Node T} {ev : List (NodeId × T)}
    {st : PropState T} {flag : Bool} {c0 : NodeId}
    (hupd : st.upd = false) (hnd : n.children.Nodup)
    (hpp : phasePi vs n ev st = some (st, flag))
    (hc0 : c0 ∈ n.children)
    (hmiss : containsKV (n.id, c0) st.piMap = false) :
    (∃ p ∈ n.parents, containsKV (p, n.id) st.piMap = false) ∨
    (∃ c ∈ n.children, c ≠ c0 ∧ containsKV (c, n.id) st.lambdaMap = false) := by
  unfold phasePi at hpp
  by_cases hall : (n.parents.all fun p => containsKV (p, n.id) st.piMap) = true
  · rw [if_pos hall] at hpp
    have h' : (if (n.children.filter fun c =>
          containsKV (c, n.id) st.lambdaMap).length + 2 ≤ n.children.length
        then some (st, false)
        else if (n.children.filter fun c =>
            containsKV (c, n.id) st.lambdaMap).length + 1 = n.children.length
        then (foldSt (fun t c =>
            if containsKV (c, n.id) t.lambdaMap = true then some t
            else processPiChild vs n ev t c) st n.children).map (fun t => (t, true))
        else (foldSt (processPiChild vs n ev) st n.children).map
          fun t => (t, true)) = some (st, flag) := hpp
    by_cases h2 : (n.children.filter fun c =>
        containsKV (c, n.id) st.lambdaMap).length + 2 ≤ n.children.length
    · refine Or.inr ?_
      by_contra hno
      push_neg at hno
      have halmost : ∀ a ∈ n.children, a ≠ c0 →
          containsKV (a, n.id) st.lambdaMap = true := by
        intro a ha hane
        cases hx : containsKV (a, n.id) st.lambdaMap with
        | true => rfl
        | false => exact absurd hx (hno a ha hane)
      have := almost_all_filter_length hnd halmost
      omega
    · rw [if_neg h2] at h'
      by_cases h3 : (n.children.filter fun c =>
          containsKV (c, n.id) st.lambdaMap).length + 1 = n.children.length
      · rw [if_pos h3] at h'
        rcases Option.map_eq_some'.mp h' with ⟨s1, hs1, heq⟩
        have hseq : s1 = st := congrArg Prod.fst heq
        rw [hseq] at hs1
        obtain ⟨-, hall_elem⟩ := foldSt_no_upd
          (fun t c hc s' hs' => by
            by_cases hg : containsKV (c, n.id) t.lambdaMap = true
            · rw [if_pos hg] at hs'
              cases hs'
              exact ⟨Or.inl rfl, fun hu => hu⟩
            · rw [if_neg hg] at hs'
              obtain ⟨hr, -, hm⟩ := processPiChild_bare hs'
              exact ⟨hr, hm⟩)
          hs1 hupd hupd
        have hc0eq : (if containsKV (c0, n.id) st.lambdaMap = true then some st
            else processPiChild vs n ev st c0) = some st := hall_elem c0 hc0
        by_cases hg : containsKV (c0, n.id) st.lambdaMap = true
        · refine Or.inr ?_
          have hlt : (n.children.filter fun c =>
              containsKV (c, n.id) st.lambdaMap).length < n.children.length := by
            omega
          obtain ⟨c, hc, hcf⟩ := exists_false_of_filter_length_lt hlt
          refine ⟨c, hc, ?_, hcf⟩
          intro hce
          rw [hce, hg] at hcf
          exact Bool.noConfusion hcf
        · rw [if_neg hg] at hc0eq
          have hcon := processPiChild_fix_contains hupd hc0eq
          rw [hmiss] at hcon
          exact absurd hcon Bool.false_ne_true
      · rw [if_neg h3] at h'
        rcases Option.map_eq_some'.mp h' with ⟨s1, hs1, heq⟩
        have hseq : s1 = st := congrArg Prod.fst heq
        rw [hseq] at hs1
        obtain ⟨-, hall_elem⟩ := foldSt_no_upd
          (fun t c hc s' hs' => by
            obtain ⟨hr, -, hm⟩ := processPiChild_bare hs'
            exact ⟨hr, hm⟩)
          hs1 hupd hupd
        have hcon := processPiChild_fix_contains hupd (hall_elem c0 hc0)
        rw [hmiss] at hcon
        exact absurd hcon Bool.false_ne_true
  · refine Or.inl ?_
    simp only [List.all_eq_true] at hall
    push_neg at hall
    obtain ⟨p, hp, hpf⟩ := hall
    refine ⟨p, hp, ?_⟩
    cases hx : containsKV (p, n.id) st.piMap with
    | false => rfl
    | true => exact absurd hx hpf

theorem phaseLam_fix_missing {vs : List T} {n : Node T} {ev : List (NodeId × T)}
    {st : PropState T} {p0 : NodeId}
    (hupd : st.upd = false) (hnd : n.parents.Nodup)
    (hpl : phaseLam vs n ev st = some st)
    (hp0 : p0 ∈ n.parents)
    (hmiss : containsKV (n.id, p0) st.lambdaMap = false) :
    (∃ c ∈ n.children, containsKV (c, n.id) st.lambdaMap = false) ∨
    (∃ p ∈ n.parents, p ≠ p0 ∧ containsKV (p, n.id) st.piMap = false) := by
  unfold phaseLam at hpl
  by_cases hall : (n.children.all fun c => containsKV (c, n.id) st.lambdaMap) = true
  · rw [if_pos hall] at hpl
    have h' : (if (n.parents.filter fun p =>
          containsKV (p, n.id) st.piMap).length + 2 ≤ n.parents.length
        then some st
        else if (n.parents.filter fun p =>
            containsKV (p, n.id) st.piMap).length + 1 = n.parents.length
        then foldSt (fun t ip =>
            if containsKV (ip.2, n.id) t.piMap = true then some t
            else processLamParent vs n ev t ip) st n.parents.enum
        else foldSt (processLamParent vs n ev) st n.parents.enum) =
          some st := hpl
    obtain ⟨k, hk, hkp⟩ := List.mem_iff_getElem.mp hp0
    have hkq : n.parents[k]? = some p0 := by
      rw [← hkp]
      exact List.getElem?_eq_getElem hk
    have hkenum : (k, p0) ∈ n.parents.enum := getElem_mem_enum hkq
    by_cases h2 : (n.parents.filter fun p =>
        containsKV (p, n.id) st.piMap).length + 2 ≤ n.parents.length
    · refine Or.inr ?_
      by_contra hno
      push_neg at hno
      have halmost : ∀ a ∈ n.parents, a ≠ p0 →
          containsKV (a, n.id) st.piMap = true := by
        intro a ha hane
        cases hx : containsKV (a, n.id) st.piMap with
        | true => rfl
        | false => exact absurd hx (hno a ha hane)
      have := almost_all_filter_length hnd halmost
      omega
    · rw [if_neg h2] at h'
      by_cases h3 : (n.parents.filter fun p =>
          containsKV (p, n.id) st.piMap).length + 1 = n.parents.length
      · rw [if_pos h3] at h'
        obtain ⟨-, hall_elem⟩ := foldSt_no_upd
          (fun t ip hip s' hs' => by
            by_cases hg : containsKV (ip.2, n.id) t.piMap = true
            · rw [if_pos hg] at hs'
              cases hs'
              exact ⟨Or.inl rfl, fun hu => hu⟩
            · rw [if_neg hg] at hs'
              obtain ⟨hr, -, hm⟩ := processLamParent_bare hs'
              exact ⟨hr, hm⟩)
          h' hupd hupd
        have hp0eq : (if containsKV (p0, n.id) st.piMap = true then some st
            else processLamParent vs n ev st (k, p0)) = some st :=
          hall_elem (k, p0) hkenum
        by_cases hg : containsKV (p0, n.id) st.piMap = true
        · refine Or.inr ?_
          have hlt : (n.parents.filter fun p =>
              containsKV (p, n.id) st.piMap).length < n.parents.length := by
            omega
          obtain ⟨p, hp, hpf⟩ := exists_false_of_filter_length_lt hlt
          refine ⟨p, hp, ?_, hpf⟩
          intro hpe
          rw [hpe, hg] at hpf
          exact Bool.noConfusion hpf
        · rw [if_neg hg] at hp0eq
          have hcon : containsKV (n.id, p0) st.lambdaMap = true :=
            processLamParent_fix_contains hupd hp0eq
          rw [hmiss] at hcon
          exact absurd hcon Bool.false_ne_true
      · rw [if_neg h3] at h'
        obtain ⟨-, hall_elem⟩ := foldSt_no_upd
          (fun t ip hip s' hs' => by
            obtain ⟨hr, -, hm⟩ := processLamParent_bare hs'
            exact ⟨hr, hm⟩)
          h' hupd hupd
        have hcon : containsKV (n.id, p0) st.lambdaMap = true :=
          processLamParent_fix_contains hupd (hall_elem (k, p0) hkenum)
        rw [hmiss] at hcon
        exact absurd hcon Bool.false_ne_true
  · refine Or.inl ?_
    simp only [List.all_eq_true] at hall
    push_neg at hall
    obtain ⟨c, hc, hcf⟩ := hall
    refine ⟨c, hc, ?_⟩
    cases hx : containsKV (c, n.id) st.lambdaMap with
    | false => rfl
    | true => exact absurd hx hcf

theorem fixpoint_no_missing {net : BayesianNetwork T} {ev : List (NodeId × T)}
    {st : PropState T}
    (hwf : PropagationWF net) (hacyc : (skeleton net).IsAcyclic)
    (hupd : st.upd = false)
    (hfix : ∀ n ∈ net.nodes, processNode net.value_space ev st n = some st) :
    ∀ i j, ¬ missingMsg net st i j := by
  refine acyclic_no_descent hacyc (missingMsg net st) ?_ ?_
  · intro x y hM
    have hid := wf_id_at hwf x
    obtain ⟨-, -, -, -, -, hselfc, hselfp⟩ :=
      hwf.2.1 (net.nodes.get x) (get_mem_nodes net.nodes x)
    rcases hM with ⟨hyc, -⟩ | ⟨hyp, -⟩
    · refine ⟨?_, Or.inl hyc⟩
      intro hxy
      rw [← hxy] at hyc
      rw [hid] at hselfc
      exact hselfc hyc
    · refine ⟨?_, Or.inr (Or.inr (Or.inl hyp))⟩
      intro hxy
      rw [← hxy] at hyp
      rw [hid] at hselfp
      exact hselfp hyp
  · intro x y hM
    have hid := wf_id_at hwf x
    have hnmem := get_mem_nodes net.nodes x
    obtain ⟨hcnd, hpnd, hcrange, hprange, hdisj, -, -⟩ := hwf.2.1 _ hnmem
    obtain ⟨flag, hpp, hpl⟩ := processNode_fix hupd (hfix _ hnmem)
    rcases hM with ⟨hyc, hymiss⟩ | ⟨hyp, hymiss⟩
    · rw [← hid] at hymiss
      rcases phasePi_fix_missing hupd hcnd hpp hyc hymiss with
        ⟨p, hp, hpmiss⟩ | ⟨c, hc, hcne, hcmiss⟩
      · refine ⟨⟨p, hprange p hp⟩, Or.inl ⟨(wf_sym hwf ⟨p, hprange p hp⟩ x).mpr hp,
          ?_⟩, ?_⟩
        · rw [hid] at hpmiss
          exact hpmiss
        · intro hzy
          have hv : p = y.1 := congrArg Fin.val hzy
          rw [hv] at hp
          exact hdisj y.1 hyc hp
      · refine ⟨⟨c, hcrange c hc⟩, Or.inr ⟨(wf_sym hwf x ⟨c, hcrange c hc⟩).mp hc,
          ?_⟩, ?_⟩
        · rw [hid] at hcmiss
          exact hcmiss
        · intro hzy
          exact hcne (congrArg Fin.val hzy)
    · rw [← hid] at hymiss
      cases hfl : flag with
      | true =>
          rw [hfl] at hpl
          rcases phaseLam_fix_missing hupd hpnd (hpl rfl) hyp hymiss with
            ⟨c, hc, hcmiss⟩ | ⟨p, hp, hpne, hpmiss⟩
          · refine ⟨⟨c, hcrange c hc⟩,
              Or.inr ⟨(wf_sym hwf x ⟨c, hcrange c hc⟩).mp hc, ?_⟩, ?_⟩
            · rw [hid] at hcmiss
              exact hcmiss
            · intro hzy
              have hv : c = y.1 := congrArg Fin.val hzy
              rw [hv] at hc
              exact hdisj y.1 hc hyp
          · refine ⟨⟨p, hprange p hp⟩,
              Or.inl ⟨(wf_sym hwf ⟨p, hprange p hp⟩ x).mpr hp, ?_⟩, ?_⟩
            · rw [hid] at hpmiss
              exact hpmiss
            · intro hzy
              exact hpne (congrArg Fin.val hzy)
      | false =>
          rw [hfl] at hpp
          have h2c := phasePi_fix_false hpp
          have hlt : ((net.nodes.get x).children.filter fun c =>
              containsKV (c, (net.nodes.get x).id) st.lambdaMap).length <
              (net.nodes.get x).children.length := by omega
          obtain ⟨c, hc, hcmiss⟩ := exists_false_of_filter_length_lt hlt
          refine ⟨⟨c, hcrange c hc⟩,
            Or.inr ⟨(wf_sym hwf x ⟨c, hcrange c hc⟩).mp hc, ?_⟩, ?_⟩
          · rw [hid] at hcmiss
            exact hcmiss
          · intro hzy
            have hv : c = y.1 := congrArg Fin.val hzy
            rw [hv] at hc
            exact hdisj y.1 hc hyp

/-- C3: for a network whose undirected skeleton is acyclic (in particular any
polytree) and any evidence list, the sweep loop of `infer` terminates within
its `fuelOf` budget, halting on the first full sweep that adds no message
(the returned state is a sweep fixpoint with the update flag down); at that
fixpoint the pi-store holds exactly one message per directed parent-to-child
edge and the lambda-store exactly one per child-to-parent edge (the stored
keys are duplicate-free and enumerate exactly the edge lists), every stored
message assigns a value to every domain element, and a message already stored
is never recomputed (the processing step returns the state unchanged whenever
the key is present). -/
theorem infer_polytree_loop_fixpoint {net : BayesianNetwork T}
    (ev : List (NodeId × T))
    (hwf : PropagationWF net) (hacyc : (skeleton net).IsAcyclic) :
    ∃ st : PropState T,
      loop net.value_space net.nodes ev (fuelOf net) ⟨[], [], false⟩ = some st ∧
      st.upd = false ∧
      sweep net.value_space net.nodes ev st = some st ∧
      (st.piMap.map Prod.fst).Nodup ∧
      (st.lambdaMap.map Prod.fst).Nodup ∧
      (∀ k, k ∈ st.piMap.map Prod.fst ↔ k ∈ piEdges net) ∧
      (∀ k, k ∈ st.lambdaMap.map Prod.fst ↔ k ∈ lamEdges net) ∧
      (∀ k m, lookupKV k st.piMap = some m ∨ lookupKV k st.lambdaMap = some m →
        ∀ v ∈ net.value_space, (lookupKV v m).isSome = true) ∧
      (∀ (s : PropState T) (node : Node T) (c : NodeId),
        containsKV (node.id, c) s.piMap = true →
        processPiChild net.value_space node ev s c = some s) ∧
      (∀ (s : PropState T) (node : Node T) (ip : Nat × NodeId),
        containsKV (node.id, ip.2) s.lambdaMap = true →
        processLamParent net.value_space node ev s ip = some s) := by
  have hC30 : C3Inv net (⟨[], [], false⟩ : PropState T) := by
    refine ⟨?_, List.nodup_nil, List.nodup_nil, ?_, ?_⟩
    · intro k m h
      rcases h with h | h <;> exact Option.noConfusion h
    · intro k hk
      exact absurd hk (List.not_mem_nil k)
    · intro k hk
      exact absurd hk (List.not_mem_nil k)
  obtain ⟨st, hloop, hinv, hupd, hsweep, hfixall⟩ :=
    @loop_sp T _ net ev (propagationWF_nodeC3WF hwf) (fuelOf net)
      ⟨[], [], false⟩ hC30 rfl
      (by rw [edges_length_fuel net]; exact Nat.le_add_right _ _)
  have hnomiss := fixpoint_no_missing hwf hacyc hupd hfixall
  refine ⟨st, hloop, hupd, hsweep, hinv.2.1, hinv.2.2.1, ?_, ?_, hinv.1,
    ?_, ?_⟩
  · intro k
    refine ⟨fun hk => hinv.2.2.2.1 k hk, fun hk => ?_⟩
    obtain ⟨n, hn, hk1, hk2⟩ := piEdges_mem_inv hk
    obtain ⟨idx, hlt, hidx⟩ := List.mem_iff_getElem.mp hn
    have henum : (idx, n) ∈ net.nodes.enum := getElem_mem_enum (by
      rw [List.getElem?_eq_getElem hlt]
      rw [hidx])
    have hid : n.id = idx := hwf.1 (idx, n) henum
    have hget : net.nodes.get ⟨idx, hlt⟩ = n := by
      rw [List.get_eq_getElem]
      exact hidx
    have hcr := (hwf.2.1 n hn).2.2.1 k.2 hk2
    have hnm := hnomiss ⟨idx, hlt⟩ ⟨k.2, hcr⟩
    have hcont : containsKV (idx, k.2) st.piMap = true := by
      cases hx : containsKV (idx, k.2) st.piMap with
      | true => rfl
      | false =>
          exfalso
          refine hnm (Or.inl ⟨?_, hx⟩)
          rw [hget]
          exact hk2
    have hkeq : k = (idx, k.2) := by
      rw [← hid, ← hk1]
    rw [hkeq]
    exact containsKV_mem_keys hcont
  · intro k
    refine ⟨fun hk => hinv.2.2.2.2 k hk, fun hk => ?_⟩
    obtain ⟨n, hn, hk1, hk2⟩ := lamEdges_mem_inv hk
    obtain ⟨idx, hlt, hidx⟩ := List.mem_iff_getElem.mp hn
    have henum : (idx, n) ∈ net.nodes.enum := getElem_mem_enum (by
      rw [List.getElem?_eq_getElem hlt]
      rw [hidx])
    have hid : n.id = idx := hwf.1 (idx, n) henum
    have hget : net.nodes.get ⟨idx, hlt⟩ = n := by
      rw [List.get_eq_getElem]
      exact hidx
    have hpr := (hwf.2.1 n hn).2.2.2.1 k.2 hk2
    have hnm := hnomiss ⟨idx, hlt⟩ ⟨k.2, hpr⟩
    have hcont : containsKV (idx, k.2) st.lambdaMap = true := by
      cases hx : containsKV (idx, k.2) st.lambdaMap with
      | true => rfl
      | false =>
          exfalso
          refine hnm (Or.inr ⟨?_, hx⟩)
          rw [hget]
          exact hk2
    have hkeq : k = (idx, k.2) := by
      rw [← hid, ← hk1]
    rw [hkeq]
    exact containsKV_mem_keys hcont
  · intro s node c hc
    unfold processPiChild
    rw [if_pos hc]
  · intro s node ip hip
    unfold processLamParent
    rw [if_pos hip]

/-- Instantiation of the C3 fixpoint theorem on the two-node chain `netAB0`
with empty evidence. -/
theorem infer_polytree_loop_fixpoint_witness :
    ∃ st : PropState Nat,
      loop netAB0.value_space netAB0.nodes [] (fuelOf netAB0)
        ⟨[], [], false⟩ = some st ∧ st.upd = false := by
  obtain ⟨st, h1, h2, -⟩ := @infer_polytree_loop_fixpoint Nat _ netAB0 []
    (by unfold PropagationWF; with_unfolding_all decide)
    (acyclic_of_card_lt (by with_unfolding_all decide))
  exact ⟨st, h1, h2⟩

end BN
